import Mathlib

set_option maxRecDepth 100000

/-!
Verification development for the esa-matchfinder library (enhanced suffix
array based Lempel-Ziv match finder).

The C sources are shallowly embedded as follows:
* The packed 64-bit interval-tree node words (`uint64_t` entries of
  `sa_parent_link`) are `Nat` values kept below `2 ^ 64`; the three
  bit-fields (lcp : 6 bits at shift 58, offset : 29 bits at shift 29,
  parent : 29 bits at shift 0) are extracted with division / modulus,
  which agrees with the C shift-and-mask code for any word below `2 ^ 64`.
* C arrays (`sa_parent_link`, `plcp_leaf_link`) are function stores
  `Nat → Nat`; a store update is `upd`.
* The external libsais oracle (suffix array + PLCP construction, not part
  of this repository) is modelled from the spec as lexicographic sorting
  of all suffixes and the textbook PLCP definition.
* The unbounded bottom-up `while` walks of the factorization phase are
  given fuel `ESA_MATCHFINDER_MAX_MATCH_LENGTH = 64`: under the interval
  tree invariants proved below, a walk visits nodes of strictly
  decreasing pruned lcp in the range `[1, 63]`, so it reaches the root
  within 63 steps and the fueled walk agrees with the C loop.
-/

namespace EsaMf

/-! ### Constants (esa_matchfinder.h and esa_matchfinder.c) -/

def ESA_MATCHFINDER_MATCH_BITS : Nat := 6

def ESA_MATCHFINDER_MAX_BLOCK_SIZE : Nat := 2 ^ ((64 - ESA_MATCHFINDER_MATCH_BITS) / 2)

def ESA_MATCHFINDER_MIN_MATCH_LENGTH : Nat := 2

def ESA_MATCHFINDER_MAX_MATCH_LENGTH : Nat := 2 ^ ESA_MATCHFINDER_MATCH_BITS

def ESA_MF_LCP_MAX : Nat := 2 ^ ESA_MATCHFINDER_MATCH_BITS - 1

def ESA_MF_LCP_SHIFT : Nat := 58

def ESA_MF_OFFSET_SHIFT : Nat := 29

def ESA_MF_OFFSET_MASK : Nat := (2 ^ 29 - 1) * 2 ^ 29

/-! ### Bit-field access on packed node words

For a word `w < 2 ^ 64`:
`w >> ESA_MF_LCP_SHIFT` is `w / 2 ^ 58`;
`(w & ESA_MF_OFFSET_MASK) >> ESA_MF_OFFSET_SHIFT` is `w / 2 ^ 29 % 2 ^ 29`;
`w & ESA_MF_PARENT_MASK` is `w % 2 ^ 29`;
`w & ~ESA_MF_OFFSET_MASK` is `w - (w / 2 ^ 29 % 2 ^ 29) * 2 ^ 29`. -/

def lcpOf (w : Nat) : Nat := w / 2 ^ 58

def offsetOf (w : Nat) : Nat := w / 2 ^ 29 % 2 ^ 29

def parentOf (w : Nat) : Nat := w % 2 ^ 29

/-- `w & ~ESA_MF_OFFSET_MASK`: clear the offset bit-field. -/
def clearOffset (w : Nat) : Nat := w - offsetOf w * 2 ^ 29

/-- `(interval & (~ESA_MF_OFFSET_MASK)) + (position << ESA_MF_OFFSET_SHIFT)`:
the offset-field update performed by the factorization walks. -/
def stampWord (w pos : Nat) : Nat := clearOffset w + pos * 2 ^ 29

/-- Function-store update, modelling a C array element assignment. -/
def upd (f : Nat → Nat) (i v : Nat) : Nat → Nat := fun j => if j = i then v else f j

/-! ### The suffix array / PLCP oracle (external libsais library)

libsais is not part of this repository; the spec treats it as a black-box
oracle returning the suffix array and the permuted LCP array. -/

/-- An input block is a list of byte values. -/
abbrev Block := List Nat

/-- Lexicographic comparison of two suffix tails (a shorter list that is a
prefix of the other compares as smaller, matching suffix order of a text). -/
def lexLe : List Nat → List Nat → Bool
  | [], _ => true
  | _ :: _, [] => false
  | a :: as, b :: bs => if a < b then true else if b < a then false else lexLe as bs

/-- Suffix `i` of `t` is lexicographically at most suffix `j`. -/
def suffixLE (t : Block) (i j : Nat) : Prop := lexLe (t.drop i) (t.drop j) = true

instance (t : Block) : DecidableRel (suffixLE t) := fun _ _ =>
  inferInstanceAs (Decidable (_ = true))

/-- Modelled from the spec: the external libsais oracle's suffix array —
"permutation of `[0, block_size)` sorting the block's suffixes
lexicographically". -/
def suffixArray (t : Block) : List Nat :=
  List.insertionSort (suffixLE t) (List.range t.length)

/-- Length of the longest common prefix of two lists. -/
def lcpLen : List Nat → List Nat → Nat
  | a :: as, b :: bs => if a = b then lcpLen as bs + 1 else 0
  | _, _ => 0

/-- Modelled from the spec: the external libsais oracle's permuted LCP
array — "for each text position `p`, the LCP of `p`'s suffix with its
SA-predecessor's suffix" (zero for the suffix of rank 0). -/
def plcpOf (t : Block) (p : Nat) : Nat :=
  match (suffixArray t).indexOf p with
  | 0 => 0
  | r + 1 => lcpLen (t.drop ((suffixArray t).getD r 0)) (t.drop p)

/-! ### esa_matchfinder_build_interval_tree

Faithful transcription of the single-threaded right-to-left monotone-stack
sweep.  The stack is a list whose head is the top (`top_interval`); the
bottom sentinel is the root value `0`.  Stack entries are
`lcp * 2 ^ 58 + index` words.  `(uint32)x` is `x % 2 ^ 32` (note
`2 ^ 58 ≡ 0 [MOD 2 ^ 32]`, so the low 32 bits of a stack entry are its
index). -/

structure BuildSt where
  sa : Nat → Nat
  pl : Nat → Nat
  stk : List Nat
  nxt : Nat

/-- The inner `while (next_lcp < top_interval_lcp)` closing loop.  Each
iteration pops the closed top, optionally pushes the candidate interval
(after which the loop condition fails and the loop exits), and writes the
closed node's slot with `(uint32)top_interval + (closed & ESA_MF_LCP_MASK)`. -/
def closeLoop (nextLcp nextInterval : Nat) :
    List Nat → Nat → (Nat → Nat) → List Nat × Nat × (Nat → Nat)
  | top :: below :: rest, nxt, sa =>
    if nextLcp < top / 2 ^ 58 then
      if below / 2 ^ 58 < nextLcp then
        (nextInterval :: below :: rest, nxt - 1,
          upd sa (top % 2 ^ 32) (nextInterval % 2 ^ 32 + top / 2 ^ 58 * 2 ^ 58))
      else
        closeLoop nextLcp nextInterval (below :: rest) nxt
          (upd sa (top % 2 ^ 32) (below % 2 ^ 32 + top / 2 ^ 58 * 2 ^ 58))
    else (top :: below :: rest, nxt, sa)
  | stk, nxt, sa => (stk, nxt, sa)

/-- One iteration of the sweep, at suffix-array index `i`.
`next_lcp` is the pruned PLCP value: the C code computes
`plcp[next_pos] - min_match_length` in `uint64`, clamps negatives to 0 and
clamps above by the adjusted maximum, which for the in-range values at
hand is exactly `min (plcp next_pos - min1) maxAdj` on `Nat` (truncated
subtraction clamps the negatives). -/
def buildStep (min1 maxAdj i : Nat) (st : BuildSt) : BuildSt :=
  let nextPos := st.sa i
  let nextLcp := min (st.pl nextPos - min1) maxAdj
  let nextInterval := nextLcp * 2 ^ 58 + st.nxt
  let stk1 := if st.stk.headD 0 / 2 ^ 58 < nextLcp then nextInterval :: st.stk else st.stk
  let nxt1 := if st.stk.headD 0 / 2 ^ 58 < nextLcp then st.nxt - 1 else st.nxt
  let pl1 := upd st.pl nextPos (stk1.headD 0 % 2 ^ 32)
  let r := closeLoop nextLcp nextInterval stk1 nxt1 st.sa
  { sa := r.2.2, pl := pl1, stk := r.1, nxt := r.2.1 }

/-- The sweep: `buildLoop min1 maxAdj k st` processes indices
`k - 1, k - 2, …, 0` (the C `for` loop runs `i` from the end down to the
block start). -/
def buildLoop (min1 maxAdj : Nat) : Nat → BuildSt → BuildSt
  | 0, st => st
  | k + 1, st => buildLoop min1 maxAdj k (buildStep min1 maxAdj k st)

/-! ### Session state and esa_matchfinder_parse -/

/-- Session state after a successful parse: the two storage views, the
span `[treeStart, treeEnd)` of node slots written by the builder (the
single-threaded thread-state record), the block size, the configured
`min_match_length - 1` and the pruned-lcp clamp
`max_match_length - (min_match_length - 1)`, and the current position. -/
structure MF where
  sa : Nat → Nat
  pl : Nat → Nat
  treeStart : Nat
  treeEnd : Nat
  n : Nat
  min1 : Nat
  maxAdj : Nat
  pos : Nat

/-- `esa_matchfinder_parse`: run the oracle, build the interval tree over
the whole block (single-threaded path of
`esa_matchfinder_build_interval_tree_omp`), then set the root sentinel
`sa_parent_link[0] = ESA_MF_OFFSET_MASK` and reset the position to 0. -/
def esa_matchfinder_parse (t : Block) (minLen maxLen : Nat) : MF :=
  let n := t.length
  let st0 : BuildSt :=
    { sa := fun j => (suffixArray t).getD j 0, pl := plcpOf t, stk := [0], nxt := n - 1 }
  let stF := buildLoop (minLen - 1) (maxLen - (minLen - 1)) n st0
  { sa := upd stF.sa 0 ESA_MF_OFFSET_MASK, pl := stF.pl,
    treeStart := stF.nxt + 1, treeEnd := n, n := n,
    min1 := minLen - 1, maxAdj := maxLen - (minLen - 1), pos := 0 }

/-! ### The factorization walks -/

/-- An `ESA_MATCHFINDER_MATCH` record.  Both fields are below `2 ^ 31` in
every state considered here, so `Nat` faithfully represents the `int32_t`
fields. -/
structure MatchRec where
  length : Nat
  offset : Nat
deriving DecidableEq, Repr

/-- The packed 64-bit match value computed at a visited interval word `w`:
`min_match_length_minus_1 + (interval >> ESA_MF_LCP_SHIFT)
 + ((interval & ESA_MF_OFFSET_MASK) << (32 - ESA_MF_OFFSET_SHIFT))`,
i.e. the match length in the low 32 bits and the stamped prior position in
the high 32 bits. -/
def matchVal (min1 w : Nat) : Nat := min1 + lcpOf w + offsetOf w * 2 ^ 32

/-- The match record written to the output slot for a visited word: the
`int32` split of `matchVal`. -/
def mkRec (min1 w : Nat) : MatchRec :=
  { length := matchVal min1 w % 2 ^ 32, offset := matchVal min1 w / 2 ^ 32 }

/-- Result of a `find_all_matches` walk: the updated node array, the
caller-visible records (those past which the output pointer advanced), the
list of visited words (a record is written for every visited word; a
record not followed by a pointer advance is overwritten), and the final
reference (0 when the walk reached the root). -/
structure WalkOut where
  sa : Nat → Nat
  out : List MatchRec
  trace : List Nat
  last : Nat

/-- The `while (reference != 0)` loop of `esa_matchfinder_find_all_matches`:
read the interval word, write the match record, advance the output pointer
iff the packed match value exceeds the previous one (`best_match`), stamp
the current position into the offset field, follow the parent field. -/
def findAllLoop (min1 pos : Nat) : Nat → (Nat → Nat) → Nat → Nat → WalkOut
  | 0, sa, ref, _ => { sa := sa, out := [], trace := [], last := ref }
  | fuel + 1, sa, ref, best =>
    if ref = 0 then { sa := sa, out := [], trace := [], last := 0 }
    else
      let w := sa ref
      let m := matchVal min1 w
      let r := findAllLoop min1 pos fuel (upd sa ref (stampWord w pos)) (parentOf w) m
      { sa := r.sa,
        out := if best < m then mkRec min1 w :: r.out else r.out,
        trace := w :: r.trace,
        last := r.last }

/-- `esa_matchfinder_find_all_matches`: walk from `plcp_leaf_link[position]`
with `best_match` initialized to `ESA_MATCHFINDER_MAX_MATCH_LENGTH`, then
advance the position by one. -/
def esa_matchfinder_find_all_matches (mf : MF) : MF × List MatchRec :=
  let r := findAllLoop mf.min1 mf.pos ESA_MATCHFINDER_MAX_MATCH_LENGTH
    mf.sa (mf.pl mf.pos) ESA_MATCHFINDER_MAX_MATCH_LENGTH
  ({ mf with sa := r.sa, pos := mf.pos + 1 }, r.out)

/-- The `while (reference != 0)` loop of `esa_matchfinder_find_best_match`:
`match` falls back to `best_match` at an unstamped interval, `best_match`
latches the first value seen while it is still 0. -/
def findBestLoop (min1 pos : Nat) : Nat → (Nat → Nat) → Nat → Nat → (Nat → Nat) × Nat
  | 0, sa, _, best => (sa, best)
  | fuel + 1, sa, ref, best =>
    if ref = 0 then (sa, best)
    else
      let w := sa ref
      let m := if offsetOf w ≠ 0 then matchVal min1 w else best
      let best1 := if best = 0 then m else best
      findBestLoop min1 pos fuel (upd sa ref (stampWord w pos)) (parentOf w) best1

/-- `esa_matchfinder_find_best_match`: walk with `best_match` initialized
to 0, split the packed result into the match record, advance by one. -/
def esa_matchfinder_find_best_match (mf : MF) : MF × MatchRec :=
  let r := findBestLoop mf.min1 mf.pos ESA_MATCHFINDER_MAX_MATCH_LENGTH
    mf.sa (mf.pl mf.pos) 0
  ({ mf with sa := r.1, pos := mf.pos + 1 },
   { length := r.2 % 2 ^ 32, offset := r.2 / 2 ^ 32 })

/-- The stamping-only walk shared by `esa_matchfinder_advance` (its inner
`while (reference != 0)` loop). -/
def stampLoop (pos : Nat) : Nat → (Nat → Nat) → Nat → Nat → Nat
  | 0, sa, _ => sa
  | fuel + 1, sa, ref =>
    if ref = 0 then sa
    else
      let w := sa ref
      stampLoop pos fuel (upd sa ref (stampWord w pos)) (parentOf w)

/-- The positions loop of `esa_matchfinder_advance`: stamp positions
`pos, pos + 1, …, pos + c - 1`. -/
def advanceLoop (pl : Nat → Nat) : Nat → Nat → (Nat → Nat) → Nat → Nat
  | 0, _, sa => sa
  | c + 1, pos, sa =>
    advanceLoop pl c (pos + 1) (stampLoop pos ESA_MATCHFINDER_MAX_MATCH_LENGTH sa (pl pos))

/-- `esa_matchfinder_advance`. -/
def esa_matchfinder_advance (mf : MF) (count : Nat) : MF :=
  { mf with sa := advanceLoop mf.pl count mf.pos mf.sa, pos := mf.pos + count }

/-- The inner walk of `esa_matchfinder_fast_forward`: stamp along the leaf
chain while the offset field is zero (`sa_parent_link[reference] =
interval + offset; reference = (uint32)interval`), stopping at the first
stamped interval (the root sentinel's offset field is all-ones). -/
def ffWalk (pos : Nat) : Nat → (Nat → Nat) → Nat → Nat → Nat
  | 0, sa, _ => sa
  | fuel + 1, sa, ref =>
    let w := sa ref
    if offsetOf w = 0 then ffWalk pos fuel (upd sa ref (w + pos * 2 ^ 29)) (w % 2 ^ 32)
    else sa

/-- The positions loop of `esa_matchfinder_fast_forward`:
`position` runs from `target - 1` down to 1 (position 0 is not replayed). -/
def ffLoop (pl : Nat → Nat) : Nat → (Nat → Nat) → Nat → Nat
  | 0, sa => sa
  | p + 1, sa =>
    if p = 0 then sa
    else ffLoop pl p (ffWalk p ESA_MATCHFINDER_MAX_MATCH_LENGTH sa (pl p))

/-- `esa_matchfinder_reset_interval_tree`: clear the offset field of every
node slot in `[lo, hi)` (stated pointwise over the function store). -/
def resetRange (sa : Nat → Nat) (lo hi : Nat) : Nat → Nat :=
  fun j => if lo ≤ j ∧ j < hi then clearOffset (sa j) else sa j

/-- `esa_matchfinder_rewind`: out-of-range target is a parameter error
(no effect); an equal target is a no-op; otherwise clear the offset fields
of the slots written by the builder (when the current position is
non-zero) and replay positions `1 … target - 1` with the fast-forward
walks (when the target is positive). -/
def esa_matchfinder_rewind (mf : MF) (target : Nat) : MF :=
  if mf.n ≤ target then mf
  else if mf.pos = target then mf
  else
    let a1 := if mf.pos ≠ 0 then resetRange mf.sa mf.treeStart mf.treeEnd else mf.sa
    let a2 := if 0 < target then ffLoop mf.pl target a1 else a1
    { mf with sa := a2, pos := target }

/-! ### esa_matchfinder_create parameter validation

Allocation is abstracted away (out of scope per the spec): the model
captures exactly the parameter-validation predicate deciding whether
`esa_matchfinder_create` proceeds to allocation or returns NULL. -/

def esa_matchfinder_create_accepts
    (maxBlockSize minMatchLength maxMatchLength : Int) : Bool :=
  !(decide (maxBlockSize < 0) ||
    decide (maxBlockSize > (ESA_MATCHFINDER_MAX_BLOCK_SIZE : Int)) ||
    decide (minMatchLength < (ESA_MATCHFINDER_MIN_MATCH_LENGTH : Int)) ||
    decide (maxMatchLength > (ESA_MF_LCP_MAX : Int) + minMatchLength - 1) ||
    decide (maxMatchLength < minMatchLength))

/-! ### Operation sequences over a session -/

/-- The factorization-phase operations. -/
inductive Op where
  | findAll : Op
  | findBest : Op
  | adv : Nat → Op
  | rew : Nat → Op

def execOp (mf : MF) : Op → MF
  | .findAll => (esa_matchfinder_find_all_matches mf).1
  | .findBest => (esa_matchfinder_find_best_match mf).1
  | .adv c => esa_matchfinder_advance mf c
  | .rew t => esa_matchfinder_rewind mf t

def execOps : MF → List Op → MF
  | mf, [] => mf
  | mf, o :: l => execOps (execOp mf o) l

/-- The documented precondition of one operation: consumed positions stay
inside `[0, block_size)`. -/
def preOp (mf : MF) : Op → Bool
  | .findAll => decide (mf.pos < mf.n)
  | .findBest => decide (mf.pos < mf.n)
  | .adv c => decide (mf.pos + c ≤ mf.n)
  | .rew t => decide (t < mf.n)

/-- A sequence of operations each executed under its documented
precondition. -/
def wfOps : MF → List Op → Bool
  | _, [] => true
  | mf, o :: l => preOp mf o && wfOps (execOp mf o) l

/-! ### Concrete runs used in the statements below -/

/-- Consume positions with successive `find_all_matches` calls, collecting
the per-position outputs. -/
def consumeAllFrom : MF → Nat → List (List MatchRec)
  | _, 0 => []
  | mf, k + 1 =>
    let r := esa_matchfinder_find_all_matches mf
    r.2 :: consumeAllFrom r.1 k

/-- Parse a block and consume every position with `find_all_matches`. -/
def consumeAll (t : Block) (minLen maxLen : Nat) : List (List MatchRec) :=
  consumeAllFrom (esa_matchfinder_parse t minLen maxLen) t.length

/-- The block `b"aaaaaa"`. -/
def blockA : Block := [97, 97, 97, 97, 97, 97]

/-- The block `b"abcabc"`. -/
def blockB : Block := [97, 98, 99, 97, 98, 99]

/-- The block `b"zabcyabzabc"`. -/
def blockZ : Block := [122, 97, 98, 99, 121, 97, 98, 122, 97, 98, 99]

/-- The block `b"aaabaaaab"`. -/
def blockP : Block := [97, 97, 97, 98, 97, 97, 97, 97, 98]

/-- A block of 66 repeated bytes. -/
def blockR : Block := List.replicate 66 97

/-- The session on `blockA` after parsing and consuming positions 0, 1, 2:
the next `find_all_matches` call consumes position 3. -/
def mfA3 : MF := esa_matchfinder_advance (esa_matchfinder_parse blockA 2 64) 3

/-- The walk performed by `esa_matchfinder_find_all_matches` on `mfA3`
(consuming position 3). -/
def walkA3 : WalkOut :=
  findAllLoop mfA3.min1 mfA3.pos ESA_MATCHFINDER_MAX_MATCH_LENGTH
    mfA3.sa (mfA3.pl mfA3.pos) ESA_MATCHFINDER_MAX_MATCH_LENGTH

/-- The parsed session on `blockP`. -/
def mfP : MF := esa_matchfinder_parse blockP 2 64

/-- The match lengths of a record list are strictly decreasing. -/
def lengthsDecreasing : List MatchRec → Bool
  | a :: b :: l => decide (b.length < a.length) && lengthsDecreasing (b :: l)
  | _ => true

/-- The stamped source positions (offset fields) of a record list are
strictly decreasing. -/
def stampsDecreasing : List MatchRec → Bool
  | a :: b :: l => decide (b.offset < a.offset) && stampsDecreasing (b :: l)
  | _ => true

/-- The stamped source positions (offset fields) of a record list are
strictly increasing. -/
def stampsIncreasing : List MatchRec → Bool
  | a :: b :: l => decide (a.offset < b.offset) && stampsIncreasing (b :: l)
  | _ => true

/-! ### Builder verification: invariants and tree well-formedness -/

/-- The suffix-array entry function used by the sweep. -/
def SAfun (t : Block) (j : Nat) : Nat := (suffixArray t).getD j 0

def lcpValue (reps : List Nat) (sa : Nat → Nat) (x : Nat) : Nat :=
  match reps.find? (fun r => r % 2 ^ 58 == x) with
  | some r => r / 2 ^ 58
  | none => lcpOf (sa x)

structure StackInv (n maxAdj : Nat) (SAf : Nat → Nat)
    (reps : List Nat) (nxt : Nat) (sa : Nat → Nat) : Prop where
  repLcpLo : ∀ r ∈ reps, 1 ≤ r / 2 ^ 58
  repLcpHi : ∀ r ∈ reps, r / 2 ^ 58 ≤ maxAdj
  repIdxLo : ∀ r ∈ reps, nxt < r % 2 ^ 58
  repIdxHi : ∀ r ∈ reps, r % 2 ^ 58 < n
  lcpChain : List.Chain' (fun a b => b / 2 ^ 58 < a / 2 ^ 58) (reps ++ [0])
  idxChain : List.Chain' (fun a b => a % 2 ^ 58 < b % 2 ^ 58) reps
  nxtLt : nxt < n
  untouched : ∀ j, j ≤ nxt ∨ n ≤ j → sa j = SAf j
  staleStack : ∀ r ∈ reps, sa (r % 2 ^ 58) = SAf (r % 2 ^ 58)
  closedWf : ∀ c, nxt < c → c < n → ¬ c ∈ reps.map (· % 2 ^ 58) →
    ∃ l p, sa c = l * 2 ^ 58 + p ∧ 1 ≤ l ∧ l ≤ maxAdj ∧ p < n ∧
      (p = 0 ∨ (nxt < p ∧ lcpValue reps sa p < l))

/-- The full sweep invariant: the stack invariant plus the relation of the
`plcp_leaf_link` buffer to the iteration counter (`k` iterations remain;
entries at processed ranks have been replaced by leaf links). -/
structure SweepInv (n maxAdj : Nat) (SAf plcp0 : Nat → Nat) (k : Nat)
    (reps : List Nat) (st : BuildSt) : Prop where
  stkEq : st.stk = reps ++ [0]
  sinv : StackInv n maxAdj SAf reps st.nxt st.sa
  nxtGe : k ≤ st.nxt + 1
  plUn : ∀ j, j < k → st.pl (SAf j) = plcp0 (SAf j)
  plPr : ∀ j, k ≤ j → j < n → st.pl (SAf j) = 0 ∨
    (st.nxt < st.pl (SAf j) ∧ st.pl (SAf j) < n)

/-- Well-formedness of the interval tree after `esa_matchfinder_parse`:
the root sentinel carries the all-ones offset; every node slot written by
the builder has a pruned lcp in `[1, maxAdj]`, a cleared offset field and
a parent that is either the root or another builder slot of strictly
smaller lcp; every leaf link is the root or a builder slot. -/
structure TreeWf (mf : MF) : Prop where
  root : mf.sa 0 = ESA_MF_OFFSET_MASK
  ts1 : 1 ≤ mf.treeStart
  teEq : mf.treeEnd = mf.n
  node : ∀ c, mf.treeStart ≤ c → c < mf.n →
    1 ≤ lcpOf (mf.sa c) ∧ lcpOf (mf.sa c) ≤ mf.maxAdj ∧ offsetOf (mf.sa c) = 0 ∧
    (parentOf (mf.sa c) = 0 ∨
      (mf.treeStart ≤ parentOf (mf.sa c) ∧ parentOf (mf.sa c) < mf.n ∧
       lcpOf (mf.sa (parentOf (mf.sa c))) < lcpOf (mf.sa c)))
  leaf : ∀ p, p < mf.n → mf.pl p = 0 ∨ (mf.treeStart ≤ mf.pl p ∧ mf.pl p < mf.n)

/-- Iterated parent-following in the node array: `parentIter sa k ref`
follows the parent field `k` times starting from node index `ref`. -/
def parentIter (sa : Nat → Nat) : Nat → Nat → Nat
  | 0, ref => ref
  | k + 1, ref => parentIter sa k (parentOf (sa ref))

/-- The lcp/parent-field well-formedness of the node range `[ts, n)`
(stable under all factorization-phase operations, which only restamp the
offset fields): every node has a pruned lcp in `[1, maxAdj]` and a parent
that is the root or another node of strictly smaller lcp. -/
def NodeWf (ts n maxAdj : Nat) (sa : Nat → Nat) : Prop :=
  ∀ c, ts ≤ c → c < n → 1 ≤ lcpOf (sa c) ∧ lcpOf (sa c) ≤ maxAdj ∧
    (parentOf (sa c) = 0 ∨ (ts ≤ parentOf (sa c) ∧ parentOf (sa c) < n ∧
      lcpOf (sa (parentOf (sa c))) < lcpOf (sa c)))

/-- The list of node indices visited by a bottom-up walk from `ref`
(following parent fields, stopping at the root index 0 or when the fuel
runs out). -/
def walkList (sa : Nat → Nat) : Nat → Nat → List Nat
  | 0, _ => []
  | fuel + 1, ref => if ref = 0 then [] else ref :: walkList sa fuel (parentOf (sa ref))

/-- The latest position in `[lo, lo + c)` whose walk visits node `j`
(0 when no such position exists; positions are at least 1 when `1 ≤ lo`). -/
def maxTouch (sa0 pl : Nat → Nat) (lo : Nat) : Nat → Nat → Nat
  | 0, _ => 0
  | c + 1, j =>
    if j ∈ walkList sa0 ESA_MATCHFINDER_MAX_MATCH_LENGTH (pl (lo + c)) then lo + c
    else maxTouch sa0 pl lo c j

/-- The canonical stamped node array: every node carries the stamp of the
latest position in `[lo, lo + c)` whose walk visits it (and its clean
post-parse word when no walk does). -/
def canonArr (sa0 pl : Nat → Nat) (lo c : Nat) : Nat → Nat :=
  fun j =>
    if maxTouch sa0 pl lo c j = 0 then sa0 j
    else stampWord (sa0 j) (maxTouch sa0 pl lo c j)

/-- The clean interval tree produced by a parse, as consumed by the
factorization phase: field well-formedness, cleared offsets, the root
sentinel's non-zero offset field, and well-formed leaf links. -/
structure CleanTree (ts n maxAdj : Nat) (sa0 pl : Nat → Nat) : Prop where
  wf : NodeWf ts n maxAdj sa0
  clean : ∀ c, ts ≤ c → c < n → offsetOf (sa0 c) = 0
  root : offsetOf (sa0 0) ≠ 0
  ts1 : 1 ≤ ts
  leaf : ∀ p, p < n → pl p = 0 ∨ (ts ≤ pl p ∧ pl p < n)
  n29 : n ≤ 2 ^ 29
  maxA : maxAdj ≤ 63

end EsaMf

namespace EsaMf

/-! ### Arithmetic facts about the packed bit-fields -/

theorem offsetOf_lt (w : Nat) : offsetOf w < 2 ^ 29 :=
  Nat.mod_lt _ (by norm_num)

theorem lcpOf_lt (w : Nat) (h : w < 2 ^ 64) : lcpOf w < 2 ^ 6 := by
  unfold lcpOf; omega

theorem parentOf_lt (w : Nat) : parentOf w < 2 ^ 29 :=
  Nat.mod_lt _ (by norm_num)

/-- Clearing the offset field keeps exactly the lcp and parent fields. -/
theorem clearOffset_eq (w : Nat) :
    clearOffset w = lcpOf w * 2 ^ 58 + parentOf w := by
  unfold clearOffset offsetOf lcpOf parentOf; omega

/-- Stamping writes the position into the offset field and preserves the
lcp and parent fields. -/
theorem stampWord_fields (w pos : Nat) (hw : w < 2 ^ 64) (hp : pos < 2 ^ 29) :
    lcpOf (stampWord w pos) = lcpOf w ∧ offsetOf (stampWord w pos) = pos ∧
    parentOf (stampWord w pos) = parentOf w ∧ stampWord w pos < 2 ^ 64 := by
  unfold stampWord clearOffset offsetOf lcpOf parentOf; omega

theorem upd_bound {sa : Nat → Nat} (h : ∀ j, sa j < 2 ^ 64) {i v : Nat}
    (hv : v < 2 ^ 64) : ∀ j, upd sa i v j < 2 ^ 64 := by
  intro j; unfold upd
  by_cases hji : j = i
  · simpa [hji] using hv
  · simpa [hji] using h j

/-- The `int32` split of a written match record, when the fields are in
range: length `(min_match_length − 1) + lcp`, offset the stored prior
position. -/
theorem mkRec_eq (min1 w : Nat) (hl : lcpOf w < 2 ^ 6) (hmin : min1 + 2 ^ 6 ≤ 2 ^ 32) :
    mkRec min1 w = ⟨min1 + lcpOf w, offsetOf w⟩ := by
  have ho : offsetOf w < 2 ^ 29 := offsetOf_lt w
  unfold mkRec matchVal
  simp only [MatchRec.mk.injEq]
  constructor
  · omega
  · omega

/-! ### C10: create parameter validation -/

/-- C10 (counterexample): the parameter triple
`(max_block_size, min, max) = (1024, 2, 65)` satisfies every constraint of
the claim — in particular `max = ESA_MATCHFINDER_MAX_MATCH_LENGTH + min − 1`
is exactly the boundary the claim says is accepted — yet
`esa_matchfinder_create` rejects it (returns NULL). -/
theorem create_boundary_counterexample :
    ((0 : Int) ≤ 1024 ∧ (1024 : Int) ≤ (ESA_MATCHFINDER_MAX_BLOCK_SIZE : Int) ∧
     (ESA_MATCHFINDER_MIN_MATCH_LENGTH : Int) ≤ 2 ∧ (2 : Int) ≤ 65 ∧
     (65 : Int) = (ESA_MATCHFINDER_MAX_MATCH_LENGTH : Int) + 2 - 1) ∧
    esa_matchfinder_create_accepts 1024 2 65 = false := by decide

/-- C10 (amended): `esa_matchfinder_create` accepts exactly the triples with
`0 ≤ max_block_size ≤ ESA_MATCHFINDER_MAX_BLOCK_SIZE`,
`min_match_length ≥ ESA_MATCHFINDER_MIN_MATCH_LENGTH`,
`min_match_length ≤ max_match_length`, and
`max_match_length ≤ ESA_MF_LCP_MAX + min_match_length − 1` (the bound uses
`ESA_MF_LCP_MAX = 63`, not `ESA_MATCHFINDER_MAX_MATCH_LENGTH = 64`); the
boundary value `ESA_MF_LCP_MAX + min_match_length − 1` is accepted. -/
theorem create_accepts_iff (maxBlockSize minMatchLength maxMatchLength : Int) :
    esa_matchfinder_create_accepts maxBlockSize minMatchLength maxMatchLength = true ↔
      (0 ≤ maxBlockSize ∧ maxBlockSize ≤ (ESA_MATCHFINDER_MAX_BLOCK_SIZE : Int) ∧
       (ESA_MATCHFINDER_MIN_MATCH_LENGTH : Int) ≤ minMatchLength ∧
       minMatchLength ≤ maxMatchLength ∧
       maxMatchLength ≤ (ESA_MF_LCP_MAX : Int) + minMatchLength - 1) := by
  unfold esa_matchfinder_create_accepts
  simp only [Bool.not_eq_true', Bool.or_eq_false_iff, decide_eq_false_iff_not, not_lt]
  constructor
  · rintro ⟨⟨⟨⟨h1, h2⟩, h3⟩, h4⟩, h5⟩
    exact ⟨h1, h2, h3, h5, h4⟩
  · rintro ⟨h1, h2, h3, h4, h5⟩
    exact ⟨⟨⟨⟨h1, h2⟩, h3⟩, h5⟩, h4⟩

/-! ### C3: the offset written in a match record -/

/-- C3 (counterexample): on block `b"aaaaaa"`, the `find_all_matches` call
consuming position 3 visits nodes whose stored offset field is the
non-zero prior position 2, but the records it writes carry offset 2 (the
stored prior position itself), not `p − 2 = 1` as the claim states. -/
theorem find_all_offset_field_counterexample :
    ¬ (∀ w ∈ walkA3.trace, offsetOf w ≠ 0 →
        (mkRec mfA3.min1 w).offset = mfA3.pos - offsetOf w) := by decide

/-- C3 (amended): whenever a `find_all_matches` walk visits a node whose
stored offset field holds a non-zero prior position, the match record it
writes has length `(min_match_length − 1) +` the node's pruned lcp field
and offset equal to the stored prior position itself (not the difference
`p −` prior). -/
theorem find_all_written_record_fields (min1 pos : Nat)
    (hpos : pos < 2 ^ 29) (hmin : min1 + 2 ^ 6 ≤ 2 ^ 32) :
    ∀ (fuel ref best : Nat) (sa : Nat → Nat), (∀ j, sa j < 2 ^ 64) →
      ∀ w ∈ (findAllLoop min1 pos fuel sa ref best).trace,
        offsetOf w ≠ 0 → mkRec min1 w = ⟨min1 + lcpOf w, offsetOf w⟩ := by
  intro fuel
  induction fuel with
  | zero => intro ref best sa hsa w hw; simp [findAllLoop] at hw
  | succ fuel ih =>
    intro ref best sa hsa w hw hoff
    by_cases h0 : ref = 0
    · simp [findAllLoop, h0] at hw
    · simp only [findAllLoop, h0, if_false] at hw
      rcases List.mem_cons.mp hw with hww | hw'
      · exact hww ▸ mkRec_eq min1 (sa ref) (lcpOf_lt (sa ref) (hsa ref)) hmin
      · have hv : stampWord (sa ref) pos < 2 ^ 64 :=
          (stampWord_fields (sa ref) pos (hsa ref) hpos).2.2.2
        exact ih (parentOf (sa ref)) (matchVal min1 (sa ref))
          (upd sa ref (stampWord (sa ref) pos)) (upd_bound hsa hv) w hw' hoff

/-- Witness for `find_all_written_record_fields` at a concrete store. -/
theorem find_all_written_record_fields_witness :
    mkRec 1 (2 ^ 58 + 2 ^ 30) = ⟨1 + lcpOf (2 ^ 58 + 2 ^ 30), offsetOf (2 ^ 58 + 2 ^ 30)⟩ :=
  find_all_written_record_fields 1 3 (by norm_num) (by norm_num) 1 5 64
    (fun _ => 2 ^ 58 + 2 ^ 30) (fun _ => by norm_num)
    (2 ^ 58 + 2 ^ 30) (by decide) (by decide)

/-! ### C4: the run-length scenario -/

/-- C4 (counterexample): on block `b"aaaaaa"` with `min = 2`, `max = 64`,
the actual per-position outputs differ from the claimed
`[], [], [(2,1)], [(3,1)], [(4,1)], [(5,1)]`. -/
theorem run_length_scenario_counterexample :
    consumeAll blockA 2 64 ≠
      [[], [], [⟨2, 1⟩], [⟨3, 1⟩], [⟨4, 1⟩], [⟨5, 1⟩]] := by decide

/-- C4 (amended): on block `b"aaaaaa"` with `min = 2`, `max = 64`,
positions 0 and 1 emit nothing; position 2 emits exactly the single match
(length 4, offset field 1); position 3 exactly (3, 2); position 4 exactly
(2, 3); position 5 emits nothing.  (Lengths are capped by the remaining
suffix, overlapping sources are allowed, and the record's offset field
holds the stamped prior position measured from the block start.) -/
theorem run_length_scenario_actual :
    consumeAll blockA 2 64 =
      [[], [], [⟨4, 1⟩], [⟨3, 2⟩], [⟨2, 3⟩], []] := by decide

/-! ### C1: distance-optimal completeness -/

/-- C1 (code divergence): on block `b"abcabc"` with `min = 2`, `max = 64`,
position `q = 0 < p = 3` matches position 3 with prefix length
`L = 3 ∈ [2, 64]`, yet the `find_all_matches` call consuming position 3
emits no match at all: position 0 stamps offset-field value 0, which is
indistinguishable from the "never visited" sentinel, so matches whose
most recent prior occurrence is position 0 are lost. -/
theorem find_all_misses_source_position_zero :
    lcpLen (blockB.drop 0) (blockB.drop 3) = 3 ∧
    (consumeAll blockB 2 64).getD 3 [] = [] := by decide

/-! ### C2: monotone output (counterexample half) -/

/-- C2 (counterexample): on block `b"zabcyabzabc"`, the call consuming
position 8 emits `[(3, 1), (2, 5)]` — the stamped source positions of
successive emitted matches strictly increase (1 then 5), contradicting
the claimed strict decrease. -/
theorem monotone_output_counterexample :
    (consumeAll blockZ 2 64).getD 8 [] = [⟨3, 1⟩, ⟨2, 5⟩] ∧
    stampsDecreasing ((consumeAll blockZ 2 64).getD 8 []) = false := by decide

/-! ### C5: position 0 (counterexample half) -/

/-- C5 (counterexample): the configuration `min = 3`, `max = 65` is
accepted by `esa_matchfinder_create` (`65 = ESA_MF_LCP_MAX + 3 − 1`), and
on a block of 66 identical bytes the `find_all_matches` call consuming
position 0 emits the match (65, 0): the packed match value 65 exceeds the
`best_match` seed `ESA_MATCHFINDER_MAX_MATCH_LENGTH = 64`, so position 0
is not silent for configurations with `max > 64`. -/
theorem position_zero_emits_counterexample :
    esa_matchfinder_create_accepts 66 3 65 = true ∧
    (esa_matchfinder_find_all_matches (esa_matchfinder_parse blockR 3 65)).2 =
      [⟨65, 0⟩] := by decide

/-! ### C8: node order (counterexample half) -/

/-- C8 (counterexample): after parsing `b"aaabaaaab"` (`min = 2`,
`max = 64`), node 4 is in use — it lies in `[treeStart, treeEnd)` and is
the leaf of text position 4 — and its parent field is 6, which is not
smaller than 4. -/
theorem parent_index_order_counterexample :
    mfP.treeStart ≤ 4 ∧ 4 < mfP.treeEnd ∧ mfP.pl 4 = 4 ∧
    parentOf (mfP.sa 4) = 6 ∧ ¬ parentOf (mfP.sa 4) < 4 := by decide


/-! ### C7: frame lemmas -/

/-- Stamping alters only the offset bit-field. -/
theorem stampWord_clearOffset (w pos : Nat) (hp : pos < 2 ^ 29) :
    clearOffset (stampWord w pos) = clearOffset w := by
  unfold stampWord clearOffset offsetOf; omega

/-- The fast-forward stamp (`interval + offset`, applied only when the
offset field is zero) alters only the offset bit-field. -/
theorem ffStamp_clearOffset (w pos : Nat) (h0 : offsetOf w = 0) (hp : pos < 2 ^ 29) :
    clearOffset (w + pos * 2 ^ 29) = clearOffset w := by
  unfold offsetOf at h0
  unfold clearOffset offsetOf
  omega

theorem clearOffset_clearOffset (w : Nat) :
    clearOffset (clearOffset w) = clearOffset w := by
  unfold clearOffset offsetOf; omega

theorem upd_frame {sa : Nat → Nat} {i v : Nat}
    (h : clearOffset v = clearOffset (sa i)) (j : Nat) :
    clearOffset (upd sa i v j) = clearOffset (sa j) := by
  unfold upd
  by_cases hji : j = i
  · subst hji; simp [h]
  · simp [hji]

theorem findAllLoop_frame (min1 pos : Nat) (hp : pos < 2 ^ 29) :
    ∀ (fuel ref best : Nat) (sa : Nat → Nat) (j : Nat),
      clearOffset ((findAllLoop min1 pos fuel sa ref best).sa j) = clearOffset (sa j) := by
  intro fuel
  induction fuel with
  | zero => intro ref best sa j; simp [findAllLoop]
  | succ fuel ih =>
    intro ref best sa j
    by_cases h0 : ref = 0
    · simp [findAllLoop, h0]
    · simp only [findAllLoop, h0, if_false]
      exact (ih (parentOf (sa ref)) (matchVal min1 (sa ref))
        (upd sa ref (stampWord (sa ref) pos)) j).trans
        (upd_frame (stampWord_clearOffset (sa ref) pos hp) j)

theorem findBestLoop_frame (min1 pos : Nat) (hp : pos < 2 ^ 29) :
    ∀ (fuel ref best : Nat) (sa : Nat → Nat) (j : Nat),
      clearOffset ((findBestLoop min1 pos fuel sa ref best).1 j) = clearOffset (sa j) := by
  intro fuel
  induction fuel with
  | zero => intro ref best sa j; simp [findBestLoop]
  | succ fuel ih =>
    intro ref best sa j
    by_cases h0 : ref = 0
    · simp [findBestLoop, h0]
    · simp only [findBestLoop, h0, if_false]
      exact (ih (parentOf (sa ref)) _
        (upd sa ref (stampWord (sa ref) pos)) j).trans
        (upd_frame (stampWord_clearOffset (sa ref) pos hp) j)

theorem stampLoop_frame (pos : Nat) (hp : pos < 2 ^ 29) :
    ∀ (fuel ref : Nat) (sa : Nat → Nat) (j : Nat),
      clearOffset (stampLoop pos fuel sa ref j) = clearOffset (sa j) := by
  intro fuel
  induction fuel with
  | zero => intro ref sa j; simp [stampLoop]
  | succ fuel ih =>
    intro ref sa j
    by_cases h0 : ref = 0
    · simp [stampLoop, h0]
    · simp only [stampLoop, h0, if_false]
      exact (ih (parentOf (sa ref)) (upd sa ref (stampWord (sa ref) pos)) j).trans
        (upd_frame (stampWord_clearOffset (sa ref) pos hp) j)

theorem advanceLoop_frame (pl : Nat → Nat) :
    ∀ (c pos : Nat), pos + c ≤ 2 ^ 29 → ∀ (sa : Nat → Nat) (j : Nat),
      clearOffset (advanceLoop pl c pos sa j) = clearOffset (sa j) := by
  intro c
  induction c with
  | zero => intro pos h sa j; simp [advanceLoop]
  | succ c ih =>
    intro pos h sa j
    simp only [advanceLoop]
    exact (ih (pos + 1) (by omega) _ j).trans
      (stampLoop_frame pos (by omega) _ (pl pos) sa j)

theorem ffWalk_frame (pos : Nat) (hp : pos < 2 ^ 29) :
    ∀ (fuel ref : Nat) (sa : Nat → Nat) (j : Nat),
      clearOffset (ffWalk pos fuel sa ref j) = clearOffset (sa j) := by
  intro fuel
  induction fuel with
  | zero => intro ref sa j; simp [ffWalk]
  | succ fuel ih =>
    intro ref sa j
    by_cases h0 : offsetOf (sa ref) = 0
    · simp only [ffWalk, h0, if_pos rfl]
      exact (ih ((sa ref) % 2 ^ 32) (upd sa ref (sa ref + pos * 2 ^ 29)) j).trans
        (upd_frame (ffStamp_clearOffset (sa ref) pos h0 hp) j)
    · simp [ffWalk, h0]

theorem ffLoop_frame (pl : Nat → Nat) :
    ∀ (target : Nat), target ≤ 2 ^ 29 → ∀ (sa : Nat → Nat) (j : Nat),
      clearOffset (ffLoop pl target sa j) = clearOffset (sa j) := by
  intro target
  induction target with
  | zero => intro h sa j; simp [ffLoop]
  | succ p ih =>
    intro h sa j
    by_cases h0 : p = 0
    · simp [ffLoop, h0]
    · simp only [ffLoop, h0, if_false]
      exact (ih (by omega) _ j).trans (ffWalk_frame p (by omega) _ _ sa j)

theorem resetRange_frame (sa : Nat → Nat) (lo hi j : Nat) :
    clearOffset (resetRange sa lo hi j) = clearOffset (sa j) := by
  unfold resetRange
  by_cases h : lo ≤ j ∧ j < hi
  · simp [h, clearOffset_clearOffset]
  · simp [h]

/-- None of the session fields other than `sa` and `pos` change under any
factorization-phase operation. -/
theorem execOp_const (mf : MF) (o : Op) :
    (execOp mf o).pl = mf.pl ∧ (execOp mf o).treeStart = mf.treeStart ∧
    (execOp mf o).treeEnd = mf.treeEnd ∧ (execOp mf o).n = mf.n ∧
    (execOp mf o).min1 = mf.min1 ∧ (execOp mf o).maxAdj = mf.maxAdj := by
  cases o with
  | findAll => exact ⟨rfl, rfl, rfl, rfl, rfl, rfl⟩
  | findBest => exact ⟨rfl, rfl, rfl, rfl, rfl, rfl⟩
  | adv c => exact ⟨rfl, rfl, rfl, rfl, rfl, rfl⟩
  | rew t =>
    unfold execOp esa_matchfinder_rewind
    by_cases h1 : mf.n ≤ t
    · simp [h1]
    · by_cases h2 : mf.pos = t
      · simp [h1, h2]
      · simp [h1, h2]

theorem execOp_frame (mf : MF) (o : Op) (hn : mf.n ≤ 2 ^ 29)
    (hpre : preOp mf o = true) (j : Nat) :
    clearOffset ((execOp mf o).sa j) = clearOffset (mf.sa j) := by
  cases o with
  | findAll =>
    have hp : mf.pos < 2 ^ 29 := by
      have := of_decide_eq_true hpre; omega
    exact findAllLoop_frame mf.min1 mf.pos hp _ _ _ mf.sa j
  | findBest =>
    have hp : mf.pos < 2 ^ 29 := by
      have := of_decide_eq_true hpre; omega
    exact findBestLoop_frame mf.min1 mf.pos hp _ _ _ mf.sa j
  | adv c =>
    have hp : mf.pos + c ≤ 2 ^ 29 := by
      have := of_decide_eq_true hpre; omega
    exact advanceLoop_frame mf.pl c mf.pos hp mf.sa j
  | rew t =>
    have hp : t ≤ 2 ^ 29 := by
      have := of_decide_eq_true hpre; omega
    show clearOffset ((esa_matchfinder_rewind mf t).sa j) = clearOffset (mf.sa j)
    unfold esa_matchfinder_rewind
    by_cases h1 : mf.n ≤ t
    · rw [if_pos h1]
    · rw [if_neg h1]
      by_cases h2 : mf.pos = t
      · rw [if_pos h2]
      · rw [if_neg h2]
        have hreset : ∀ j' : Nat,
            clearOffset ((if mf.pos ≠ 0 then resetRange mf.sa mf.treeStart mf.treeEnd
              else mf.sa) j') = clearOffset (mf.sa j') := by
          intro j'
          by_cases h4 : mf.pos ≠ 0
          · rw [if_pos h4]; exact resetRange_frame mf.sa _ _ j'
          · rw [if_neg h4]
        show clearOffset ((if 0 < t then
            ffLoop mf.pl t (if mf.pos ≠ 0 then resetRange mf.sa mf.treeStart mf.treeEnd
              else mf.sa) else (if mf.pos ≠ 0 then resetRange mf.sa mf.treeStart mf.treeEnd
              else mf.sa)) j) = clearOffset (mf.sa j)
        by_cases h3 : 0 < t
        · rw [if_pos h3]
          exact (ffLoop_frame mf.pl t hp _ j).trans (hreset j)
        · rw [if_neg h3]; exact hreset j

theorem execOps_frame : ∀ (ops : List Op) (mf : MF), mf.n ≤ 2 ^ 29 →
    wfOps mf ops = true → ∀ j,
      clearOffset ((execOps mf ops).sa j) = clearOffset (mf.sa j) := by
  intro ops
  induction ops with
  | nil => intro mf hn hw j; rfl
  | cons o l ih =>
    intro mf hn hw j
    simp only [wfOps, Bool.and_eq_true] at hw
    have hn' : (execOp mf o).n ≤ 2 ^ 29 := by
      rw [(execOp_const mf o).2.2.2.1]; exact hn
    exact (ih (execOp mf o) hn' hw.2 j).trans (execOp_frame mf o hn hw.1 j)

/-- Transporting field equality through `clearOffset`: words with equal
cleared-offset forms have equal lcp and parent fields. -/
theorem fields_of_clearOffset {a b : Nat} (h : clearOffset a = clearOffset b) :
    lcpOf a = lcpOf b ∧ parentOf a = parentOf b := by
  unfold clearOffset offsetOf at h
  unfold lcpOf parentOf
  omega

/-- C7: offset-field isolation.  For every parsed block and every sequence
of `find_all_matches` / `find_best_match` / `advance` / `rewind`
operations executed under their documented preconditions, the lcp and
parent bit-fields of every node word are identical to their values
immediately after parse; only the offset bit-field changes. -/
theorem offset_field_isolation (t : Block) (minLen maxLen : Nat) (ops : List Op)
    (hn : t.length ≤ 2 ^ 29)
    (hw : wfOps (esa_matchfinder_parse t minLen maxLen) ops = true) :
    ∀ j, lcpOf ((execOps (esa_matchfinder_parse t minLen maxLen) ops).sa j) =
           lcpOf ((esa_matchfinder_parse t minLen maxLen).sa j) ∧
         parentOf ((execOps (esa_matchfinder_parse t minLen maxLen) ops).sa j) =
           parentOf ((esa_matchfinder_parse t minLen maxLen).sa j) := by
  intro j
  have hn' : (esa_matchfinder_parse t minLen maxLen).n ≤ 2 ^ 29 := hn
  exact fields_of_clearOffset (execOps_frame ops _ hn' hw j)

/-- Witness for `offset_field_isolation` on a concrete block, operation
sequence (advance two positions, find all matches, rewind to 1) and slot. -/
theorem offset_field_isolation_witness :
    lcpOf ((execOps (esa_matchfinder_parse blockB 2 64)
        [Op.adv 2, Op.findAll, Op.rew 1]).sa 4) =
      lcpOf ((esa_matchfinder_parse blockB 2 64).sa 4) ∧
    parentOf ((execOps (esa_matchfinder_parse blockB 2 64)
        [Op.adv 2, Op.findAll, Op.rew 1]).sa 4) =
      parentOf ((esa_matchfinder_parse blockB 2 64).sa 4) :=
  offset_field_isolation blockB 2 64 [Op.adv 2, Op.findAll, Op.rew 1]
    (by decide) (by decide) 4

/-! ### Oracle facts and the builder invariant proofs -/

/-! ### Facts about the modelled suffix array oracle -/

theorem suffixArray_perm (t : Block) : (suffixArray t).Perm (List.range t.length) :=
  List.perm_insertionSort _ _

theorem suffixArray_length (t : Block) : (suffixArray t).length = t.length := by
  simpa using (suffixArray_perm t).length_eq

theorem suffixArray_nodup (t : Block) : (suffixArray t).Nodup :=
  ((suffixArray_perm t).nodup_iff).mpr (List.nodup_range _)

theorem mem_suffixArray (t : Block) {p : Nat} : p ∈ suffixArray t ↔ p < t.length := by
  rw [(suffixArray_perm t).mem_iff, List.mem_range]

theorem SAfun_lt (t : Block) (j : Nat) (hj : j < t.length) :
    SAfun t j < t.length := by
  unfold SAfun
  rw [List.getD_eq_getElem _ _ (by rw [suffixArray_length]; exact hj)]
  exact (mem_suffixArray t).mp (List.getElem_mem _)

theorem SAfun_default (t : Block) (j : Nat) (hj : t.length ≤ j) :
    SAfun t j = 0 := by
  unfold SAfun
  apply List.getD_eq_default
  rw [suffixArray_length]; exact hj

theorem SAfun_bound (t : Block) (j : Nat) : SAfun t j ≤ t.length := by
  by_cases hj : j < t.length
  · exact Nat.le_of_lt (SAfun_lt t j hj)
  · rw [SAfun_default t j (by omega)]; exact Nat.zero_le _

theorem SAfun_inj (t : Block) (i j : Nat) (hi : i < t.length) (hj : j < t.length)
    (h : SAfun t i = SAfun t j) : i = j := by
  have hi' : i < (suffixArray t).length := by rw [suffixArray_length]; exact hi
  have hj' : j < (suffixArray t).length := by rw [suffixArray_length]; exact hj
  unfold SAfun at h
  rw [List.getD_eq_getElem _ _ hi', List.getD_eq_getElem _ _ hj'] at h
  exact (List.Nodup.getElem_inj_iff (suffixArray_nodup t)).mp h

theorem SAfun_surj (t : Block) (p : Nat) (hp : p < t.length) :
    ∃ j, j < t.length ∧ SAfun t j = p := by
  have hm : p ∈ suffixArray t := (mem_suffixArray t).mpr hp
  obtain ⟨j, hj, he⟩ := List.getElem_of_mem hm
  refine ⟨j, by rw [← suffixArray_length t]; exact hj, ?_⟩
  unfold SAfun
  rw [List.getD_eq_getElem _ _ hj]; exact he

/-- The PLCP of the rank-0 suffix is zero. -/
theorem plcp_rank0 (t : Block) (hn : 1 ≤ t.length) : plcpOf t (SAfun t 0) = 0 := by
  have hlen : (suffixArray t).length = t.length := suffixArray_length t
  obtain ⟨a, l, he⟩ : ∃ a l, suffixArray t = a :: l := by
    cases h : suffixArray t with
    | nil => rw [h] at hlen; simp at hlen; omega
    | cons a l => exact ⟨a, l, rfl⟩
  unfold plcpOf SAfun
  rw [he]
  simp [List.indexOf_cons_self]


theorem entry_mod32 (r : Nat) (h : r % 2 ^ 58 < 2 ^ 32) : r % 2 ^ 32 = r % 2 ^ 58 := by
  omega

theorem entry_word_fields (l p : Nat) (_hl : l ≤ 63) (hp : p < 2 ^ 29) :
    lcpOf (l * 2 ^ 58 + p) = l ∧ offsetOf (l * 2 ^ 58 + p) = 0 ∧
    parentOf (l * 2 ^ 58 + p) = p := by
  unfold lcpOf offsetOf parentOf
  omega

theorem lcpValue_push (cand : Nat) (reps : List Nat) (sa : Nat → Nat) (x : Nat)
    (hx : cand % 2 ^ 58 ≠ x) :
    lcpValue (cand :: reps) sa x = lcpValue reps sa x := by
  unfold lcpValue
  rw [List.find?_cons_of_neg]
  simpa using hx

theorem lcpValue_close (r : Nat) (reps : List Nat) (sa : Nat → Nat) (v : Nat)
    (hv : lcpOf v = r / 2 ^ 58)
    (hr : ¬ r % 2 ^ 58 ∈ reps.map (· % 2 ^ 58)) (x : Nat) :
    lcpValue reps (upd sa (r % 2 ^ 58) v) x = lcpValue (r :: reps) sa x := by
  unfold lcpValue
  by_cases hx : r % 2 ^ 58 = x
  · subst hx
    rw [List.find?_cons_of_pos _ (by simp)]
    have hnone : reps.find? (fun q => q % 2 ^ 58 == r % 2 ^ 58) = none := by
      rw [List.find?_eq_none]
      intro q hq
      simp only [beq_iff_eq]
      intro he
      exact hr (List.mem_map.mpr ⟨q, hq, he⟩)
    rw [hnone]
    simp [upd, hv]
  · rw [List.find?_cons_of_neg _ (by simpa using hx)]
    cases hfind : reps.find? (fun q => q % 2 ^ 58 == x) with
    | some q => simp [hfind]
    | none =>
      simp only [hfind, upd]
      rw [if_neg (by omega : ¬ x = r % 2 ^ 58)]

/-- A chained head is related to every later element (for a transitive
relation). -/
theorem chain_head_rel {R : Nat → Nat → Prop}
    (htr : ∀ a b c, R a b → R b c → R a c) :
    ∀ (r : Nat) (l : List Nat), List.Chain' R (r :: l) → ∀ q ∈ l, R r q := by
  intro r l
  induction l generalizing r with
  | nil => intro _ q hq; simp at hq
  | cons b l ih =>
    intro h q hq
    rw [List.chain'_cons] at h
    rcases List.mem_cons.mp hq with he | hq'
    · exact he ▸ h.1
    · exact htr _ _ _ h.1 (ih b h.2 q hq')

/-- Closing the top of the stack without a candidate push: the closed
node's slot is written with the node's lcp and the next-lower stack
entry (or the root) as parent. -/
theorem StackInv_close_nopush (n maxAdj : Nat) (SAf : Nat → Nat)
    (hmax63 : maxAdj ≤ 63) (hn29 : n ≤ 2 ^ 29)
    (r : Nat) (rest : List Nat) (nxt : Nat) (sa : Nat → Nat)
    (inv : StackInv n maxAdj SAf (r :: rest) nxt sa) :
    StackInv n maxAdj SAf rest nxt
      (upd sa (r % 2 ^ 32) ((rest ++ [0]).headD 0 % 2 ^ 32 + r / 2 ^ 58 * 2 ^ 58)) := by
  have hrIdx : r % 2 ^ 58 < n := inv.repIdxHi r (List.mem_cons_self r rest)
  have hrIdxLo : nxt < r % 2 ^ 58 := inv.repIdxLo r (List.mem_cons_self r rest)
  have hrLcpLo : 1 ≤ r / 2 ^ 58 := inv.repLcpLo r (List.mem_cons_self r rest)
  have hrLcpHi : r / 2 ^ 58 ≤ maxAdj := inv.repLcpHi r (List.mem_cons_self r rest)
  have hr32 : r % 2 ^ 32 = r % 2 ^ 58 := entry_mod32 r (by omega)
  -- the below entry and its index
  set b := (rest ++ [0]).headD 0 with hb
  have hbcases : (rest = [] ∧ b = 0) ∨ (∃ rest1, rest = b :: rest1) := by
    cases rest with
    | nil => exact Or.inl ⟨rfl, rfl⟩
    | cons x l => exact Or.inr ⟨l, rfl⟩
  have hbIdx : b % 2 ^ 58 < n ∧ (rest ≠ [] → nxt < b % 2 ^ 58) := by
    rcases hbcases with ⟨h1, h2⟩ | ⟨rest1, h1⟩
    · rw [h2]; constructor
      · have := inv.nxtLt; omega
      · intro hc; exact absurd h1 hc
    · constructor
      · exact inv.repIdxHi b (by rw [h1]; exact List.mem_cons_of_mem _ (List.mem_cons_self _ _))
      · intro _; exact inv.repIdxLo b (by rw [h1]; exact List.mem_cons_of_mem _ (List.mem_cons_self _ _))
  have hb32 : b % 2 ^ 32 = b % 2 ^ 58 := entry_mod32 b (by omega)
  have hrNotRest : ¬ r % 2 ^ 58 ∈ rest.map (· % 2 ^ 58) := by
    intro hmem
    obtain ⟨q, hq, he⟩ := List.mem_map.mp hmem
    have := chain_head_rel (R := fun a b => a % 2 ^ 58 < b % 2 ^ 58)
      (fun a b c h1 h2 => Nat.lt_trans h1 h2) r rest inv.idxChain q hq
    omega
  -- the written value and its fields
  set v := b % 2 ^ 32 + r / 2 ^ 58 * 2 ^ 58 with hv
  have hvshape : v = r / 2 ^ 58 * 2 ^ 58 + b % 2 ^ 58 := by rw [hv, hb32]; ring
  have hvfields := entry_word_fields (r / 2 ^ 58) (b % 2 ^ 58) (by omega) (by omega)
  have hvlcp : lcpOf v = r / 2 ^ 58 := by rw [hvshape]; exact hvfields.1
  have hLV : ∀ x, lcpValue rest (upd sa (r % 2 ^ 58) v) x = lcpValue (r :: rest) sa x :=
    lcpValue_close r rest sa v hvlcp hrNotRest
  rw [hr32]
  constructor
  · exact fun q hq => inv.repLcpLo q (List.mem_cons_of_mem _ hq)
  · exact fun q hq => inv.repLcpHi q (List.mem_cons_of_mem _ hq)
  · exact fun q hq => inv.repIdxLo q (List.mem_cons_of_mem _ hq)
  · exact fun q hq => inv.repIdxHi q (List.mem_cons_of_mem _ hq)
  · have := inv.lcpChain
    rw [List.cons_append] at this
    exact this.tail
  · exact inv.idxChain.tail
  · exact inv.nxtLt
  · intro j hj
    unfold upd
    rw [if_neg (by omega : ¬ j = r % 2 ^ 58)]
    exact inv.untouched j hj
  · intro q hq
    have hqIdx : nxt < q % 2 ^ 58 := inv.repIdxLo q (List.mem_cons_of_mem _ hq)
    have hne : ¬ q % 2 ^ 58 = r % 2 ^ 58 := by
      intro he
      exact hrNotRest (he ▸ List.mem_map.mpr ⟨q, hq, rfl⟩)
    unfold upd
    rw [if_neg hne]
    exact inv.staleStack q (List.mem_cons_of_mem _ hq)
  · intro c hc1 hc2 hc3
    by_cases hcr : c = r % 2 ^ 58
    · -- the newly closed node
      subst hcr
      refine ⟨r / 2 ^ 58, b % 2 ^ 58, ?_, hrLcpLo, hrLcpHi, hbIdx.1, ?_⟩
      · unfold upd; rw [if_pos rfl]; exact hvshape
      · rcases hbcases with ⟨h1, h2⟩ | ⟨rest1, h1⟩
        · left; rw [h2]; simp
        · right
          refine ⟨hbIdx.2 (by rw [h1]; exact List.cons_ne_nil _ _), ?_⟩
          rw [hLV]
          unfold lcpValue
          rw [h1]
          rw [List.find?_cons_of_neg _ (by
            simp only [beq_iff_eq]
            intro he
            exact hrNotRest (by rw [h1]; exact List.mem_map.mpr ⟨b, List.mem_cons_self _ _, he.symm⟩))]
          rw [List.find?_cons_of_pos _ (by simp)]
          have := inv.lcpChain
          rw [List.cons_append, h1, List.cons_append, List.chain'_cons] at this
          exact this.1
    · -- a previously closed node
      have hc3' : ¬ c ∈ (r :: rest).map (· % 2 ^ 58) := by
        intro hmem
        rcases List.mem_map.mp hmem with ⟨q, hq, he⟩
        rcases List.mem_cons.mp hq with he2 | hq'
        · exact hcr (by rw [← he, he2])
        · exact hc3 (List.mem_map.mpr ⟨q, hq', he⟩)
      obtain ⟨l, p, hshape, hl1, hl2, hpn, hpar⟩ := inv.closedWf c hc1 hc2 hc3'
      refine ⟨l, p, ?_, hl1, hl2, hpn, ?_⟩
      · unfold upd; rw [if_neg hcr]; exact hshape
      · rcases hpar with h0 | ⟨hp1, hp2⟩
        · exact Or.inl h0
        · exact Or.inr ⟨hp1, by rw [hLV]; exact hp2⟩


/-- Closing the top of the stack with a candidate push: the candidate
`L * 2 ^ 58 + nxt` is pushed (allocating slot `nxt`), and the closed
node's slot is written with the candidate as parent. -/
theorem StackInv_close_push (n maxAdj : Nat) (SAf : Nat → Nat)
    (hmax63 : maxAdj ≤ 63) (hn29 : n ≤ 2 ^ 29)
    (L r : Nat) (rest : List Nat) (nxt : Nat) (sa : Nat → Nat)
    (inv : StackInv n maxAdj SAf (r :: rest) nxt sa)
    (hLr : L < r / 2 ^ 58) (hL : L ≤ maxAdj)
    (hpush : (rest ++ [0]).headD 0 / 2 ^ 58 < L) (hnxt1 : 1 ≤ nxt) :
    StackInv n maxAdj SAf ((L * 2 ^ 58 + nxt) :: rest) (nxt - 1)
      (upd sa (r % 2 ^ 32) ((L * 2 ^ 58 + nxt) % 2 ^ 32 + r / 2 ^ 58 * 2 ^ 58)) := by
  have hrIdx : r % 2 ^ 58 < n := inv.repIdxHi r (List.mem_cons_self r rest)
  have hrIdxLo : nxt < r % 2 ^ 58 := inv.repIdxLo r (List.mem_cons_self r rest)
  have hrLcpLo : 1 ≤ r / 2 ^ 58 := inv.repLcpLo r (List.mem_cons_self r rest)
  have hrLcpHi : r / 2 ^ 58 ≤ maxAdj := inv.repLcpHi r (List.mem_cons_self r rest)
  have hr32 : r % 2 ^ 32 = r % 2 ^ 58 := entry_mod32 r (by omega)
  have hnxtLt : nxt < n := inv.nxtLt
  have hcand32 : (L * 2 ^ 58 + nxt) % 2 ^ 32 = nxt := by omega
  have hcand58 : (L * 2 ^ 58 + nxt) % 2 ^ 58 = nxt := by omega
  have hcandLcp : (L * 2 ^ 58 + nxt) / 2 ^ 58 = L := by omega
  have hL1 : 1 ≤ L := by omega
  have hrNotRest : ¬ r % 2 ^ 58 ∈ rest.map (· % 2 ^ 58) := by
    intro hmem
    obtain ⟨q, hq, he⟩ := List.mem_map.mp hmem
    have := chain_head_rel (R := fun a b => a % 2 ^ 58 < b % 2 ^ 58)
      (fun a b c h1 h2 => Nat.lt_trans h1 h2) r rest inv.idxChain q hq
    omega
  set v := (L * 2 ^ 58 + nxt) % 2 ^ 32 + r / 2 ^ 58 * 2 ^ 58 with hv
  have hvshape : v = r / 2 ^ 58 * 2 ^ 58 + nxt := by rw [hv, hcand32]; ring
  have hvlcp : lcpOf v = r / 2 ^ 58 := by
    rw [hvshape]
    exact (entry_word_fields (r / 2 ^ 58) nxt (by omega) (by omega)).1
  have hLVc : ∀ x, lcpValue rest (upd sa (r % 2 ^ 58) v) x = lcpValue (r :: rest) sa x :=
    lcpValue_close r rest sa v hvlcp hrNotRest
  have hLV : ∀ x, x ≠ nxt →
      lcpValue ((L * 2 ^ 58 + nxt) :: rest) (upd sa (r % 2 ^ 58) v) x =
        lcpValue (r :: rest) sa x := by
    intro x hx
    rw [lcpValue_push _ _ _ _ (by rw [hcand58]; exact fun h => hx h.symm)]
    exact hLVc x
  have hLVnxt : lcpValue ((L * 2 ^ 58 + nxt) :: rest) (upd sa (r % 2 ^ 58) v) nxt = L := by
    unfold lcpValue
    rw [List.find?_cons_of_pos _ (by simp only [beq_iff_eq]; omega)]
    exact hcandLcp
  rw [hr32]
  constructor
  · intro q hq
    rcases List.mem_cons.mp hq with he | hq'
    · rw [he, hcandLcp]; exact hL1
    · exact inv.repLcpLo q (List.mem_cons_of_mem _ hq')
  · intro q hq
    rcases List.mem_cons.mp hq with he | hq'
    · rw [he, hcandLcp]; exact hL
    · exact inv.repLcpHi q (List.mem_cons_of_mem _ hq')
  · intro q hq
    rcases List.mem_cons.mp hq with he | hq'
    · rw [he, hcand58]; omega
    · have := inv.repIdxLo q (List.mem_cons_of_mem _ hq'); omega
  · intro q hq
    rcases List.mem_cons.mp hq with he | hq'
    · rw [he, hcand58]; exact hnxtLt
    · exact inv.repIdxHi q (List.mem_cons_of_mem _ hq')
  · rw [List.cons_append, List.chain'_cons']
    constructor
    · intro y hy
      have hhead : (rest ++ [0]).head? = some ((rest ++ [0]).headD 0) := by
        cases rest with
        | nil => rfl
        | cons x l => rfl
      rw [hhead] at hy
      have : y = (rest ++ [0]).headD 0 := by
        injection hy with h; exact h.symm
      rw [this, hcandLcp]
      exact hpush
    · have := inv.lcpChain
      rw [List.cons_append] at this
      exact this.tail
  · rw [List.chain'_cons']
    constructor
    · intro y hy
      have : y ∈ rest := List.mem_of_mem_head? hy
      have := inv.repIdxLo y (List.mem_cons_of_mem _ this)
      rw [hcand58]
      omega
    · exact inv.idxChain.tail
  · omega
  · intro j hj
    unfold upd
    rw [if_neg (by omega : ¬ j = r % 2 ^ 58)]
    exact inv.untouched j (by omega)
  · intro q hq
    rcases List.mem_cons.mp hq with he | hq'
    · rw [he, hcand58]
      unfold upd
      rw [if_neg (by omega : ¬ nxt = r % 2 ^ 58)]
      exact inv.untouched nxt (Or.inl (Nat.le_refl nxt))
    · have hqIdx : nxt < q % 2 ^ 58 := inv.repIdxLo q (List.mem_cons_of_mem _ hq')
      have hne : ¬ q % 2 ^ 58 = r % 2 ^ 58 := by
        intro he
        exact hrNotRest (he ▸ List.mem_map.mpr ⟨q, hq', rfl⟩)
      unfold upd
      rw [if_neg hne]
      exact inv.staleStack q (List.mem_cons_of_mem _ hq')
  · intro c hc1 hc2 hc3
    have hcnxt : c ≠ nxt := by
      intro he
      exact hc3 (List.mem_map.mpr ⟨L * 2 ^ 58 + nxt, List.mem_cons_self _ _, by rw [hcand58, he]⟩)
    by_cases hcr : c = r % 2 ^ 58
    · subst hcr
      refine ⟨r / 2 ^ 58, nxt, ?_, hrLcpLo, hrLcpHi, hnxtLt, ?_⟩
      · unfold upd; rw [if_pos rfl]; exact hvshape
      · right
        refine ⟨by omega, ?_⟩
        rw [hLVnxt]
        exact hLr
    · have hc3' : ¬ c ∈ (r :: rest).map (· % 2 ^ 58) := by
        intro hmem
        rcases List.mem_map.mp hmem with ⟨q, hq, he⟩
        rcases List.mem_cons.mp hq with he2 | hq'
        · exact hcr (by rw [← he, he2])
        · exact hc3 (List.mem_map.mpr
            ⟨q, List.mem_cons_of_mem _ hq', he⟩)
      obtain ⟨l, p, hshape, hl1, hl2, hpn, hpar⟩ :=
        inv.closedWf c (by omega) hc2 hc3'
      refine ⟨l, p, ?_, hl1, hl2, hpn, ?_⟩
      · unfold upd; rw [if_neg hcr]; exact hshape
      · rcases hpar with h0 | ⟨hp1, hp2⟩
        · exact Or.inl h0
        · refine Or.inr ⟨by omega, ?_⟩
          rw [hLV p (by omega)]
          exact hp2


/-- Specification of the closing loop: starting from a well-formed stack,
it pops every open interval with lcp above `next_lcp` (pushing the
candidate at most once), preserves the stack invariant, leaves the final
top at lcp at most `next_lcp`, allocates at most one slot, and does not
write below the resulting next-free index. -/
theorem closeLoop_spec (n maxAdj : Nat) (SAf : Nat → Nat)
    (hmax63 : maxAdj ≤ 63) (hn29 : n ≤ 2 ^ 29)
    (L : Nat) (hL : L ≤ maxAdj) :
    ∀ (reps : List Nat) (nxt : Nat) (sa : Nat → Nat),
      StackInv n maxAdj SAf reps nxt sa →
      (1 ≤ L → 1 ≤ nxt) →
      ∃ reps' nxt' sa',
        closeLoop L (L * 2 ^ 58 + nxt) (reps ++ [0]) nxt sa = (reps' ++ [0], nxt', sa') ∧
        StackInv n maxAdj SAf reps' nxt' sa' ∧
        (reps' ++ [0]).headD 0 / 2 ^ 58 ≤ L ∧
        nxt - 1 ≤ nxt' ∧ nxt' ≤ nxt ∧
        (∀ j, j ≤ nxt' ∨ n ≤ j → sa' j = sa j) := by
  intro reps
  induction reps with
  | nil =>
    intro nxt sa inv hc
    refine ⟨[], nxt, sa, rfl, inv, ?_, Nat.sub_le _ _, Nat.le_refl _, fun j _ => rfl⟩
    simp
  | cons r rest ih =>
    intro nxt sa inv hc
    obtain ⟨b, r2, hbr⟩ : ∃ b r2, rest ++ [0] = b :: r2 := by
      cases rest with
      | nil => exact ⟨0, [], rfl⟩
      | cons x l => exact ⟨x, l ++ [0], List.cons_append x l [0]⟩
    have hball : b = (rest ++ [0]).headD 0 := by rw [hbr]; rfl
    have hrIdxLo : nxt < r % 2 ^ 58 := inv.repIdxLo r (List.mem_cons_self r rest)
    have hrIdxHi : r % 2 ^ 58 < n := inv.repIdxHi r (List.mem_cons_self r rest)
    have hr32 : r % 2 ^ 32 = r % 2 ^ 58 := entry_mod32 r (by omega)
    by_cases hLr : L < r / 2 ^ 58
    · by_cases hpush : b / 2 ^ 58 < L
      · -- close the top and push the candidate; the loop then exits
        have heq : closeLoop L (L * 2 ^ 58 + nxt) ((r :: rest) ++ [0]) nxt sa =
            ((L * 2 ^ 58 + nxt) :: b :: r2, nxt - 1,
             upd sa (r % 2 ^ 32) ((L * 2 ^ 58 + nxt) % 2 ^ 32 + r / 2 ^ 58 * 2 ^ 58)) := by
          rw [List.cons_append, hbr]
          simp only [closeLoop]
          rw [if_pos hLr, if_pos hpush]
        have hnxt1 : 1 ≤ nxt := hc (by omega)
        have hinv' := StackInv_close_push n maxAdj SAf hmax63 hn29 L r rest nxt sa inv
          hLr hL (by rw [← hball]; exact hpush) hnxt1
        refine ⟨(L * 2 ^ 58 + nxt) :: rest, nxt - 1,
          upd sa (r % 2 ^ 32) ((L * 2 ^ 58 + nxt) % 2 ^ 32 + r / 2 ^ 58 * 2 ^ 58),
          ?_, hinv', ?_, Nat.le_refl _, Nat.sub_le _ _, ?_⟩
        · rw [heq, List.cons_append, hbr]
        · have hh : (((L * 2 ^ 58 + nxt) :: rest) ++ [0]).headD 0 = L * 2 ^ 58 + nxt := rfl
          rw [hh]
          have hnxtLt : nxt < n := inv.nxtLt
          omega
        · intro j hj
          unfold upd
          rw [hr32, if_neg (by omega : ¬ j = r % 2 ^ 58)]
      · -- close the top without pushing; continue with the rest
        have heq : closeLoop L (L * 2 ^ 58 + nxt) ((r :: rest) ++ [0]) nxt sa =
            closeLoop L (L * 2 ^ 58 + nxt) (rest ++ [0]) nxt
              (upd sa (r % 2 ^ 32) (b % 2 ^ 32 + r / 2 ^ 58 * 2 ^ 58)) := by
          rw [List.cons_append, hbr]
          simp only [closeLoop]
          rw [if_pos hLr, if_neg hpush, ← hbr]
        have hinv' : StackInv n maxAdj SAf rest nxt
            (upd sa (r % 2 ^ 32) (b % 2 ^ 32 + r / 2 ^ 58 * 2 ^ 58)) := by
          have hcl := StackInv_close_nopush n maxAdj SAf hmax63 hn29 r rest nxt sa inv
          rw [← hball] at hcl
          exact hcl
        obtain ⟨reps', nxt', sa', he2, hi2, hh2, hlo2, hhi2, hu2⟩ :=
          ih nxt (upd sa (r % 2 ^ 32) (b % 2 ^ 32 + r / 2 ^ 58 * 2 ^ 58)) hinv' hc
        refine ⟨reps', nxt', sa', heq.trans he2, hi2, hh2, by omega, by omega, ?_⟩
        intro j hj
        rw [hu2 j hj]
        unfold upd
        rw [hr32, if_neg (by omega : ¬ j = r % 2 ^ 58)]
    · -- the loop condition fails immediately
      have heq : closeLoop L (L * 2 ^ 58 + nxt) ((r :: rest) ++ [0]) nxt sa =
          ((r :: rest) ++ [0], nxt, sa) := by
        rw [List.cons_append, hbr]
        simp only [closeLoop]
        rw [if_neg hLr, ← hbr]
      refine ⟨r :: rest, nxt, sa, heq, inv, ?_, Nat.sub_le _ _, Nat.le_refl _,
        fun j _ => rfl⟩
      have hh : ((r :: rest) ++ [0]).headD 0 = r := rfl
      rw [hh]
      omega


/-- Pushing the candidate in the main body of the sweep iteration (no
node is closed, no slot written). -/
theorem StackInv_push (n maxAdj : Nat) (SAf : Nat → Nat) (hn29 : n ≤ 2 ^ 29)
    (L : Nat) (reps : List Nat) (nxt : Nat) (sa : Nat → Nat)
    (inv : StackInv n maxAdj SAf reps nxt sa)
    (hL : L ≤ maxAdj) (htop : (reps ++ [0]).headD 0 / 2 ^ 58 < L) (hnxt1 : 1 ≤ nxt) :
    StackInv n maxAdj SAf ((L * 2 ^ 58 + nxt) :: reps) (nxt - 1) sa := by
  have hnxtLt : nxt < n := inv.nxtLt
  have hcand58 : (L * 2 ^ 58 + nxt) % 2 ^ 58 = nxt := by omega
  have hcandLcp : (L * 2 ^ 58 + nxt) / 2 ^ 58 = L := by omega
  have hL1 : 1 ≤ L := by omega
  constructor
  · intro q hq
    rcases List.mem_cons.mp hq with he | hq'
    · rw [he, hcandLcp]; exact hL1
    · exact inv.repLcpLo q hq'
  · intro q hq
    rcases List.mem_cons.mp hq with he | hq'
    · rw [he, hcandLcp]; exact hL
    · exact inv.repLcpHi q hq'
  · intro q hq
    rcases List.mem_cons.mp hq with he | hq'
    · rw [he, hcand58]; omega
    · have := inv.repIdxLo q hq'; omega
  · intro q hq
    rcases List.mem_cons.mp hq with he | hq'
    · rw [he, hcand58]; exact hnxtLt
    · exact inv.repIdxHi q hq'
  · rw [List.cons_append, List.chain'_cons']
    refine ⟨?_, inv.lcpChain⟩
    intro y hy
    have hhead : (reps ++ [0]).head? = some ((reps ++ [0]).headD 0) := by
      cases reps with
      | nil => rfl
      | cons x l => rfl
    rw [hhead] at hy
    have hye : y = (reps ++ [0]).headD 0 := by injection hy with h; exact h.symm
    rw [hye, hcandLcp]
    exact htop
  · rw [List.chain'_cons']
    refine ⟨?_, inv.idxChain⟩
    intro y hy
    have hym : y ∈ reps := List.mem_of_mem_head? hy
    have := inv.repIdxLo y hym
    rw [hcand58]
    omega
  · omega
  · intro j hj
    exact inv.untouched j (by omega)
  · intro q hq
    rcases List.mem_cons.mp hq with he | hq'
    · rw [he, hcand58]
      exact inv.untouched nxt (Or.inl (Nat.le_refl nxt))
    · exact inv.staleStack q hq'
  · intro c hc1 hc2 hc3
    have hcnxt : c ≠ nxt := by
      intro he
      exact hc3 (List.mem_map.mpr ⟨L * 2 ^ 58 + nxt, List.mem_cons_self _ _,
        by rw [hcand58, he]⟩)
    have hc3' : ¬ c ∈ reps.map (· % 2 ^ 58) := by
      intro hmem
      rcases List.mem_map.mp hmem with ⟨q, hq, he⟩
      exact hc3 (List.mem_map.mpr ⟨q, List.mem_cons_of_mem _ hq, he⟩)
    obtain ⟨l, p, hshape, hl1, hl2, hpn, hpar⟩ := inv.closedWf c (by omega) hc2 hc3'
    refine ⟨l, p, hshape, hl1, hl2, hpn, ?_⟩
    rcases hpar with h0 | ⟨hp1, hp2⟩
    · exact Or.inl h0
    · refine Or.inr ⟨by omega, ?_⟩
      rw [lcpValue_push _ _ _ _ (by rw [hcand58]; omega)]
      exact hp2

/-- The closing loop is the identity when the top's lcp is not above the
pruned lcp (including the degenerate stacks). -/
theorem closeLoop_id (L cand : Nat) (stk : List Nat) (nxt : Nat) (sa : Nat → Nat)
    (h : ∀ x ∈ stk.head?, ¬ L < x / 2 ^ 58) :
    closeLoop L cand stk nxt sa = (stk, nxt, sa) := by
  cases stk with
  | nil => rfl
  | cons x l =>
    cases l with
    | nil => rfl
    | cons y l2 =>
      simp only [closeLoop]
      rw [if_neg (h x rfl)]

/-- Preservation of the sweep invariant by one iteration of the builder
(processing suffix-array index `k`). -/
theorem sweepInv_step (n maxAdj min1 : Nat) (SAf plcp0 : Nat → Nat)
    (hmax63 : maxAdj ≤ 63) (hn29 : n ≤ 2 ^ 29)
    (hpl0 : min (plcp0 (SAf 0) - min1) maxAdj = 0)
    (hinj : ∀ i j, i < n → j < n → SAf i = SAf j → i = j)
    (k : Nat) (hk : k < n) (reps : List Nat) (st : BuildSt)
    (inv : SweepInv n maxAdj SAf plcp0 (k + 1) reps st) :
    ∃ reps', SweepInv n maxAdj SAf plcp0 k reps' (buildStep min1 maxAdj k st) ∧
      (min (plcp0 (SAf k) - min1) maxAdj = 0 → reps' = []) := by
  have hknxt : k ≤ st.nxt := by have := inv.nxtGe; omega
  have hnxtLt : st.nxt < n := inv.sinv.nxtLt
  have hnp : st.sa k = SAf k := inv.sinv.untouched k (Or.inl hknxt)
  have hpl : st.pl (SAf k) = plcp0 (SAf k) := inv.plUn k (by omega)
  have hLk0 : k = 0 → min (plcp0 (SAf k) - min1) maxAdj = 0 := by
    intro h0; rw [h0]; exact hpl0
  have hL : min (plcp0 (SAf k) - min1) maxAdj ≤ maxAdj := Nat.min_le_right _ _
  by_cases hpush : st.stk.headD 0 / 2 ^ 58 < min (st.pl (st.sa k) - min1) maxAdj
  · -- main-body push; the closing loop exits immediately
    have hpush' : st.stk.headD 0 / 2 ^ 58 < min (plcp0 (SAf k) - min1) maxAdj := by
      rw [hnp, hpl] at hpush; exact hpush
    have hL1 : 1 ≤ min (plcp0 (SAf k) - min1) maxAdj := by omega
    have hk1 : 1 ≤ k := by
      rcases Nat.eq_zero_or_pos k with h0 | h1
      · rw [hLk0 h0] at hL1; omega
      · exact h1
    have hnxt1 : 1 ≤ st.nxt := by omega
    have hmod : (min (plcp0 (SAf k) - min1) maxAdj * 2 ^ 58 + st.nxt) % 2 ^ 32 =
        st.nxt := by omega
    have hbs : buildStep min1 maxAdj k st =
        { sa := st.sa, pl := upd st.pl (SAf k) st.nxt,
          stk := (min (plcp0 (SAf k) - min1) maxAdj * 2 ^ 58 + st.nxt) :: st.stk,
          nxt := st.nxt - 1 } := by
      simp only [buildStep]
      rw [hnp, hpl]
      rw [if_pos hpush', if_pos hpush']
      rw [closeLoop_id _ _ _ _ _ ?hid]
      case hid =>
        intro x hx
        have hxe : x = min (plcp0 (SAf k) - min1) maxAdj * 2 ^ 58 + st.nxt := by
          injection hx with h; exact h.symm
        rw [hxe]
        have hdiv : (min (plcp0 (SAf k) - min1) maxAdj * 2 ^ 58 + st.nxt) / 2 ^ 58 =
            min (plcp0 (SAf k) - min1) maxAdj := by omega
        rw [hdiv]
        omega
      have hh : ((min (plcp0 (SAf k) - min1) maxAdj * 2 ^ 58 + st.nxt) ::
          st.stk).headD 0 = min (plcp0 (SAf k) - min1) maxAdj * 2 ^ 58 + st.nxt := rfl
      rw [hh, hmod]
    have hinvP : StackInv n maxAdj SAf
        ((min (plcp0 (SAf k) - min1) maxAdj * 2 ^ 58 + st.nxt) :: reps)
        (st.nxt - 1) st.sa := by
      apply StackInv_push n maxAdj SAf hn29 _ reps st.nxt st.sa inv.sinv hL _ hnxt1
      rw [inv.stkEq] at hpush'
      exact hpush'
    refine ⟨(min (plcp0 (SAf k) - min1) maxAdj * 2 ^ 58 + st.nxt) :: reps, ?_, ?_⟩
    · refine ⟨?_, ?_, ?_, ?_, ?_⟩
      · rw [hbs, inv.stkEq, List.cons_append]
      · rw [hbs]; exact hinvP
      · rw [hbs]; show k ≤ st.nxt - 1 + 1; omega
      · intro j hj
        rw [hbs]
        show upd st.pl (SAf k) st.nxt (SAf j) = plcp0 (SAf j)
        simp only [upd]
        rw [if_neg (fun he => absurd (hinj j k (by omega) hk he) (by omega))]
        exact inv.plUn j (by omega)
      · intro j hj1 hj2
        rw [hbs]
        show upd st.pl (SAf k) st.nxt (SAf j) = 0 ∨
          (st.nxt - 1 < upd st.pl (SAf k) st.nxt (SAf j) ∧
           upd st.pl (SAf k) st.nxt (SAf j) < n)
        simp only [upd]
        by_cases hje : j = k
        · rw [if_pos (by rw [hje])]
          exact Or.inr ⟨by omega, hnxtLt⟩
        · rw [if_neg (fun he => hje (hinj j k hj2 hk he))]
          rcases inv.plPr j (by omega) hj2 with h0 | ⟨h1, h2⟩
          · exact Or.inl h0
          · exact Or.inr ⟨by omega, h2⟩
    · intro h0
      rw [h0] at hL1
      omega
  · -- no push in the main body; run the closing loop
    have hpush' : ¬ st.stk.headD 0 / 2 ^ 58 < min (plcp0 (SAf k) - min1) maxAdj := by
      rw [hnp, hpl] at hpush; exact hpush
    have hcL : 1 ≤ min (plcp0 (SAf k) - min1) maxAdj → 1 ≤ st.nxt := by
      intro hL1
      rcases Nat.eq_zero_or_pos k with h0 | h1
      · rw [hLk0 h0] at hL1; omega
      · omega
    obtain ⟨reps', nxt', sa', he, hi, hh, hlo, hhi, hu⟩ :=
      closeLoop_spec n maxAdj SAf hmax63 hn29 (min (plcp0 (SAf k) - min1) maxAdj) hL
        reps st.nxt st.sa inv.sinv hcL
    have hbs : buildStep min1 maxAdj k st =
        { sa := sa', pl := upd st.pl (SAf k) ((reps ++ [0]).headD 0 % 2 ^ 32),
          stk := reps' ++ [0], nxt := nxt' } := by
      simp only [buildStep]
      rw [hnp, hpl]
      rw [if_neg hpush', if_neg hpush']
      rw [inv.stkEq, he]
    refine ⟨reps', ?_, ?_⟩
    · refine ⟨?_, ?_, ?_, ?_, ?_⟩
      · rw [hbs]
      · rw [hbs]; exact hi
      · rw [hbs]; show k ≤ nxt' + 1; omega
      · intro j hj
        rw [hbs]
        show upd st.pl (SAf k) ((reps ++ [0]).headD 0 % 2 ^ 32) (SAf j) = plcp0 (SAf j)
        simp only [upd]
        rw [if_neg (fun he2 => absurd (hinj j k (by omega) hk he2) (by omega))]
        exact inv.plUn j (by omega)
      · intro j hj1 hj2
        rw [hbs]
        show upd st.pl (SAf k) ((reps ++ [0]).headD 0 % 2 ^ 32) (SAf j) = 0 ∨
          (nxt' < upd st.pl (SAf k) ((reps ++ [0]).headD 0 % 2 ^ 32) (SAf j) ∧
           upd st.pl (SAf k) ((reps ++ [0]).headD 0 % 2 ^ 32) (SAf j) < n)
        simp only [upd]
        by_cases hje : j = k
        · rw [if_pos (by rw [hje])]
          cases hreps : reps with
          | nil => left; simp
          | cons r rest =>
            right
            have hh2 : ((r :: rest) ++ [0]).headD 0 = r := rfl
            have hrIdxLo := inv.sinv.repIdxLo r (by rw [hreps]; exact List.mem_cons_self _ _)
            have hrIdxHi := inv.sinv.repIdxHi r (by rw [hreps]; exact List.mem_cons_self _ _)
            have hr32 : r % 2 ^ 32 = r % 2 ^ 58 := entry_mod32 r (by omega)
            rw [hh2, hr32]
            exact ⟨by omega, by omega⟩
        · rw [if_neg (fun he2 => hje (hinj j k hj2 hk he2))]
          rcases inv.plPr j (by omega) hj2 with h0 | ⟨h1, h2⟩
          · exact Or.inl h0
          · exact Or.inr ⟨by omega, h2⟩
    · intro h0
      cases hreps' : reps' with
      | nil => rfl
      | cons r rest =>
        exfalso
        have hh2 : ((r :: rest) ++ [0]).headD 0 = r := rfl
        rw [hreps', hh2] at hh
        have := hi.repLcpLo r (by rw [hreps']; exact List.mem_cons_self _ _)
        omega


/-- Induction of the sweep invariant over the whole builder loop; on a
non-empty block the final stack is empty (the rank-0 suffix has PLCP 0,
closing every open interval). -/
theorem sweepInv_loop (n maxAdj min1 : Nat) (SAf plcp0 : Nat → Nat)
    (hmax63 : maxAdj ≤ 63) (hn29 : n ≤ 2 ^ 29)
    (hpl0 : min (plcp0 (SAf 0) - min1) maxAdj = 0)
    (hinj : ∀ i j, i < n → j < n → SAf i = SAf j → i = j) :
    ∀ (k : Nat), k ≤ n → ∀ (reps : List Nat) (st : BuildSt),
      SweepInv n maxAdj SAf plcp0 k reps st →
      ∃ reps', SweepInv n maxAdj SAf plcp0 0 reps' (buildLoop min1 maxAdj k st) ∧
        (1 ≤ k → reps' = []) := by
  intro k
  induction k with
  | zero =>
    intro _ reps st inv
    exact ⟨reps, inv, fun h => absurd h (by omega)⟩
  | succ k ih =>
    intro hk reps st inv
    obtain ⟨reps1, hinv1, hcond⟩ :=
      sweepInv_step n maxAdj min1 SAf plcp0 hmax63 hn29 hpl0 hinj k (by omega) reps st inv
    show ∃ reps', SweepInv n maxAdj SAf plcp0 0 reps'
        (buildLoop min1 maxAdj k (buildStep min1 maxAdj k st)) ∧ _
    rcases Nat.eq_zero_or_pos k with h0 | h1
    · subst h0
      exact ⟨reps1, hinv1, fun _ => hcond hpl0⟩
    · obtain ⟨reps', hinv', hre⟩ := ih (by omega) reps1 _ hinv1
      exact ⟨reps', hinv', fun _ => hre h1⟩

/-- The initial state of the sweep satisfies the invariant. -/
theorem sweepInv_init (n maxAdj : Nat) (SAf plcp0 : Nat → Nat) (hn : 1 ≤ n) :
    SweepInv n maxAdj SAf plcp0 n []
      { sa := SAf, pl := plcp0, stk := [0], nxt := n - 1 } := by
  refine ⟨rfl, ?_, by show n ≤ n - 1 + 1; omega, fun j _ => rfl,
    fun j hj1 hj2 => by omega⟩
  constructor
  · intro r hr; simp at hr
  · intro r hr; simp at hr
  · intro r hr; simp at hr
  · intro r hr; simp at hr
  · exact List.chain'_singleton 0
  · exact List.chain'_nil
  · show n - 1 < n; omega
  · intro j _; rfl
  · intro r hr; simp at hr
  · intro c hc1 hc2 _
    exfalso
    show False
    have : n - 1 < c := hc1
    omega

/-- The parse of any block under a configuration accepted by
`esa_matchfinder_create` produces a well-formed interval tree. -/
theorem parse_TreeWf (t : Block) (minLen maxLen : Nat)
    (hmin : 2 ≤ minLen) (hminmax : minLen ≤ maxLen)
    (hmax : maxLen ≤ 63 + minLen - 1) (hn29 : t.length ≤ 2 ^ 29) :
    TreeWf (esa_matchfinder_parse t minLen maxLen) := by
  have hroot : (esa_matchfinder_parse t minLen maxLen).sa 0 = ESA_MF_OFFSET_MASK := by
    have hsaEq : (esa_matchfinder_parse t minLen maxLen).sa =
        upd (buildLoop (minLen - 1) (maxLen - (minLen - 1)) t.length
          { sa := SAfun t, pl := plcpOf t, stk := [0], nxt := t.length - 1 }).sa
          0 ESA_MF_OFFSET_MASK := rfl
    rw [hsaEq]
    unfold upd
    rw [if_pos rfl]
  rcases Nat.eq_zero_or_pos t.length with hn0 | hn1
  · -- empty block: the node and leaf ranges are empty
    refine ⟨hroot, Nat.succ_le_succ (Nat.zero_le _), rfl, ?_, ?_⟩
    · intro c hc1 hc2
      have hc : c < t.length := hc2
      omega
    · intro p hp
      have hp' : p < t.length := hp
      omega
  · have hmax63 : maxLen - (minLen - 1) ≤ 63 := by omega
    have hpl0 : min (plcpOf t (SAfun t 0) - (minLen - 1)) (maxLen - (minLen - 1)) = 0 := by
      rw [plcp_rank0 t hn1]
      simp
    have hinj : ∀ i j, i < t.length → j < t.length → SAfun t i = SAfun t j → i = j :=
      fun i j hi hj => SAfun_inj t i j hi hj
    obtain ⟨reps', hinv, hre⟩ :=
      sweepInv_loop t.length (maxLen - (minLen - 1)) (minLen - 1) (SAfun t) (plcpOf t)
        hmax63 hn29 hpl0 hinj t.length (Nat.le_refl _) []
        { sa := SAfun t, pl := plcpOf t, stk := [0], nxt := t.length - 1 }
        (sweepInv_init t.length (maxLen - (minLen - 1)) (SAfun t) (plcpOf t) hn1)
    have hre' : reps' = [] := hre hn1
    subst hre'
    set stF := buildLoop (minLen - 1) (maxLen - (minLen - 1)) t.length
      { sa := SAfun t, pl := plcpOf t, stk := [0], nxt := t.length - 1 } with hstF
    have hsaEq : (esa_matchfinder_parse t minLen maxLen).sa =
        upd stF.sa 0 ESA_MF_OFFSET_MASK := rfl
    have hplEq : (esa_matchfinder_parse t minLen maxLen).pl = stF.pl := rfl
    have htsEq : (esa_matchfinder_parse t minLen maxLen).treeStart = stF.nxt + 1 := rfl
    have hteEq : (esa_matchfinder_parse t minLen maxLen).treeEnd = t.length := rfl
    have hnEq : (esa_matchfinder_parse t minLen maxLen).n = t.length := rfl
    have hmaEq : (esa_matchfinder_parse t minLen maxLen).maxAdj =
        maxLen - (minLen - 1) := rfl
    have hnxtLt : stF.nxt < t.length := hinv.sinv.nxtLt
    refine ⟨hroot, ?_, ?_, ?_, ?_⟩
    · rw [htsEq]; omega
    · rw [hteEq, hnEq]
    · intro c hc1 hc2
      rw [htsEq] at hc1
      rw [hnEq] at hc2
      rw [hsaEq, hmaEq, htsEq, hnEq]
      have hc0 : ¬ c = 0 := by omega
      have hcu : upd stF.sa 0 ESA_MF_OFFSET_MASK c = stF.sa c := by
        unfold upd; rw [if_neg hc0]
      obtain ⟨l, p, hshape, hl1, hl2, hpn, hpar⟩ :=
        hinv.sinv.closedWf c (by omega) hc2 (by simp)
      have hfl := entry_word_fields l p (by omega) (by omega)
      rw [hcu, hshape, hfl.1]
      refine ⟨hl1, hl2, hfl.2.1, ?_⟩
      rw [hfl.2.2]
      rcases hpar with h0 | ⟨hp1, hp2⟩
      · exact Or.inl h0
      · right
        have hp0 : ¬ p = 0 := by omega
        have hpu : upd stF.sa 0 ESA_MF_OFFSET_MASK p = stF.sa p := by
          unfold upd; rw [if_neg hp0]
        refine ⟨by omega, by omega, ?_⟩
        rw [hpu]
        unfold lcpValue at hp2
        simp only [List.find?_nil] at hp2
        exact hp2
    · intro p hp
      rw [hnEq] at hp
      rw [hplEq, htsEq, hnEq]
      obtain ⟨j, hj, hje⟩ := SAfun_surj t p hp
      rw [← hje]
      rcases hinv.plPr j (Nat.zero_le _) hj with h0 | ⟨h1, h2⟩
      · exact Or.inl h0
      · exact Or.inr ⟨by omega, h2⟩

/-! ### Small field lemmas without word bounds -/

theorem parentOf_stampWord (w pos : Nat) :
    parentOf (stampWord w pos) = parentOf w := by
  show (w - w / 2 ^ 29 % 2 ^ 29 * 2 ^ 29 + pos * 2 ^ 29) % 2 ^ 29 = w % 2 ^ 29
  omega

theorem lcpOf_stampWord (w pos : Nat) (hp : pos < 2 ^ 29) :
    lcpOf (stampWord w pos) = lcpOf w := by
  show (w - w / 2 ^ 29 % 2 ^ 29 * 2 ^ 29 + pos * 2 ^ 29) / 2 ^ 58 = w / 2 ^ 58
  omega

theorem offsetOf_stampWord (w pos : Nat) (hp : pos < 2 ^ 29) :
    offsetOf (stampWord w pos) = pos := by
  show (w - w / 2 ^ 29 % 2 ^ 29 * 2 ^ 29 + pos * 2 ^ 29) / 2 ^ 29 % 2 ^ 29 = pos
  omega

theorem stampWord_zero_of_offset0 (w : Nat) (h0 : offsetOf w = 0) :
    stampWord w 0 = w := by
  have h0' : w / 2 ^ 29 % 2 ^ 29 = 0 := h0
  show w - w / 2 ^ 29 % 2 ^ 29 * 2 ^ 29 + 0 * 2 ^ 29 = w
  omega

/-- A parse-produced tree satisfies the field well-formedness. -/
theorem TreeWf.nodeWf {mf : MF} (hwf : TreeWf mf) :
    NodeWf mf.treeStart mf.n mf.maxAdj mf.sa := by
  intro c hc1 hc2
  obtain ⟨h1, h2, _, h4⟩ := hwf.node c hc1 hc2
  exact ⟨h1, h2, h4⟩

/-! ### C9: leaf-link soundness -/

/-- Under the tree well-formedness, any walk starting at the root or at a
node of lcp at most `ℓ` reaches (and then stays at) the root index 0
within `k ≥ ℓ` parent steps. -/
theorem parentIter_root (mf : MF) (hwf : TreeWf mf) :
    ∀ (k : Nat) (ℓ ref : Nat), ℓ ≤ k →
      (ref = 0 ∨ (mf.treeStart ≤ ref ∧ ref < mf.n ∧ lcpOf (mf.sa ref) ≤ ℓ)) →
      parentIter mf.sa k ref = 0 := by
  intro k
  induction k with
  | zero =>
    intro ℓ ref hl href
    rcases href with h0 | ⟨h1, h2, h3⟩
    · exact h0
    · obtain ⟨hg1, _, _⟩ := hwf.node ref h1 h2
      omega
  | succ k ih =>
    intro ℓ ref hl href
    rcases href with h0 | ⟨h1, h2, h3⟩
    · subst h0
      show parentIter mf.sa k (parentOf (mf.sa 0)) = 0
      rw [hwf.root]
      refine ih 0 _ (Nat.zero_le _) (Or.inl ?_)
      decide
    · obtain ⟨hg1, hg2, _, hpar⟩ := hwf.node ref h1 h2
      show parentIter mf.sa k (parentOf (mf.sa ref)) = 0
      cases hpar with
      | inl hp0 =>
        rw [hp0]
        exact ih 0 0 (Nat.zero_le _) (Or.inl rfl)
      | inr hq =>
        obtain ⟨hq1, hq2, hq3⟩ := hq
        exact ih (ℓ - 1) _ (by omega) (Or.inr ⟨hq1, hq2, by omega⟩)

/-- C9: leaf-link soundness.  After every successful parse, for every text
position `p` in `[0, block_size)`, starting at `plcp_leaf_link[p]` and
repeatedly following the parent field reaches the root index 0 in at most
`max_match_length - min_match_length + 1` steps. -/
theorem leaf_link_soundness (t : Block) (minLen maxLen : Nat)
    (hmin : 2 ≤ minLen) (hminmax : minLen ≤ maxLen)
    (hmax : maxLen ≤ 63 + minLen - 1) (hn29 : t.length ≤ 2 ^ 29)
    (p : Nat) (hp : p < t.length) :
    parentIter (esa_matchfinder_parse t minLen maxLen).sa
      (maxLen - minLen + 1)
      ((esa_matchfinder_parse t minLen maxLen).pl p) = 0 := by
  have hwf := parse_TreeWf t minLen maxLen hmin hminmax hmax hn29
  have hnEq : (esa_matchfinder_parse t minLen maxLen).n = t.length := rfl
  have hmaEq : (esa_matchfinder_parse t minLen maxLen).maxAdj =
      maxLen - (minLen - 1) := rfl
  cases hwf.leaf p (by rw [hnEq]; exact hp) with
  | inl h0 =>
    rw [h0]
    exact parentIter_root _ hwf _ 0 0 (Nat.zero_le _) (Or.inl rfl)
  | inr h12 =>
    obtain ⟨h1, h2⟩ := h12
    obtain ⟨_, hlcp, _⟩ := hwf.node _ h1 h2
    refine parentIter_root _ hwf _ (maxLen - minLen + 1) _ (Nat.le_refl _)
      (Or.inr ⟨h1, h2, ?_⟩)
    rw [hmaEq] at hlcp
    omega

theorem leaf_link_soundness_witness :
    parentIter (esa_matchfinder_parse blockB 2 64).sa 63
      ((esa_matchfinder_parse blockB 2 64).pl 3) = 0 :=
  leaf_link_soundness blockB 2 64 (by decide) (by decide) (by decide) (by decide)
    3 (by decide)

/-! ### C8 amended: parent field points to a node of strictly smaller lcp -/

/-- C8 (amended): after every successful parse, every node `c` written by
the builder has a pruned lcp in `(0, max_match_length - min_match_length + 1]`
and its parent field holds the root index 0 or the index of another
builder node whose lcp is strictly smaller — the parent ordering is by
lcp, not by index. -/
theorem parent_lcp_strictly_smaller (t : Block) (minLen maxLen : Nat)
    (hmin : 2 ≤ minLen) (hminmax : minLen ≤ maxLen)
    (hmax : maxLen ≤ 63 + minLen - 1) (hn29 : t.length ≤ 2 ^ 29)
    (c : Nat)
    (hc1 : (esa_matchfinder_parse t minLen maxLen).treeStart ≤ c)
    (hc2 : c < (esa_matchfinder_parse t minLen maxLen).n) :
    1 ≤ lcpOf ((esa_matchfinder_parse t minLen maxLen).sa c) ∧
    lcpOf ((esa_matchfinder_parse t minLen maxLen).sa c) ≤ maxLen - minLen + 1 ∧
    (parentOf ((esa_matchfinder_parse t minLen maxLen).sa c) = 0 ∨
      ((esa_matchfinder_parse t minLen maxLen).treeStart ≤
        parentOf ((esa_matchfinder_parse t minLen maxLen).sa c) ∧
       parentOf ((esa_matchfinder_parse t minLen maxLen).sa c) <
        (esa_matchfinder_parse t minLen maxLen).n ∧
       lcpOf ((esa_matchfinder_parse t minLen maxLen).sa
           (parentOf ((esa_matchfinder_parse t minLen maxLen).sa c))) <
        lcpOf ((esa_matchfinder_parse t minLen maxLen).sa c))) := by
  have hwf := parse_TreeWf t minLen maxLen hmin hminmax hmax hn29
  have hmaEq : (esa_matchfinder_parse t minLen maxLen).maxAdj =
      maxLen - (minLen - 1) := rfl
  obtain ⟨h1, h2, _, hpar⟩ := hwf.node c hc1 hc2
  refine ⟨h1, by rw [hmaEq] at h2; omega, ?_⟩
  cases hpar with
  | inl h0 => exact Or.inl h0
  | inr hq =>
    obtain ⟨hq1, hq2, hq3⟩ := hq
    exact Or.inr ⟨hq1, hq2, hq3⟩

theorem parent_lcp_strictly_smaller_witness :
    1 ≤ lcpOf ((esa_matchfinder_parse blockP 2 64).sa 4) ∧
    lcpOf ((esa_matchfinder_parse blockP 2 64).sa 4) ≤ 63 ∧
    (parentOf ((esa_matchfinder_parse blockP 2 64).sa 4) = 0 ∨
      ((esa_matchfinder_parse blockP 2 64).treeStart ≤
        parentOf ((esa_matchfinder_parse blockP 2 64).sa 4) ∧
       parentOf ((esa_matchfinder_parse blockP 2 64).sa 4) <
        (esa_matchfinder_parse blockP 2 64).n ∧
       lcpOf ((esa_matchfinder_parse blockP 2 64).sa
           (parentOf ((esa_matchfinder_parse blockP 2 64).sa 4))) <
        lcpOf ((esa_matchfinder_parse blockP 2 64).sa 4))) :=
  parent_lcp_strictly_smaller blockP 2 64 (by decide) (by decide) (by decide)
    (by decide) 4 (by decide) (by decide)

/-! ### C5 amended: position 0 emits nothing (max_match_length ≤ 64) -/

/-- On a clean tree (all node offsets zero) the position-0 `find_all`
walk never advances the output pointer: every packed match value is the
bare length `min1 + lcp`, bounded by the running `best_match`. -/
theorem findAll_out_nil (ts n maxAdj min1 : Nat) :
    ∀ (fuel : Nat) (sa : Nat → Nat) (ref best : Nat),
      NodeWf ts n maxAdj sa →
      (∀ c, ts ≤ c → c < n → offsetOf (sa c) = 0) →
      (ref = 0 ∨ (ts ≤ ref ∧ ref < n)) →
      (ref = 0 ∨ min1 + lcpOf (sa ref) ≤ best) →
      (findAllLoop min1 0 fuel sa ref best).out = [] := by
  intro fuel
  induction fuel with
  | zero => intro sa ref best _ _ _ _; rfl
  | succ fuel ih =>
    intro sa ref best hwf hoff href hbest
    by_cases h0 : ref = 0
    · simp [findAllLoop, h0]
    · obtain ⟨hr1, hr2⟩ := href.resolve_left h0
      have hb : min1 + lcpOf (sa ref) ≤ best := hbest.resolve_left h0
      have hoffr : offsetOf (sa ref) = 0 := hoff ref hr1 hr2
      have hm : matchVal min1 (sa ref) = min1 + lcpOf (sa ref) := by
        unfold matchVal
        rw [hoffr]
        omega
      have hsa1 : upd sa ref (stampWord (sa ref) 0) = sa := by
        funext j
        unfold upd
        by_cases hj : j = ref
        · rw [if_pos hj, hj, stampWord_zero_of_offset0 _ hoffr]
        · rw [if_neg hj]
      obtain ⟨hl1, hl2, hpar⟩ := hwf ref hr1 hr2
      simp only [findAllLoop, h0, if_false]
      rw [hsa1]
      rw [if_neg (by rw [hm]; omega : ¬ best < matchVal min1 (sa ref))]
      apply ih sa (parentOf (sa ref)) (matchVal min1 (sa ref)) hwf hoff
      · cases hpar with
        | inl hp0 => exact Or.inl hp0
        | inr hq => exact Or.inr ⟨hq.1, hq.2.1⟩
      · cases hpar with
        | inl hp0 => exact Or.inl hp0
        | inr hq =>
          right
          rw [hm]
          have hq3 := hq.2.2
          omega

/-- On a clean tree the position-0 `find_best` walk keeps `best_match` at
its initial 0: every visited interval is unstamped, so the fallback value
is taken and the latch never fires on a non-zero value. -/
theorem findBest_zero (ts n maxAdj min1 : Nat) :
    ∀ (fuel : Nat) (sa : Nat → Nat) (ref : Nat),
      NodeWf ts n maxAdj sa →
      (∀ c, ts ≤ c → c < n → offsetOf (sa c) = 0) →
      (ref = 0 ∨ (ts ≤ ref ∧ ref < n)) →
      (findBestLoop min1 0 fuel sa ref 0).2 = 0 := by
  intro fuel
  induction fuel with
  | zero => intro sa ref _ _ _; rfl
  | succ fuel ih =>
    intro sa ref hwf hoff href
    by_cases h0 : ref = 0
    · simp [findBestLoop, h0]
    · obtain ⟨hr1, hr2⟩ := href.resolve_left h0
      have hoffr : offsetOf (sa ref) = 0 := hoff ref hr1 hr2
      have hsa1 : upd sa ref (stampWord (sa ref) 0) = sa := by
        funext j
        unfold upd
        by_cases hj : j = ref
        · rw [if_pos hj, hj, stampWord_zero_of_offset0 _ hoffr]
        · rw [if_neg hj]
      obtain ⟨_, _, hpar⟩ := hwf ref hr1 hr2
      simp only [findBestLoop, h0, if_false]
      rw [hsa1, hoffr]
      refine ih sa (parentOf (sa ref)) hwf hoff ?_
      cases hpar with
      | inl hp0 => exact Or.inl hp0
      | inr hq => exact Or.inr ⟨hq.1, hq.2.1⟩

/-- The leaf link of the empty block's position 0 is the root. -/
theorem parse_pl_zero_of_nil (minLen maxLen : Nat) :
    (esa_matchfinder_parse [] minLen maxLen).pl 0 = 0 := by
  show plcpOf [] 0 = 0
  decide

/-- C5 (amended): for every block parsed under a configuration accepted by
`esa_matchfinder_create` whose `max_match_length` does not exceed
`ESA_MATCHFINDER_MAX_MATCH_LENGTH`, the `find_all_matches` call that
consumes position 0 writes no matches and a `find_best_match` call that
consumes position 0 returns the match `(0, 0)`. -/
theorem position_zero_emits_nothing (t : Block) (minLen maxLen : Nat)
    (hmin : 2 ≤ minLen) (hminmax : minLen ≤ maxLen)
    (hmax64 : maxLen ≤ ESA_MATCHFINDER_MAX_MATCH_LENGTH)
    (hn29 : t.length ≤ 2 ^ 29) :
    (esa_matchfinder_find_all_matches (esa_matchfinder_parse t minLen maxLen)).2
      = [] ∧
    (esa_matchfinder_find_best_match (esa_matchfinder_parse t minLen maxLen)).2
      = ⟨0, 0⟩ := by
  have hmax64' : maxLen ≤ 64 := by
    have : ESA_MATCHFINDER_MAX_MATCH_LENGTH = 64 := by decide
    omega
  have hmax : maxLen ≤ 63 + minLen - 1 := by omega
  have hwf := parse_TreeWf t minLen maxLen hmin hminmax hmax hn29
  have hnEq : (esa_matchfinder_parse t minLen maxLen).n = t.length := rfl
  have hmaEq : (esa_matchfinder_parse t minLen maxLen).maxAdj =
      maxLen - (minLen - 1) := rfl
  have hm1Eq : (esa_matchfinder_parse t minLen maxLen).min1 = minLen - 1 := rfl
  have hoff : ∀ c, (esa_matchfinder_parse t minLen maxLen).treeStart ≤ c →
      c < (esa_matchfinder_parse t minLen maxLen).n →
      offsetOf ((esa_matchfinder_parse t minLen maxLen).sa c) = 0 :=
    fun c hc1 hc2 => (hwf.node c hc1 hc2).2.2.1
  have href : (esa_matchfinder_parse t minLen maxLen).pl 0 = 0 ∨
      ((esa_matchfinder_parse t minLen maxLen).treeStart ≤
        (esa_matchfinder_parse t minLen maxLen).pl 0 ∧
       (esa_matchfinder_parse t minLen maxLen).pl 0 <
        (esa_matchfinder_parse t minLen maxLen).n) := by
    rcases Nat.eq_zero_or_pos t.length with hn0 | hn1
    · left
      have ht : t = [] := List.length_eq_zero.mp hn0
      rw [ht]
      exact parse_pl_zero_of_nil minLen maxLen
    · exact hwf.leaf 0 (by rw [hnEq]; exact hn1)
  constructor
  · show (findAllLoop (esa_matchfinder_parse t minLen maxLen).min1
      (esa_matchfinder_parse t minLen maxLen).pos ESA_MATCHFINDER_MAX_MATCH_LENGTH
      (esa_matchfinder_parse t minLen maxLen).sa
      ((esa_matchfinder_parse t minLen maxLen).pl
        (esa_matchfinder_parse t minLen maxLen).pos)
      ESA_MATCHFINDER_MAX_MATCH_LENGTH).out = []
    have hpos : (esa_matchfinder_parse t minLen maxLen).pos = 0 := rfl
    rw [hpos]
    apply findAll_out_nil _ _ _ _ _ _ _ _ hwf.nodeWf hoff href
    cases href with
    | inl h0 => exact Or.inl h0
    | inr h12 =>
      right
      have := (hwf.node _ h12.1 h12.2).2.1
      rw [hmaEq] at this
      rw [hm1Eq]
      have h64 : ESA_MATCHFINDER_MAX_MATCH_LENGTH = 64 := by decide
      omega
  · have hpos : (esa_matchfinder_parse t minLen maxLen).pos = 0 := rfl
    have hbz : (findBestLoop (esa_matchfinder_parse t minLen maxLen).min1 0
        ESA_MATCHFINDER_MAX_MATCH_LENGTH (esa_matchfinder_parse t minLen maxLen).sa
        ((esa_matchfinder_parse t minLen maxLen).pl 0) 0).2 = 0 :=
      findBest_zero _ _ _ _ _ _ _ hwf.nodeWf hoff href
    show MatchRec.mk
        ((findBestLoop (esa_matchfinder_parse t minLen maxLen).min1
          (esa_matchfinder_parse t minLen maxLen).pos ESA_MATCHFINDER_MAX_MATCH_LENGTH
          (esa_matchfinder_parse t minLen maxLen).sa
          ((esa_matchfinder_parse t minLen maxLen).pl
            (esa_matchfinder_parse t minLen maxLen).pos) 0).2 % 2 ^ 32)
        ((findBestLoop (esa_matchfinder_parse t minLen maxLen).min1
          (esa_matchfinder_parse t minLen maxLen).pos ESA_MATCHFINDER_MAX_MATCH_LENGTH
          (esa_matchfinder_parse t minLen maxLen).sa
          ((esa_matchfinder_parse t minLen maxLen).pl
            (esa_matchfinder_parse t minLen maxLen).pos) 0).2 / 2 ^ 32)
        = ⟨0, 0⟩
    rw [hpos, hbz]
    rfl

theorem position_zero_emits_nothing_witness :
    (esa_matchfinder_find_all_matches (esa_matchfinder_parse blockB 2 64)).2
      = [] ∧
    (esa_matchfinder_find_best_match (esa_matchfinder_parse blockB 2 64)).2
      = ⟨0, 0⟩ :=
  position_zero_emits_nothing blockB 2 64 (by decide) (by decide) (by decide)
    (by decide)

/-! ### Walk-list facts -/

/-- Additional stamp facts. -/
theorem stampWord_stampWord (w q pos : Nat) (hq : q < 2 ^ 29) :
    stampWord (stampWord w q) pos = stampWord w pos := by
  show clearOffset (stampWord w q) + pos * 2 ^ 29 = clearOffset w + pos * 2 ^ 29
  rw [stampWord_clearOffset w q hq]

theorem ffStamp_eq_stampWord (w pos : Nat) (h0 : offsetOf w = 0) :
    w + pos * 2 ^ 29 = stampWord w pos := by
  have h0' : w / 2 ^ 29 % 2 ^ 29 = 0 := h0
  show w + pos * 2 ^ 29 = w - w / 2 ^ 29 % 2 ^ 29 * 2 ^ 29 + pos * 2 ^ 29
  omega

theorem ffRef_eq_parent (w : Nat) (h0 : offsetOf w = 0) :
    w % 2 ^ 32 = parentOf w := by
  have h0' : w / 2 ^ 29 % 2 ^ 29 = 0 := h0
  show w % 2 ^ 32 = w % 2 ^ 29
  omega

theorem clearOffset_of_offset0 (w : Nat) (h0 : offsetOf w = 0) :
    clearOffset w = w := by
  have h0' : w / 2 ^ 29 % 2 ^ 29 = 0 := h0
  show w - w / 2 ^ 29 % 2 ^ 29 * 2 ^ 29 = w
  omega

/-- Walks are insensitive to the offset fields: equal parent fields give
equal walk lists. -/
theorem walkList_congr {sa1 sa2 : Nat → Nat}
    (hpar : ∀ j, parentOf (sa1 j) = parentOf (sa2 j)) :
    ∀ (fuel ref : Nat), walkList sa1 fuel ref = walkList sa2 fuel ref := by
  intro fuel
  induction fuel with
  | zero => intro ref; rfl
  | succ fuel ih =>
    intro ref
    by_cases h0 : ref = 0
    · simp [walkList, h0]
    · simp only [walkList, h0, if_false]
      rw [hpar ref, ih (parentOf (sa2 ref))]

/-- `NodeWf` is insensitive to the offset fields. -/
theorem NodeWf_congr {ts n maxAdj : Nat} {sa1 sa2 : Nat → Nat}
    (hf : ∀ j, lcpOf (sa1 j) = lcpOf (sa2 j) ∧ parentOf (sa1 j) = parentOf (sa2 j))
    (h : NodeWf ts n maxAdj sa2) : NodeWf ts n maxAdj sa1 := by
  intro c hc1 hc2
  obtain ⟨h1, h2, hpar⟩ := h c hc1 hc2
  rw [(hf c).1, (hf c).2]
  refine ⟨h1, h2, ?_⟩
  cases hpar with
  | inl hp0 => exact Or.inl hp0
  | inr hq => exact Or.inr ⟨hq.1, hq.2.1, by rw [(hf (parentOf (sa2 c))).1]; exact hq.2.2⟩

/-- A walk from the root is empty. -/
theorem walkList_ref_zero (sa : Nat → Nat) :
    ∀ f, walkList sa f 0 = ([] : List Nat) := by
  intro f
  cases f with
  | zero => rfl
  | succ f => simp [walkList]

/-- The root index never appears in a walk list. -/
theorem walkList_zero_not_mem (sa : Nat → Nat) :
    ∀ (fuel ref : Nat), ¬ (0 : Nat) ∈ walkList sa fuel ref := by
  intro fuel
  induction fuel with
  | zero => intro ref h; simp [walkList] at h
  | succ fuel ih =>
    intro ref h
    by_cases h0 : ref = 0
    · simp [walkList, h0] at h
    · simp only [walkList, h0, if_false] at h
      rcases List.mem_cons.mp h with he | hm
      · exact h0 he.symm
      · exact ih _ hm

/-- Every member of a walk from the root or from a node of lcp at most
`ℓ` is a node of lcp at most `ℓ`. -/
theorem walkList_mem_facts {ts n maxAdj : Nat} {sa : Nat → Nat}
    (hwf : NodeWf ts n maxAdj sa) :
    ∀ (ℓ : Nat) (fuel ref : Nat),
      (ref = 0 ∨ (ts ≤ ref ∧ ref < n ∧ lcpOf (sa ref) ≤ ℓ)) →
      ∀ c ∈ walkList sa fuel ref, ts ≤ c ∧ c < n ∧ lcpOf (sa c) ≤ ℓ := by
  intro ℓ fuel
  induction fuel generalizing ℓ with
  | zero => intro ref _ c hc; simp [walkList] at hc
  | succ fuel ih =>
    intro ref href c hc
    by_cases h0 : ref = 0
    · simp [walkList, h0] at hc
    · obtain ⟨hr1, hr2, hr3⟩ := href.resolve_left h0
      simp only [walkList, h0, if_false] at hc
      rcases List.mem_cons.mp hc with he | hm
      · subst he; exact ⟨hr1, hr2, hr3⟩
      · obtain ⟨_, _, hpar⟩ := hwf ref hr1 hr2
        cases hpar with
        | inl hp0 =>
          rw [hp0, walkList_ref_zero] at hm
          exact absurd hm (List.not_mem_nil _)
        | inr hq =>
          exact ih ℓ (parentOf (sa ref)) (Or.inr ⟨hq.1, hq.2.1, by omega⟩) c hm

/-- Walk lists do not depend on the fuel once it exceeds the lcp bound of
the start. -/
theorem walkList_fuel {ts n maxAdj : Nat} {sa : Nat → Nat}
    (hwf : NodeWf ts n maxAdj sa) :
    ∀ (ℓ f f' ref : Nat),
      (ref = 0 ∨ (ts ≤ ref ∧ ref < n ∧ lcpOf (sa ref) ≤ ℓ)) →
      ℓ < f → ℓ < f' →
      walkList sa f ref = walkList sa f' ref := by
  intro ℓ
  induction ℓ with
  | zero =>
    intro f f' ref href h1 h2
    have h0 : ref = 0 := by
      cases href with
      | inl h => exact h
      | inr h =>
        obtain ⟨hr1, hr2, hr3⟩ := h
        obtain ⟨hg, _, _⟩ := hwf ref hr1 hr2
        omega
    subst h0
    cases f with
    | zero => omega
    | succ f =>
      cases f' with
      | zero => omega
      | succ f' => simp [walkList]
  | succ ℓ ih =>
    intro f f' ref href h1 h2
    by_cases h0 : ref = 0
    · subst h0
      cases f with
      | zero => omega
      | succ f =>
        cases f' with
        | zero => omega
        | succ f' => simp [walkList]
    · obtain ⟨hr1, hr2, hr3⟩ := href.resolve_left h0
      cases f with
      | zero => omega
      | succ f =>
        cases f' with
        | zero => omega
        | succ f' =>
          simp only [walkList, h0, if_false]
          obtain ⟨_, _, hpar⟩ := hwf ref hr1 hr2
          have hnext : parentOf (sa ref) = 0 ∨
              (ts ≤ parentOf (sa ref) ∧ parentOf (sa ref) < n ∧
               lcpOf (sa (parentOf (sa ref))) ≤ ℓ) := by
            cases hpar with
            | inl hp0 => exact Or.inl hp0
            | inr hq => exact Or.inr ⟨hq.1, hq.2.1, by omega⟩
          by_cases hℓf : ℓ < f
          · by_cases hℓf' : ℓ < f'
            · rw [ih f f' _ hnext hℓf hℓf']
            · omega
          · omega

/-- Transitivity of walk membership: the walk from any visited node is
contained in the original walk (at sufficient fuel). -/
theorem walkList_mem_trans {ts n maxAdj : Nat} {sa : Nat → Nat}
    (hwf : NodeWf ts n maxAdj sa) :
    ∀ (ℓ f ref c : Nat),
      (ref = 0 ∨ (ts ≤ ref ∧ ref < n ∧ lcpOf (sa ref) ≤ ℓ)) →
      ℓ < f →
      c ∈ walkList sa f ref →
      ∀ d ∈ walkList sa f c, d ∈ walkList sa f ref := by
  intro ℓ
  induction ℓ with
  | zero =>
    intro f ref c href hf hc
    have h0 : ref = 0 := by
      cases href with
      | inl h => exact h
      | inr h =>
        obtain ⟨hr1, hr2, hr3⟩ := h
        obtain ⟨hg, _, _⟩ := hwf ref hr1 hr2
        omega
    subst h0
    rw [walkList_ref_zero] at hc
    exact absurd hc (List.not_mem_nil _)
  | succ ℓ ih =>
    intro f ref c href hf hc
    by_cases h0 : ref = 0
    · subst h0
      rw [walkList_ref_zero] at hc
      exact absurd hc (List.not_mem_nil _)
    · obtain ⟨hr1, hr2, hr3⟩ := href.resolve_left h0
      cases f with
      | zero => exact absurd hc (List.not_mem_nil _)
      | succ f =>
        simp only [walkList, h0, if_false] at hc
        obtain ⟨hg1, _, hpar⟩ := hwf ref hr1 hr2
        have hnext : parentOf (sa ref) = 0 ∨
            (ts ≤ parentOf (sa ref) ∧ parentOf (sa ref) < n ∧
             lcpOf (sa (parentOf (sa ref))) ≤ ℓ) := by
          cases hpar with
          | inl hp0 => exact Or.inl hp0
          | inr hq => exact Or.inr ⟨hq.1, hq.2.1, by omega⟩
        rcases List.mem_cons.mp hc with he | hm
        · -- c is the start: the walks coincide
          subst he
          intro d hd
          exact hd
        · -- c is in the tail walk
          intro d hd
          simp only [walkList, h0, if_false]
          refine List.mem_cons_of_mem _ ?_
          -- tail = walkList sa f parent; rescale fuel for the ih
          have hcf : c ∈ walkList sa (f + 1) (parentOf (sa ref)) := by
            rw [← walkList_fuel hwf ℓ f (f + 1) _ hnext (by omega) (by omega)]
            exact hm
          have hcfacts := walkList_mem_facts hwf ℓ (f + 1) (parentOf (sa ref)) hnext c hcf
          have hdc : d ∈ walkList sa (f + 1) c := by
            rw [← walkList_fuel hwf (ℓ + 1) (f + 1) (f + 1)
              c (Or.inr ⟨hcfacts.1, hcfacts.2.1, by omega⟩) (by omega) (by omega)]
            exact hd
          have := ih (f + 1) (parentOf (sa ref)) c hnext (by omega) hcf d hdc
          rw [walkList_fuel hwf ℓ (f + 1) f _ hnext (by omega) (by omega)] at this
          exact this

/-- The parent of a visited node is visited (or is the root). -/
theorem walkList_parent_mem {ts n maxAdj : Nat} {sa : Nat → Nat}
    (hwf : NodeWf ts n maxAdj sa) (ℓ f ref c : Nat)
    (href : ref = 0 ∨ (ts ≤ ref ∧ ref < n ∧ lcpOf (sa ref) ≤ ℓ))
    (hf : ℓ < f) (hc : c ∈ walkList sa f ref)
    (hp : parentOf (sa c) ≠ 0) :
    parentOf (sa c) ∈ walkList sa f ref := by
  have hcf := walkList_mem_facts hwf ℓ f ref href c hc
  refine walkList_mem_trans hwf ℓ f ref c href hf hc _ ?_
  obtain ⟨hg1, _, _⟩ := hwf c hcf.1 hcf.2.1
  cases f with
  | zero => exact absurd hc (List.not_mem_nil _)
  | succ f =>
    have hcne : c ≠ 0 := by
      intro he
      exact walkList_zero_not_mem sa (f + 1) ref (he ▸ hc)
    simp only [walkList, hcne, if_false]
    refine List.mem_cons_of_mem _ ?_
    cases f with
    | zero =>
      -- fuel exhausted: impossible since ℓ < f + 1 and the walk from c
      -- has lcp at least 1 — rescale instead
      exfalso
      -- with f = 0 we have ℓ = 0, but c is a node of lcp ≥ 1 ≤ ℓ
      have := hcf.2.2
      omega
    | succ f =>
      simp only [walkList, hp, if_false]
      exact List.mem_cons_self _ _

/-- A node of the walk tail has strictly smaller lcp than the start, so
the start does not reappear. -/
theorem walkList_start_not_mem_tail {ts n maxAdj : Nat} {sa : Nat → Nat}
    (hwf : NodeWf ts n maxAdj sa) (f ref : Nat)
    (hr1 : ts ≤ ref) (hr2 : ref < n) :
    ¬ ref ∈ walkList sa f (parentOf (sa ref)) := by
  intro hm
  obtain ⟨_, _, hpar⟩ := hwf ref hr1 hr2
  cases hpar with
  | inl hp0 =>
    rw [hp0, walkList_ref_zero] at hm
    exact absurd hm (List.not_mem_nil _)
  | inr hq =>
    have := walkList_mem_facts hwf (lcpOf (sa (parentOf (sa ref)))) f
      (parentOf (sa ref)) (Or.inr ⟨hq.1, hq.2.1, Nat.le_refl _⟩) ref hm
    have h3 := this.2.2
    have h4 := hq.2.2
    omega

/-! ### Characterization of the stamping walks -/

/-- Stamping or writing a word with unchanged lcp/parent fields preserves
the lcp and parent field of every slot. -/
theorem upd_stamp_fields (sa : Nat → Nat) (ref pos : Nat) (hp : pos < 2 ^ 29) :
    ∀ j, lcpOf (upd sa ref (stampWord (sa ref) pos) j) = lcpOf (sa j) ∧
      parentOf (upd sa ref (stampWord (sa ref) pos) j) = parentOf (sa j) := by
  intro j
  unfold upd
  by_cases hj : j = ref
  · rw [if_pos hj, hj, lcpOf_stampWord _ _ hp, parentOf_stampWord]
    exact ⟨rfl, rfl⟩
  · rw [if_neg hj]
    exact ⟨rfl, rfl⟩

/-- One full stamping walk writes the current position into the offset
field of exactly the visited nodes. -/
theorem stampLoop_char {ts n maxAdj : Nat} (pos : Nat) (hp : pos < 2 ^ 29) :
    ∀ (ℓ f : Nat) (sa : Nat → Nat) (ref : Nat),
      NodeWf ts n maxAdj sa →
      (ref = 0 ∨ (ts ≤ ref ∧ ref < n ∧ lcpOf (sa ref) ≤ ℓ)) →
      ℓ < f →
      stampLoop pos f sa ref = fun j =>
        if j ∈ walkList sa f ref then stampWord (sa j) pos else sa j := by
  intro ℓ
  induction ℓ with
  | zero =>
    intro f sa ref hwf href hf
    have h0 : ref = 0 := by
      cases href with
      | inl h => exact h
      | inr h =>
        obtain ⟨hr1, hr2, hr3⟩ := h
        obtain ⟨hg, _, _⟩ := hwf ref hr1 hr2
        omega
    subst h0
    funext j
    rw [walkList_ref_zero]
    cases f with
    | zero => omega
    | succ f => simp [stampLoop]
  | succ ℓ ih =>
    intro f sa ref hwf href hf
    by_cases h0 : ref = 0
    · subst h0
      funext j
      rw [walkList_ref_zero]
      cases f with
      | zero => omega
      | succ f => simp [stampLoop]
    · obtain ⟨hr1, hr2, hr3⟩ := href.resolve_left h0
      cases f with
      | zero => omega
      | succ f =>
        obtain ⟨hg1, hg2, hpar⟩ := hwf ref hr1 hr2
        have hfields := upd_stamp_fields sa ref pos hp
        have hwf1 : NodeWf ts n maxAdj (upd sa ref (stampWord (sa ref) pos)) :=
          NodeWf_congr hfields hwf
        have hnext : parentOf (sa ref) = 0 ∨
            (ts ≤ parentOf (sa ref) ∧ parentOf (sa ref) < n ∧
             lcpOf (upd sa ref (stampWord (sa ref) pos) (parentOf (sa ref))) ≤ ℓ) := by
          cases hpar with
          | inl hp0 => exact Or.inl hp0
          | inr hq =>
            refine Or.inr ⟨hq.1, hq.2.1, ?_⟩
            rw [(hfields (parentOf (sa ref))).1]
            omega
        have hihe := ih f (upd sa ref (stampWord (sa ref) pos)) (parentOf (sa ref))
          hwf1 hnext (by omega)
        have hwleq : walkList (upd sa ref (stampWord (sa ref) pos)) f (parentOf (sa ref)) =
            walkList sa f (parentOf (sa ref)) :=
          walkList_congr (fun j => (hfields j).2) f (parentOf (sa ref))
        have hstep : stampLoop pos (f + 1) sa ref =
            stampLoop pos f (upd sa ref (stampWord (sa ref) pos)) (parentOf (sa ref)) := by
          simp only [stampLoop, h0, if_false]
        rw [hstep, hihe]
        funext j
        simp only [walkList, h0, if_false]
        by_cases hj : j = ref
        · subst hj
          rw [if_neg (by rw [hwleq]; exact walkList_start_not_mem_tail hwf f j hr1 hr2),
            if_pos (List.mem_cons_self _ _)]
          show upd sa j (stampWord (sa j) pos) j = stampWord (sa j) pos
          unfold upd
          rw [if_pos rfl]
        · have hsj : upd sa ref (stampWord (sa ref) pos) j = sa j := by
            unfold upd
            rw [if_neg hj]
          rw [hwleq, hsj]
          by_cases hm : j ∈ walkList sa f (parentOf (sa ref))
          · rw [if_pos hm, if_pos (List.mem_cons_of_mem _ hm)]
          · rw [if_neg hm, if_neg (by
              intro hmem
              rcases List.mem_cons.mp hmem with he | hm2
              · exact hj he
              · exact hm hm2)]

/-- `takeWhile` only depends on the predicate's restriction to the list. -/
theorem takeWhile_congr {p q : Nat → Bool} :
    ∀ (l : List Nat), (∀ x ∈ l, p x = q x) → l.takeWhile p = l.takeWhile q := by
  intro l
  induction l with
  | nil => intro _; rfl
  | cons a l ih =>
    intro h
    simp only [List.takeWhile]
    rw [h a (List.mem_cons_self a l)]
    cases hq : q a with
    | false => rfl
    | true => rw [ih (fun x hx => h x (List.mem_cons_of_mem a hx))]

theorem mem_takeWhile_mem {p : Nat → Bool} :
    ∀ (l : List Nat) (x : Nat), x ∈ l.takeWhile p → x ∈ l := by
  intro l
  induction l with
  | nil => intro x hx; exact absurd hx (List.not_mem_nil _)
  | cons a l ih =>
    intro x hx
    simp only [List.takeWhile] at hx
    cases hp : p a with
    | false => rw [hp] at hx; exact absurd hx (List.not_mem_nil _)
    | true =>
      rw [hp] at hx
      rcases List.mem_cons.mp hx with he | hm
      · exact he ▸ List.mem_cons_self _ _
      · exact List.mem_cons_of_mem _ (ih x hm)

theorem mem_takeWhile_pred {p : Nat → Bool} :
    ∀ (l : List Nat) (x : Nat), x ∈ l.takeWhile p → p x = true := by
  intro l
  induction l with
  | nil => intro x hx; exact absurd hx (List.not_mem_nil _)
  | cons a l ih =>
    intro x hx
    simp only [List.takeWhile] at hx
    cases hp : p a with
    | false => rw [hp] at hx; exact absurd hx (List.not_mem_nil _)
    | true =>
      rw [hp] at hx
      rcases List.mem_cons.mp hx with he | hm
      · rw [he]; exact hp
      · exact ih x hm

/-- One fast-forward walk stamps the maximal unstamped prefix of the walk
from the leaf link and leaves everything else unchanged. -/
theorem ffWalk_char {ts n maxAdj : Nat} (pos : Nat) (hp : pos < 2 ^ 29) :
    ∀ (ℓ f : Nat) (sa : Nat → Nat) (ref : Nat),
      NodeWf ts n maxAdj sa →
      offsetOf (sa 0) ≠ 0 →
      (ref = 0 ∨ (ts ≤ ref ∧ ref < n ∧ lcpOf (sa ref) ≤ ℓ)) →
      ℓ < f →
      ffWalk pos f sa ref = fun j =>
        if j ∈ (walkList sa f ref).takeWhile (fun c => offsetOf (sa c) == 0)
        then stampWord (sa j) pos else sa j := by
  intro ℓ
  induction ℓ with
  | zero =>
    intro f sa ref hwf hroot href hf
    have h0 : ref = 0 := by
      cases href with
      | inl h => exact h
      | inr h =>
        obtain ⟨hr1, hr2, hr3⟩ := h
        obtain ⟨hg, _, _⟩ := hwf ref hr1 hr2
        omega
    subst h0
    funext j
    rw [walkList_ref_zero]
    cases f with
    | zero => omega
    | succ f =>
      show (if offsetOf (sa 0) = 0 then
          ffWalk pos f (upd sa 0 (sa 0 + pos * 2 ^ 29)) (sa 0 % 2 ^ 32) else sa) j =
        if j ∈ List.takeWhile (fun c => offsetOf (sa c) == 0) [] then
          stampWord (sa j) pos else sa j
      rw [if_neg hroot]
      simp [List.takeWhile]
  | succ ℓ ih =>
    intro f sa ref hwf hroot href hf
    by_cases h0 : ref = 0
    · subst h0
      funext j
      rw [walkList_ref_zero]
      cases f with
      | zero => omega
      | succ f =>
        show (if offsetOf (sa 0) = 0 then
            ffWalk pos f (upd sa 0 (sa 0 + pos * 2 ^ 29)) (sa 0 % 2 ^ 32) else sa) j =
          if j ∈ List.takeWhile (fun c => offsetOf (sa c) == 0) [] then
            stampWord (sa j) pos else sa j
        rw [if_neg hroot]
        simp [List.takeWhile]
    · obtain ⟨hr1, hr2, hr3⟩ := href.resolve_left h0
      cases f with
      | zero => omega
      | succ f =>
        obtain ⟨hg1, hg2, hpar⟩ := hwf ref hr1 hr2
        have hwlcons : walkList sa (f + 1) ref =
            ref :: walkList sa f (parentOf (sa ref)) := by
          simp only [walkList, h0, if_false]
        by_cases hoffr : offsetOf (sa ref) = 0
        · -- unstamped: stamp and continue along the parent chain
          have hstamp : sa ref + pos * 2 ^ 29 = stampWord (sa ref) pos :=
            ffStamp_eq_stampWord (sa ref) pos hoffr
          have hrefp : sa ref % 2 ^ 32 = parentOf (sa ref) :=
            ffRef_eq_parent (sa ref) hoffr
          have hstep : ffWalk pos (f + 1) sa ref =
              ffWalk pos f (upd sa ref (stampWord (sa ref) pos)) (parentOf (sa ref)) := by
            show (if offsetOf (sa ref) = 0 then
                ffWalk pos f (upd sa ref (sa ref + pos * 2 ^ 29)) (sa ref % 2 ^ 32)
              else sa) =
              ffWalk pos f (upd sa ref (stampWord (sa ref) pos)) (parentOf (sa ref))
            rw [if_pos hoffr, hstamp, hrefp]
          have hfields := upd_stamp_fields sa ref pos hp
          have hwf1 : NodeWf ts n maxAdj (upd sa ref (stampWord (sa ref) pos)) :=
            NodeWf_congr hfields hwf
          have hroot1 : offsetOf (upd sa ref (stampWord (sa ref) pos) 0) ≠ 0 := by
            have : upd sa ref (stampWord (sa ref) pos) 0 = sa 0 := by
              unfold upd
              rw [if_neg (fun he => h0 he.symm)]
            rw [this]
            exact hroot
          have hnext : parentOf (sa ref) = 0 ∨
              (ts ≤ parentOf (sa ref) ∧ parentOf (sa ref) < n ∧
               lcpOf (upd sa ref (stampWord (sa ref) pos) (parentOf (sa ref))) ≤ ℓ) := by
            cases hpar with
            | inl hq0 => exact Or.inl hq0
            | inr hq =>
              refine Or.inr ⟨hq.1, hq.2.1, ?_⟩
              rw [(hfields (parentOf (sa ref))).1]
              omega
          have hihe := ih f (upd sa ref (stampWord (sa ref) pos)) (parentOf (sa ref))
            hwf1 hroot1 hnext (by omega)
          have hwleq : walkList (upd sa ref (stampWord (sa ref) pos)) f
              (parentOf (sa ref)) = walkList sa f (parentOf (sa ref)) :=
            walkList_congr (fun j => (hfields j).2) f (parentOf (sa ref))
          have htail_ne : ∀ c ∈ walkList sa f (parentOf (sa ref)), c ≠ ref := by
            intro c hc he
            exact walkList_start_not_mem_tail hwf f ref hr1 hr2 (he ▸ hc)
          have hpredeq : ∀ c ∈ walkList sa f (parentOf (sa ref)),
              (fun c => offsetOf (upd sa ref (stampWord (sa ref) pos) c) == 0) c =
              (fun c => offsetOf (sa c) == 0) c := by
            intro c hc
            have : upd sa ref (stampWord (sa ref) pos) c = sa c := by
              unfold upd
              rw [if_neg (htail_ne c hc)]
            simp only [this]
          have htw : (walkList sa (f + 1) ref).takeWhile
              (fun c => offsetOf (sa c) == 0) =
              ref :: (walkList sa f (parentOf (sa ref))).takeWhile
                (fun c => offsetOf (sa c) == 0) := by
            rw [hwlcons]
            simp only [List.takeWhile]
            rw [show (offsetOf (sa ref) == 0) = true by simp [hoffr]]
          rw [hstep, hihe]
          funext j
          rw [htw, hwleq]
          rw [takeWhile_congr _ hpredeq]
          by_cases hj : j = ref
          · subst hj
            rw [if_neg (fun hm => htail_ne j (mem_takeWhile_mem _ j hm) rfl),
              if_pos (List.mem_cons_self _ _)]
            show upd sa j (stampWord (sa j) pos) j = stampWord (sa j) pos
            unfold upd
            rw [if_pos rfl]
          · have hsj : upd sa ref (stampWord (sa ref) pos) j = sa j := by
              unfold upd
              rw [if_neg hj]
            rw [hsj]
            by_cases hm : j ∈ (walkList sa f (parentOf (sa ref))).takeWhile
                (fun c => offsetOf (sa c) == 0)
            · rw [if_pos hm, if_pos (List.mem_cons_of_mem _ hm)]
            · rw [if_neg hm, if_neg (by
                intro hmem
                rcases List.mem_cons.mp hmem with he | hm2
                · exact hj he
                · exact hm hm2)]
        · -- already stamped: the walk stops, nothing is written
          have hstep : ffWalk pos (f + 1) sa ref = sa := by
            show (if offsetOf (sa ref) = 0 then
                ffWalk pos f (upd sa ref (sa ref + pos * 2 ^ 29)) (sa ref % 2 ^ 32)
              else sa) = sa
            rw [if_neg hoffr]
          have htw : (walkList sa (f + 1) ref).takeWhile
              (fun c => offsetOf (sa c) == 0) = [] := by
            rw [hwlcons]
            simp only [List.takeWhile]
            rw [show (offsetOf (sa ref) == 0) = false by simp [hoffr]]
          rw [hstep, htw]
          funext j
          rw [if_neg (List.not_mem_nil _)]

/-! ### maxTouch facts -/

theorem maxTouch_zero_or_range (sa0 pl : Nat → Nat) (lo : Nat) :
    ∀ (c j : Nat), maxTouch sa0 pl lo c j = 0 ∨
      (lo ≤ maxTouch sa0 pl lo c j ∧ maxTouch sa0 pl lo c j < lo + c ∧
       j ∈ walkList sa0 ESA_MATCHFINDER_MAX_MATCH_LENGTH
         (pl (maxTouch sa0 pl lo c j))) := by
  intro c
  induction c with
  | zero => intro j; exact Or.inl rfl
  | succ c ih =>
    intro j
    simp only [maxTouch]
    by_cases hm : j ∈ walkList sa0 ESA_MATCHFINDER_MAX_MATCH_LENGTH (pl (lo + c))
    · rw [if_pos hm]
      exact Or.inr ⟨by omega, by omega, hm⟩
    · rw [if_neg hm]
      cases ih j with
      | inl h0 => exact Or.inl h0
      | inr hr => exact Or.inr ⟨hr.1, by omega, hr.2.2⟩

theorem maxTouch_ge (sa0 pl : Nat → Nat) (lo : Nat) :
    ∀ (c j q : Nat), lo ≤ q → q < lo + c →
      j ∈ walkList sa0 ESA_MATCHFINDER_MAX_MATCH_LENGTH (pl q) →
      q ≤ maxTouch sa0 pl lo c j := by
  intro c
  induction c with
  | zero => intro j q h1 h2 _; omega
  | succ c ih =>
    intro j q h1 h2 hq
    simp only [maxTouch]
    by_cases hm : j ∈ walkList sa0 ESA_MATCHFINDER_MAX_MATCH_LENGTH (pl (lo + c))
    · rw [if_pos hm]; omega
    · rw [if_neg hm]
      have hne : q ≠ lo + c := by
        intro he
        exact hm (he ▸ hq)
      exact ih j q h1 (by omega) hq

theorem maxTouch_split_pos (sa0 pl : Nat → Nat) (lo : Nat) :
    ∀ (c j : Nat), maxTouch sa0 pl (lo + 1) c j ≠ 0 →
      maxTouch sa0 pl lo (c + 1) j = maxTouch sa0 pl (lo + 1) c j := by
  intro c
  induction c with
  | zero => intro j h; exact absurd rfl h
  | succ c ih =>
    intro j h
    have he : lo + (c + 1) = lo + 1 + c := by omega
    simp only [maxTouch] at h ⊢
    rw [he]
    by_cases hm : j ∈ walkList sa0 ESA_MATCHFINDER_MAX_MATCH_LENGTH (pl (lo + 1 + c))
    · rw [if_pos hm]
      rw [if_pos hm] at h ⊢
    · rw [if_neg hm]
      rw [if_neg hm] at h ⊢
      exact ih j h

theorem maxTouch_split_zero (sa0 pl : Nat → Nat) (lo : Nat) :
    ∀ (c j : Nat), maxTouch sa0 pl (lo + 1) c j = 0 →
      maxTouch sa0 pl lo (c + 1) j =
        (if j ∈ walkList sa0 ESA_MATCHFINDER_MAX_MATCH_LENGTH (pl lo) then lo
         else 0) := by
  intro c
  induction c with
  | zero =>
    intro j _
    show (if j ∈ walkList sa0 ESA_MATCHFINDER_MAX_MATCH_LENGTH (pl (lo + 0))
        then lo + 0 else maxTouch sa0 pl lo 0 j) = _
    rw [show lo + 0 = lo from rfl]
    by_cases hm : j ∈ walkList sa0 ESA_MATCHFINDER_MAX_MATCH_LENGTH (pl lo)
    · rw [if_pos hm, if_pos hm]
    · rw [if_neg hm, if_neg hm]
      rfl
  | succ c ih =>
    intro j h
    have he : lo + (c + 1) = lo + 1 + c := by omega
    simp only [maxTouch] at h ⊢
    rw [he]
    by_cases hm : j ∈ walkList sa0 ESA_MATCHFINDER_MAX_MATCH_LENGTH (pl (lo + 1 + c))
    · rw [if_pos hm] at h
      omega
    · rw [if_neg hm] at h
      rw [if_neg hm]
      exact ih j h

/-! ### canonArr facts -/

theorem canonArr_empty (sa0 pl : Nat → Nat) (lo : Nat) :
    canonArr sa0 pl lo 0 = sa0 := by
  funext j
  show (if (0 : Nat) = 0 then sa0 j else stampWord (sa0 j) (maxTouch sa0 pl lo 0 j))
    = sa0 j
  rw [if_pos rfl]

theorem canonArr_fields {ts n maxAdj : Nat} {sa0 pl : Nat → Nat}
    (ct : CleanTree ts n maxAdj sa0 pl) (lo c : Nat) (hhi : lo + c ≤ n) :
    ∀ j, lcpOf (canonArr sa0 pl lo c j) = lcpOf (sa0 j) ∧
      parentOf (canonArr sa0 pl lo c j) = parentOf (sa0 j) := by
  intro j
  unfold canonArr
  by_cases h0 : maxTouch sa0 pl lo c j = 0
  · rw [if_pos h0]
    exact ⟨rfl, rfl⟩
  · rw [if_neg h0]
    have hr := (maxTouch_zero_or_range sa0 pl lo c j).resolve_left h0
    have hlt : maxTouch sa0 pl lo c j < 2 ^ 29 := by
      have := ct.n29
      omega
    exact ⟨lcpOf_stampWord _ _ hlt, parentOf_stampWord _ _⟩

theorem canonArr_wf {ts n maxAdj : Nat} {sa0 pl : Nat → Nat}
    (ct : CleanTree ts n maxAdj sa0 pl) (lo c : Nat) (hhi : lo + c ≤ n) :
    NodeWf ts n maxAdj (canonArr sa0 pl lo c) :=
  NodeWf_congr (canonArr_fields ct lo c hhi) ct.wf

theorem canonArr_walk {ts n maxAdj : Nat} {sa0 pl : Nat → Nat}
    (ct : CleanTree ts n maxAdj sa0 pl) (lo c : Nat) (hhi : lo + c ≤ n)
    (f r : Nat) :
    walkList (canonArr sa0 pl lo c) f r = walkList sa0 f r :=
  walkList_congr (fun j => (canonArr_fields ct lo c hhi j).2) f r

theorem canonArr_root {ts n maxAdj : Nat} {sa0 pl : Nat → Nat}
    (_ct : CleanTree ts n maxAdj sa0 pl) (lo c : Nat) :
    canonArr sa0 pl lo c 0 = sa0 0 := by
  unfold canonArr
  by_cases h0 : maxTouch sa0 pl lo c 0 = 0
  · rw [if_pos h0]
  · exfalso
    have hr := (maxTouch_zero_or_range sa0 pl lo c 0).resolve_left h0
    exact walkList_zero_not_mem sa0 _ _ hr.2.2

/-- The canonical offset of a node is exactly its latest toucher. -/
theorem canonArr_offset {ts n maxAdj : Nat} {sa0 pl : Nat → Nat}
    (ct : CleanTree ts n maxAdj sa0 pl) (lo c : Nat) (hhi : lo + c ≤ n)
    (j : Nat) (hj1 : ts ≤ j) (hj2 : j < n) :
    offsetOf (canonArr sa0 pl lo c j) = maxTouch sa0 pl lo c j := by
  unfold canonArr
  by_cases h0 : maxTouch sa0 pl lo c j = 0
  · rw [if_pos h0, ct.clean j hj1 hj2, h0]
  · rw [if_neg h0]
    have hr := (maxTouch_zero_or_range sa0 pl lo c j).resolve_left h0
    have hlt : maxTouch sa0 pl lo c j < 2 ^ 29 := by
      have := ct.n29
      omega
    exact offsetOf_stampWord _ _ hlt

/-- Off the node range the canonical array agrees with the clean array. -/
theorem canonArr_nonnode {ts n maxAdj : Nat} {sa0 pl : Nat → Nat}
    (ct : CleanTree ts n maxAdj sa0 pl) (lo c : Nat) (_hlo : 1 ≤ lo)
    (hhi : lo + c ≤ n) (j : Nat) (hj : ¬ (ts ≤ j ∧ j < n)) :
    canonArr sa0 pl lo c j = sa0 j := by
  unfold canonArr
  by_cases h0 : maxTouch sa0 pl lo c j = 0
  · rw [if_pos h0]
  · exfalso
    have hr := (maxTouch_zero_or_range sa0 pl lo c j).resolve_left h0
    have hq : maxTouch sa0 pl lo c j < n := by omega
    have hleaf := ct.leaf (maxTouch sa0 pl lo c j) hq
    have href : pl (maxTouch sa0 pl lo c j) = 0 ∨
        (ts ≤ pl (maxTouch sa0 pl lo c j) ∧ pl (maxTouch sa0 pl lo c j) < n ∧
         lcpOf (sa0 (pl (maxTouch sa0 pl lo c j))) ≤ maxAdj) := by
      cases hleaf with
      | inl h => exact Or.inl h
      | inr h => exact Or.inr ⟨h.1, h.2, (ct.wf _ h.1 h.2).2.1⟩
    have hfacts := walkList_mem_facts ct.wf maxAdj
      ESA_MATCHFINDER_MAX_MATCH_LENGTH (pl (maxTouch sa0 pl lo c j)) href j hr.2.2
    exact hj ⟨hfacts.1, hfacts.2.1⟩

/-! ### The advancing side: stamping walks on the canonical array -/

theorem findAllLoop_sa (min1 pos : Nat) :
    ∀ (fuel : Nat) (sa : Nat → Nat) (ref best : Nat),
      (findAllLoop min1 pos fuel sa ref best).sa = stampLoop pos fuel sa ref := by
  intro fuel
  induction fuel with
  | zero => intro sa ref best; rfl
  | succ fuel ih =>
    intro sa ref best
    by_cases h0 : ref = 0
    · simp [findAllLoop, stampLoop, h0]
    · simp only [findAllLoop, stampLoop, h0, if_false]
      exact ih _ _ _

theorem findBestLoop_sa (min1 pos : Nat) :
    ∀ (fuel : Nat) (sa : Nat → Nat) (ref best : Nat),
      (findBestLoop min1 pos fuel sa ref best).1 = stampLoop pos fuel sa ref := by
  intro fuel
  induction fuel with
  | zero => intro sa ref best; rfl
  | succ fuel ih =>
    intro sa ref best
    by_cases h0 : ref = 0
    · simp [findBestLoop, stampLoop, h0]
    · simp only [findBestLoop, stampLoop, h0, if_false]
      exact ih _ _ _

/-- One stamping walk at position `p` advances the canonical array from
`[1, p)` to `[1, p + 1)`. -/
theorem canon_stampLoop {ts n maxAdj : Nat} {sa0 pl : Nat → Nat}
    (ct : CleanTree ts n maxAdj sa0 pl) (p : Nat) (hp : p < n) :
    stampLoop p ESA_MATCHFINDER_MAX_MATCH_LENGTH
      (canonArr sa0 pl 1 (p - 1)) (pl p) = canonArr sa0 pl 1 p := by
  have h64 : ESA_MATCHFINDER_MAX_MATCH_LENGTH = 64 := by decide
  have hhi : 1 + (p - 1) ≤ n := by omega
  have hp29 : p < 2 ^ 29 := by have := ct.n29; omega
  have hwfA : NodeWf ts n maxAdj (canonArr sa0 pl 1 (p - 1)) := canonArr_wf ct 1 (p - 1) hhi
  have hrefA : pl p = 0 ∨ (ts ≤ pl p ∧ pl p < n ∧
      lcpOf (canonArr sa0 pl 1 (p - 1) (pl p)) ≤ maxAdj) := by
    cases ct.leaf p hp with
    | inl h => exact Or.inl h
    | inr h =>
      refine Or.inr ⟨h.1, h.2, ?_⟩
      rw [(canonArr_fields ct 1 (p - 1) hhi (pl p)).1]
      exact (ct.wf _ h.1 h.2).2.1
  have hchar := stampLoop_char p hp29 maxAdj ESA_MATCHFINDER_MAX_MATCH_LENGTH
    (canonArr sa0 pl 1 (p - 1)) (pl p) hwfA hrefA
    (by rw [h64]; have := ct.maxA; omega)
  rw [hchar]
  funext j
  rw [canonArr_walk ct 1 (p - 1) hhi]
  by_cases hp0 : p = 0
  · subst hp0
    show (if j ∈ walkList sa0 ESA_MATCHFINDER_MAX_MATCH_LENGTH (pl 0) then
        stampWord (canonArr sa0 pl 1 0 j) 0 else canonArr sa0 pl 1 0 j) =
      canonArr sa0 pl 1 0 j
    by_cases hm : j ∈ walkList sa0 ESA_MATCHFINDER_MAX_MATCH_LENGTH (pl 0)
    · rw [if_pos hm]
      have hrefS : pl 0 = 0 ∨ (ts ≤ pl 0 ∧ pl 0 < n ∧ lcpOf (sa0 (pl 0)) ≤ maxAdj) := by
        cases ct.leaf 0 hp with
        | inl h => exact Or.inl h
        | inr h => exact Or.inr ⟨h.1, h.2, (ct.wf _ h.1 h.2).2.1⟩
      have hfacts := walkList_mem_facts ct.wf maxAdj
        ESA_MATCHFINDER_MAX_MATCH_LENGTH (pl 0) hrefS j hm
      rw [canonArr_empty]
      exact stampWord_zero_of_offset0 _ (ct.clean j hfacts.1 hfacts.2.1)
    · rw [if_neg hm]
  · -- p ≥ 1
    have hM : maxTouch sa0 pl 1 p j =
        if j ∈ walkList sa0 ESA_MATCHFINDER_MAX_MATCH_LENGTH (pl p) then p
        else maxTouch sa0 pl 1 (p - 1) j := by
      have hps : p = (p - 1) + 1 := by omega
      conv_lhs => rw [hps]
      show (if j ∈ walkList sa0 ESA_MATCHFINDER_MAX_MATCH_LENGTH (pl (1 + (p - 1)))
          then 1 + (p - 1) else maxTouch sa0 pl 1 (p - 1) j) = _
      rw [show 1 + (p - 1) = p from by omega]
    show (if j ∈ walkList sa0 ESA_MATCHFINDER_MAX_MATCH_LENGTH (pl p) then
        stampWord (canonArr sa0 pl 1 (p - 1) j) p else canonArr sa0 pl 1 (p - 1) j) =
      canonArr sa0 pl 1 p j
    unfold canonArr
    rw [hM]
    by_cases hm : j ∈ walkList sa0 ESA_MATCHFINDER_MAX_MATCH_LENGTH (pl p)
    · rw [if_pos hm, if_pos hm, if_neg hp0]
      by_cases hz : maxTouch sa0 pl 1 (p - 1) j = 0
      · rw [if_pos hz]
      · rw [if_neg hz]
        have hr := (maxTouch_zero_or_range sa0 pl 1 (p - 1) j).resolve_left hz
        have hlt : maxTouch sa0 pl 1 (p - 1) j < 2 ^ 29 := by have := ct.n29; omega
        exact stampWord_stampWord _ _ _ hlt
    · rw [if_neg hm, if_neg hm]

/-- The positions loop of `advance` turns the canonical array at `[1, p)`
into the canonical array at `[1, p + c)`. -/
theorem canon_advanceLoop {ts n maxAdj : Nat} {sa0 pl : Nat → Nat}
    (ct : CleanTree ts n maxAdj sa0 pl) :
    ∀ (c p : Nat), p + c ≤ n →
      advanceLoop pl c p (canonArr sa0 pl 1 (p - 1)) =
        canonArr sa0 pl 1 (p + c - 1) := by
  intro c
  induction c with
  | zero => intro p h; rfl
  | succ c ih =>
    intro p h
    show advanceLoop pl c (p + 1)
        (stampLoop p ESA_MATCHFINDER_MAX_MATCH_LENGTH
          (canonArr sa0 pl 1 (p - 1)) (pl p)) =
      canonArr sa0 pl 1 (p + (c + 1) - 1)
    rw [canon_stampLoop ct p (by omega)]
    have h1 : canonArr sa0 pl 1 p = canonArr sa0 pl 1 ((p + 1) - 1) := rfl
    rw [h1, ih (p + 1) (by omega)]
    rw [show p + 1 + c - 1 = p + (c + 1) - 1 from by omega]

/-! ### The rewinding side: reset and fast-forward replay -/

/-- Resetting the node range of any canonical array recovers the clean
post-parse array. -/
theorem canon_resetRange {ts n maxAdj : Nat} {sa0 pl : Nat → Nat}
    (ct : CleanTree ts n maxAdj sa0 pl) (c : Nat) (hhi : 1 + c ≤ n) :
    resetRange (canonArr sa0 pl 1 c) ts n = sa0 := by
  funext j
  unfold resetRange
  by_cases hj : ts ≤ j ∧ j < n
  · rw [if_pos hj]
    unfold canonArr
    by_cases h0 : maxTouch sa0 pl 1 c j = 0
    · rw [if_pos h0]
      exact clearOffset_of_offset0 _ (ct.clean j hj.1 hj.2)
    · rw [if_neg h0]
      have hr := (maxTouch_zero_or_range sa0 pl 1 c j).resolve_left h0
      have hlt : maxTouch sa0 pl 1 c j < 2 ^ 29 := by have := ct.n29; omega
      rw [stampWord_clearOffset _ _ hlt]
      exact clearOffset_of_offset0 _ (ct.clean j hj.1 hj.2)
  · rw [if_neg hj]
    exact canonArr_nonnode ct 1 c (Nat.le_refl 1) hhi j hj

/-- Closure of the touched set along a walk: an untouched visited node is
in the unstamped prefix of the walk. -/
theorem touch_takeWhile {ts n maxAdj : Nat} {sa0 pl : Nat → Nat}
    (ct : CleanTree ts n maxAdj sa0 pl) (lo cnt : Nat) (hhi : lo + cnt ≤ n) :
    ∀ (ℓ f ref : Nat),
      (ref = 0 ∨ (ts ≤ ref ∧ ref < n ∧ lcpOf (sa0 ref) ≤ ℓ)) →
      ℓ < f → ℓ ≤ maxAdj →
      ∀ j ∈ walkList sa0 f ref, maxTouch sa0 pl lo cnt j = 0 →
        j ∈ (walkList sa0 f ref).takeWhile
          (fun c => maxTouch sa0 pl lo cnt c == 0) := by
  have h64 : ESA_MATCHFINDER_MAX_MATCH_LENGTH = 64 := by decide
  intro ℓ
  induction ℓ with
  | zero =>
    intro f ref href hf hℓ j hj _
    have h0 : ref = 0 := by
      cases href with
      | inl h => exact h
      | inr h =>
        obtain ⟨hr1, hr2, hr3⟩ := h
        obtain ⟨hg, _, _⟩ := ct.wf ref hr1 hr2
        omega
    subst h0
    rw [walkList_ref_zero] at hj
    exact absurd hj (List.not_mem_nil _)
  | succ ℓ ih =>
    intro f ref href hf hℓ j hj hMj
    by_cases h0 : ref = 0
    · subst h0
      rw [walkList_ref_zero] at hj
      exact absurd hj (List.not_mem_nil _)
    · obtain ⟨hr1, hr2, hr3⟩ := href.resolve_left h0
      cases f with
      | zero => exact absurd hj (List.not_mem_nil _)
      | succ f =>
        obtain ⟨hg1, hg2, hpar⟩ := ct.wf ref hr1 hr2
        have hnext : parentOf (sa0 ref) = 0 ∨
            (ts ≤ parentOf (sa0 ref) ∧ parentOf (sa0 ref) < n ∧
             lcpOf (sa0 (parentOf (sa0 ref))) ≤ ℓ) := by
          cases hpar with
          | inl hq0 => exact Or.inl hq0
          | inr hq => exact Or.inr ⟨hq.1, hq.2.1, by omega⟩
        have hwlcons : walkList sa0 (f + 1) ref =
            ref :: walkList sa0 f (parentOf (sa0 ref)) := by
          simp only [walkList, h0, if_false]
        -- the visited start is itself untouched
        have hMref : maxTouch sa0 pl lo cnt ref = 0 := by
          by_contra hMr
          have hrange := (maxTouch_zero_or_range sa0 pl lo cnt ref).resolve_left hMr
          -- the toucher's walk contains ref, hence also contains j
          have hqn : maxTouch sa0 pl lo cnt ref < n := by omega
          have hrefq : pl (maxTouch sa0 pl lo cnt ref) = 0 ∨
              (ts ≤ pl (maxTouch sa0 pl lo cnt ref) ∧
               pl (maxTouch sa0 pl lo cnt ref) < n ∧
               lcpOf (sa0 (pl (maxTouch sa0 pl lo cnt ref))) ≤ maxAdj) := by
            cases ct.leaf _ hqn with
            | inl h => exact Or.inl h
            | inr h => exact Or.inr ⟨h.1, h.2, (ct.wf _ h.1 h.2).2.1⟩
          have hjref : j ∈ walkList sa0 ESA_MATCHFINDER_MAX_MATCH_LENGTH ref := by
            rw [← walkList_fuel ct.wf (ℓ + 1) (f + 1)
              ESA_MATCHFINDER_MAX_MATCH_LENGTH ref (Or.inr ⟨hr1, hr2, hr3⟩) hf
              (by rw [h64]; have := ct.maxA; omega)]
            exact hj
          have hjq := walkList_mem_trans ct.wf maxAdj
            ESA_MATCHFINDER_MAX_MATCH_LENGTH (pl (maxTouch sa0 pl lo cnt ref)) ref
            hrefq (by rw [h64]; have := ct.maxA; omega) hrange.2.2 j hjref
          have := maxTouch_ge sa0 pl lo cnt j (maxTouch sa0 pl lo cnt ref)
            hrange.1 hrange.2.1 hjq
          omega
        have htw : (walkList sa0 (f + 1) ref).takeWhile
            (fun c => maxTouch sa0 pl lo cnt c == 0) =
            ref :: (walkList sa0 f (parentOf (sa0 ref))).takeWhile
              (fun c => maxTouch sa0 pl lo cnt c == 0) := by
          rw [hwlcons]
          simp only [List.takeWhile]
          rw [show (maxTouch sa0 pl lo cnt ref == 0) = true by simp [hMref]]
        rw [htw]
        rw [hwlcons] at hj
        rcases List.mem_cons.mp hj with he | hm
        · exact he ▸ List.mem_cons_self _ _
        · exact List.mem_cons_of_mem _ (ih f (parentOf (sa0 ref)) hnext (by omega)
            (by omega) j hm hMj)

/-- One fast-forward walk at position `p` extends the canonical stamped
range downward from `[p + 1, k)` to `[p, k)`. -/
theorem canon_ffWalk {ts n maxAdj : Nat} {sa0 pl : Nat → Nat}
    (ct : CleanTree ts n maxAdj sa0 pl) (p k : Nat)
    (hp1 : 1 ≤ p) (hpk : p < k) (hkn : k ≤ n) :
    ffWalk p ESA_MATCHFINDER_MAX_MATCH_LENGTH
      (canonArr sa0 pl (p + 1) (k - p - 1)) (pl p) =
      canonArr sa0 pl p (k - p) := by
  have h64 : ESA_MATCHFINDER_MAX_MATCH_LENGTH = 64 := by decide
  have hhiB : (p + 1) + (k - p - 1) ≤ n := by omega
  have hp29 : p < 2 ^ 29 := by have := ct.n29; omega
  have hwfB : NodeWf ts n maxAdj (canonArr sa0 pl (p + 1) (k - p - 1)) :=
    canonArr_wf ct (p + 1) (k - p - 1) hhiB
  have hrootB : offsetOf (canonArr sa0 pl (p + 1) (k - p - 1) 0) ≠ 0 := by
    rw [canonArr_root ct]
    exact ct.root
  have hrefB : pl p = 0 ∨ (ts ≤ pl p ∧ pl p < n ∧
      lcpOf (canonArr sa0 pl (p + 1) (k - p - 1) (pl p)) ≤ maxAdj) := by
    cases ct.leaf p (by omega) with
    | inl h => exact Or.inl h
    | inr h =>
      refine Or.inr ⟨h.1, h.2, ?_⟩
      rw [(canonArr_fields ct (p + 1) (k - p - 1) hhiB (pl p)).1]
      exact (ct.wf _ h.1 h.2).2.1
  have hchar := ffWalk_char p hp29 maxAdj ESA_MATCHFINDER_MAX_MATCH_LENGTH
    (canonArr sa0 pl (p + 1) (k - p - 1)) (pl p) hwfB hrootB hrefB
    (by rw [h64]; have := ct.maxA; omega)
  rw [hchar]
  have hwl := canonArr_walk ct (p + 1) (k - p - 1) hhiB
    ESA_MATCHFINDER_MAX_MATCH_LENGTH (pl p)
  have hrefS : pl p = 0 ∨ (ts ≤ pl p ∧ pl p < n ∧ lcpOf (sa0 (pl p)) ≤ maxAdj) := by
    cases ct.leaf p (by omega) with
    | inl h => exact Or.inl h
    | inr h => exact Or.inr ⟨h.1, h.2, (ct.wf _ h.1 h.2).2.1⟩
  have hpred : ∀ x ∈ walkList sa0 ESA_MATCHFINDER_MAX_MATCH_LENGTH (pl p),
      (fun c => offsetOf (canonArr sa0 pl (p + 1) (k - p - 1) c) == 0) x =
      (fun c => maxTouch sa0 pl (p + 1) (k - p - 1) c == 0) x := by
    intro x hx
    have hfacts := walkList_mem_facts ct.wf maxAdj
      ESA_MATCHFINDER_MAX_MATCH_LENGTH (pl p) hrefS x hx
    show (offsetOf (canonArr sa0 pl (p + 1) (k - p - 1) x) == 0) =
      (maxTouch sa0 pl (p + 1) (k - p - 1) x == 0)
    rw [canonArr_offset ct (p + 1) (k - p - 1) hhiB x hfacts.1 hfacts.2.1]
  funext j
  rw [hwl, takeWhile_congr _ hpred]
  have hke : k - p = (k - p - 1) + 1 := by omega
  by_cases hjtw : j ∈ (walkList sa0 ESA_MATCHFINDER_MAX_MATCH_LENGTH
      (pl p)).takeWhile (fun c => maxTouch sa0 pl (p + 1) (k - p - 1) c == 0)
  · rw [if_pos hjtw]
    have hjm := mem_takeWhile_mem _ _ hjtw
    have hj0 : maxTouch sa0 pl (p + 1) (k - p - 1) j = 0 := by
      have := mem_takeWhile_pred _ _ hjtw
      simpa using this
    have hBj : canonArr sa0 pl (p + 1) (k - p - 1) j = sa0 j := by
      unfold canonArr
      rw [if_pos hj0]
    have hMp : maxTouch sa0 pl p (k - p) j = p := by
      rw [hke, maxTouch_split_zero sa0 pl p (k - p - 1) j hj0, if_pos hjm]
    show stampWord (canonArr sa0 pl (p + 1) (k - p - 1) j) p =
      canonArr sa0 pl p (k - p) j
    unfold canonArr
    rw [hMp, if_neg (by omega : ¬ p = 0), if_pos hj0]
  · rw [if_neg hjtw]
    show canonArr sa0 pl (p + 1) (k - p - 1) j = canonArr sa0 pl p (k - p) j
    by_cases hjm : j ∈ walkList sa0 ESA_MATCHFINDER_MAX_MATCH_LENGTH (pl p)
    · have hM1 : maxTouch sa0 pl (p + 1) (k - p - 1) j ≠ 0 := by
        intro hz
        exact hjtw (touch_takeWhile ct (p + 1) (k - p - 1) hhiB maxAdj
          ESA_MATCHFINDER_MAX_MATCH_LENGTH (pl p) hrefS
          (by rw [h64]; have := ct.maxA; omega) (Nat.le_refl _) j hjm hz)
      have hMeq : maxTouch sa0 pl p (k - p) j =
          maxTouch sa0 pl (p + 1) (k - p - 1) j := by
        have h2 := maxTouch_split_pos sa0 pl p (k - p - 1) j hM1
        rw [← hke] at h2
        exact h2
      unfold canonArr
      rw [hMeq]
    · have hMeq : maxTouch sa0 pl p (k - p) j =
          maxTouch sa0 pl (p + 1) (k - p - 1) j := by
        by_cases hM1 : maxTouch sa0 pl (p + 1) (k - p - 1) j = 0
        · have h2 := maxTouch_split_zero sa0 pl p (k - p - 1) j hM1
          rw [← hke] at h2
          rw [h2, if_neg hjm]
          exact hM1.symm
        · have h2 := maxTouch_split_pos sa0 pl p (k - p - 1) j hM1
          rw [← hke] at h2
          exact h2
      unfold canonArr
      rw [hMeq]

/-- The replay loop of the fast-forward: processing positions `q, …, 1`
from the canonical array stamped on `[q + 1, k)` yields the full stamped
range `[1, k)`. -/
theorem canon_ffLoop_aux {ts n maxAdj : Nat} {sa0 pl : Nat → Nat}
    (ct : CleanTree ts n maxAdj sa0 pl) (k : Nat) (hkn : k ≤ n) :
    ∀ q, q ≤ k - 1 →
      ffLoop pl (q + 1) (canonArr sa0 pl (q + 1) (k - q - 1)) =
        canonArr sa0 pl 1 (k - 1) := by
  intro q
  induction q with
  | zero =>
    intro _
    show (if (0 : Nat) = 0 then canonArr sa0 pl (0 + 1) (k - 0 - 1)
        else ffLoop pl 0 (ffWalk 0 ESA_MATCHFINDER_MAX_MATCH_LENGTH
          (canonArr sa0 pl (0 + 1) (k - 0 - 1)) (pl 0))) =
      canonArr sa0 pl 1 (k - 1)
    rw [if_pos rfl]
    show canonArr sa0 pl 1 (k - 1) = canonArr sa0 pl 1 (k - 1)
    rfl
  | succ q ih =>
    intro hq
    show (if q + 1 = 0 then canonArr sa0 pl (q + 1 + 1) (k - (q + 1) - 1)
        else ffLoop pl (q + 1) (ffWalk (q + 1) ESA_MATCHFINDER_MAX_MATCH_LENGTH
          (canonArr sa0 pl (q + 1 + 1) (k - (q + 1) - 1)) (pl (q + 1)))) =
      canonArr sa0 pl 1 (k - 1)
    rw [if_neg (by omega : ¬ q + 1 = 0)]
    have he1 : k - (q + 1) - 1 = k - (q + 1) - 1 := rfl
    have hffw := canon_ffWalk ct (q + 1) k (by omega) (by omega) hkn
    rw [show canonArr sa0 pl (q + 1 + 1) (k - (q + 1) - 1) =
        canonArr sa0 pl ((q + 1) + 1) (k - (q + 1) - 1) from rfl, hffw]
    have he2 : canonArr sa0 pl (q + 1) (k - (q + 1)) =
        canonArr sa0 pl (q + 1) (k - q - 1) := by
      rw [show k - (q + 1) = k - q - 1 from by omega]
    rw [he2]
    exact ih (by omega)

/-- The whole fast-forward replay from the clean tree produces the
canonical array. -/
theorem canon_ffLoop {ts n maxAdj : Nat} {sa0 pl : Nat → Nat}
    (ct : CleanTree ts n maxAdj sa0 pl) (k : Nat) (hk1 : 1 ≤ k) (hkn : k ≤ n) :
    ffLoop pl k sa0 = canonArr sa0 pl 1 (k - 1) := by
  have haux := canon_ffLoop_aux ct k hkn (k - 1) (Nat.le_refl _)
  have he : canonArr sa0 pl ((k - 1) + 1) (k - (k - 1) - 1) = sa0 := by
    rw [show k - (k - 1) - 1 = 0 from by omega, canonArr_empty]
  rw [he] at haux
  rw [show k = (k - 1) + 1 from by omega]
  exact haux

/-! ### Canonical form of every reachable factorization state -/

theorem rewind_pos (mf : MF) (tgt : Nat) (hlt : tgt < mf.n) :
    (esa_matchfinder_rewind mf tgt).pos = tgt := by
  unfold esa_matchfinder_rewind
  rw [if_neg (by omega : ¬ mf.n ≤ tgt)]
  by_cases h2 : mf.pos = tgt
  · rw [if_pos h2]
    exact h2
  · rw [if_neg h2]

theorem rewind_sa (mf : MF) (tgt : Nat) (hlt : tgt < mf.n) :
    (esa_matchfinder_rewind mf tgt).sa =
      if mf.pos = tgt then mf.sa
      else (if 0 < tgt then
          ffLoop mf.pl tgt
            (if mf.pos ≠ 0 then resetRange mf.sa mf.treeStart mf.treeEnd else mf.sa)
        else (if mf.pos ≠ 0 then resetRange mf.sa mf.treeStart mf.treeEnd
          else mf.sa)) := by
  unfold esa_matchfinder_rewind
  rw [if_neg (by omega : ¬ mf.n ≤ tgt)]
  by_cases h2 : mf.pos = tgt
  · rw [if_pos h2, if_pos h2]
  · rw [if_neg h2, if_neg h2]

/-- Executing one operation under its precondition moves a canonical
state to the canonical state of the new position. -/
theorem canonical_step {ts n maxAdj : Nat} {sa0 pl : Nat → Nat}
    (ct : CleanTree ts n maxAdj sa0 pl) (mf : MF) (o : Op)
    (hsa : mf.sa = canonArr sa0 pl 1 (mf.pos - 1)) (hpos : mf.pos ≤ n)
    (hpl : mf.pl = pl) (hts : mf.treeStart = ts) (hte : mf.treeEnd = n)
    (hn : mf.n = n) (hpre : preOp mf o = true) :
    (execOp mf o).sa = canonArr sa0 pl 1 ((execOp mf o).pos - 1) ∧
    (execOp mf o).pos ≤ n := by
  cases o with
  | findAll =>
    have hp : mf.pos < n := by
      have := of_decide_eq_true hpre
      rw [hn] at this
      exact this
    constructor
    · show (findAllLoop mf.min1 mf.pos ESA_MATCHFINDER_MAX_MATCH_LENGTH mf.sa
        (mf.pl mf.pos) ESA_MATCHFINDER_MAX_MATCH_LENGTH).sa =
        canonArr sa0 pl 1 (mf.pos + 1 - 1)
      rw [findAllLoop_sa, hsa, hpl, canon_stampLoop ct mf.pos hp]
      rfl
    · show mf.pos + 1 ≤ n
      omega
  | findBest =>
    have hp : mf.pos < n := by
      have := of_decide_eq_true hpre
      rw [hn] at this
      exact this
    constructor
    · show (findBestLoop mf.min1 mf.pos ESA_MATCHFINDER_MAX_MATCH_LENGTH mf.sa
        (mf.pl mf.pos) 0).1 = canonArr sa0 pl 1 (mf.pos + 1 - 1)
      rw [findBestLoop_sa, hsa, hpl, canon_stampLoop ct mf.pos hp]
      rfl
    · show mf.pos + 1 ≤ n
      omega
  | adv c =>
    have hp : mf.pos + c ≤ n := by
      have := of_decide_eq_true hpre
      rw [hn] at this
      exact this
    constructor
    · show advanceLoop mf.pl c mf.pos mf.sa = canonArr sa0 pl 1 (mf.pos + c - 1)
      rw [hpl, hsa]
      exact canon_advanceLoop ct c mf.pos hp
    · show mf.pos + c ≤ n
      omega
  | rew tgt =>
    have hp : tgt < n := by
      have := of_decide_eq_true hpre
      rw [hn] at this
      exact this
    have hltn : tgt < mf.n := by omega
    have hposEq : (execOp mf (Op.rew tgt)).pos = tgt := rewind_pos mf tgt hltn
    have hreset : (if mf.pos ≠ 0 then resetRange mf.sa mf.treeStart mf.treeEnd
        else mf.sa) = sa0 := by
      by_cases h3 : mf.pos ≠ 0
      · rw [if_pos h3, hsa, hts, hte]
        exact canon_resetRange ct (mf.pos - 1) (by omega)
      · rw [if_neg h3]
        have h0 : mf.pos = 0 := by omega
        rw [hsa, h0]
        show canonArr sa0 pl 1 0 = sa0
        exact canonArr_empty sa0 pl 1
    constructor
    · rw [hposEq]
      show (esa_matchfinder_rewind mf tgt).sa = canonArr sa0 pl 1 (tgt - 1)
      rw [rewind_sa mf tgt hltn]
      by_cases h2 : mf.pos = tgt
      · rw [if_pos h2, hsa, h2]
      · rw [if_neg h2, hreset]
        by_cases h4 : 0 < tgt
        · rw [if_pos h4, hpl]
          exact canon_ffLoop ct tgt (by omega) (by omega)
        · rw [if_neg h4]
          have h0 : tgt = 0 := by omega
          rw [h0]
          show sa0 = canonArr sa0 pl 1 0
          exact (canonArr_empty sa0 pl 1).symm
    · rw [hposEq]
      omega

/-- Every state reachable from a canonical state by well-formed
operations is canonical. -/
theorem canonical_ops {ts n maxAdj : Nat} {sa0 pl : Nat → Nat}
    (ct : CleanTree ts n maxAdj sa0 pl) :
    ∀ (ops : List Op) (mf : MF),
      mf.sa = canonArr sa0 pl 1 (mf.pos - 1) → mf.pos ≤ n →
      mf.pl = pl → mf.treeStart = ts → mf.treeEnd = n → mf.n = n →
      wfOps mf ops = true →
      (execOps mf ops).sa = canonArr sa0 pl 1 ((execOps mf ops).pos - 1) ∧
      (execOps mf ops).pos ≤ n ∧ (execOps mf ops).pl = pl ∧
      (execOps mf ops).treeStart = ts ∧ (execOps mf ops).treeEnd = n ∧
      (execOps mf ops).n = n := by
  intro ops
  induction ops with
  | nil =>
    intro mf h1 h2 h3 h4 h5 h6 _
    exact ⟨h1, h2, h3, h4, h5, h6⟩
  | cons o l ih =>
    intro mf h1 h2 h3 h4 h5 h6 hw
    simp only [wfOps, Bool.and_eq_true] at hw
    have hc := execOp_const mf o
    have hstep := canonical_step ct mf o h1 h2 h3 h4 h5 h6 hw.1
    exact ih (execOp mf o) hstep.1 hstep.2 (hc.1.trans h3) (hc.2.1.trans h4)
      (hc.2.2.1.trans h5) (hc.2.2.2.1.trans h6) hw.2

/-- The parse of an accepted configuration produces a clean tree. -/
theorem parse_cleanTree (t : Block) (minLen maxLen : Nat)
    (hmin : 2 ≤ minLen) (hminmax : minLen ≤ maxLen)
    (hmax : maxLen ≤ 63 + minLen - 1) (hn29 : t.length ≤ 2 ^ 29) :
    CleanTree (esa_matchfinder_parse t minLen maxLen).treeStart
      (esa_matchfinder_parse t minLen maxLen).n
      (esa_matchfinder_parse t minLen maxLen).maxAdj
      (esa_matchfinder_parse t minLen maxLen).sa
      (esa_matchfinder_parse t minLen maxLen).pl := by
  have hwf := parse_TreeWf t minLen maxLen hmin hminmax hmax hn29
  refine ⟨hwf.nodeWf, fun c h1 h2 => (hwf.node c h1 h2).2.2.1, ?_, hwf.ts1,
    ?_, ?_, ?_⟩
  · rw [hwf.root]
    decide
  · intro p hpn
    exact hwf.leaf p hpn
  · show t.length ≤ 2 ^ 29
    exact hn29
  · show maxLen - (minLen - 1) ≤ 63
    omega

/-- C6: rewind idempotence.  For every successfully parsed block, every
sequence of `find_all_matches` / `find_best_match` / `advance` / `rewind`
operations executed under their documented preconditions and every target
position `tgt < block_size`, the node array after rewinding to `tgt` is
bit-identical (at every slot `j`) to the node array obtained by a fresh
parse followed by `advance(tgt)`. -/
theorem rewind_idempotence (t : Block) (minLen maxLen : Nat)
    (hmin : 2 ≤ minLen) (hminmax : minLen ≤ maxLen)
    (hmax : maxLen ≤ 63 + minLen - 1) (hn29 : t.length ≤ 2 ^ 29)
    (ops : List Op)
    (hops : wfOps (esa_matchfinder_parse t minLen maxLen) ops = true)
    (tgt : Nat) (htgt : tgt < t.length) (j : Nat) :
    (esa_matchfinder_rewind
        (execOps (esa_matchfinder_parse t minLen maxLen) ops) tgt).sa j =
    (esa_matchfinder_advance (esa_matchfinder_parse t minLen maxLen) tgt).sa j := by
  have ct := parse_cleanTree t minLen maxLen hmin hminmax hmax hn29
  have hnEq : (esa_matchfinder_parse t minLen maxLen).n = t.length := rfl
  have hsa0 : (esa_matchfinder_parse t minLen maxLen).sa =
      canonArr (esa_matchfinder_parse t minLen maxLen).sa
        (esa_matchfinder_parse t minLen maxLen).pl 1
        ((esa_matchfinder_parse t minLen maxLen).pos - 1) := by
    have hp0 : (esa_matchfinder_parse t minLen maxLen).pos = 0 := rfl
    rw [hp0]
    show (esa_matchfinder_parse t minLen maxLen).sa = canonArr _ _ 1 0
    exact (canonArr_empty _ _ 1).symm
  obtain ⟨hsaF, hposF, hplF, htsF, hteF, hnF⟩ :=
    canonical_ops ct ops (esa_matchfinder_parse t minLen maxLen) hsa0
      (by show (0 : Nat) ≤ _; exact Nat.zero_le _) rfl rfl rfl rfl hops
  -- the rewind is one more well-formed operation
  have hpre : preOp (execOps (esa_matchfinder_parse t minLen maxLen) ops)
      (Op.rew tgt) = true := by
    show decide (tgt < (execOps (esa_matchfinder_parse t minLen maxLen) ops).n) = true
    rw [hnF, hnEq]
    exact decide_eq_true htgt
  have hstep := canonical_step ct
    (execOps (esa_matchfinder_parse t minLen maxLen) ops) (Op.rew tgt)
    hsaF hposF hplF htsF hteF hnF hpre
  have hposR : (execOp (execOps (esa_matchfinder_parse t minLen maxLen) ops)
      (Op.rew tgt)).pos = tgt :=
    rewind_pos _ tgt (by rw [hnF, hnEq]; exact htgt)
  have hlhs : (esa_matchfinder_rewind
      (execOps (esa_matchfinder_parse t minLen maxLen) ops) tgt).sa =
      canonArr (esa_matchfinder_parse t minLen maxLen).sa
        (esa_matchfinder_parse t minLen maxLen).pl 1 (tgt - 1) := by
    have h1 := hstep.1
    rw [hposR] at h1
    exact h1
  have hrhs : (esa_matchfinder_advance (esa_matchfinder_parse t minLen maxLen)
      tgt).sa =
      canonArr (esa_matchfinder_parse t minLen maxLen).sa
        (esa_matchfinder_parse t minLen maxLen).pl 1 (tgt - 1) := by
    show advanceLoop (esa_matchfinder_parse t minLen maxLen).pl tgt
        (esa_matchfinder_parse t minLen maxLen).pos
        (esa_matchfinder_parse t minLen maxLen).sa = _
    have hp0 : (esa_matchfinder_parse t minLen maxLen).pos = 0 := rfl
    rw [hp0]
    have hstart : (esa_matchfinder_parse t minLen maxLen).sa =
        canonArr (esa_matchfinder_parse t minLen maxLen).sa
          (esa_matchfinder_parse t minLen maxLen).pl 1 0 :=
      (canonArr_empty _ _ 1).symm
    conv_lhs => rw [hstart]
    have h2 := canon_advanceLoop ct tgt 0 (by rw [hnEq]; omega)
    rw [show (0 : Nat) - 1 = 0 from rfl] at h2
    rw [h2, show 0 + tgt - 1 = tgt - 1 from by omega]
  rw [hlhs, hrhs]

theorem rewind_idempotence_witness :
    (esa_matchfinder_rewind
        (execOps (esa_matchfinder_parse blockB 2 64)
          [Op.findAll, Op.adv 2, Op.findBest]) 2).sa 4 =
    (esa_matchfinder_advance (esa_matchfinder_parse blockB 2 64) 2).sa 4 :=
  rewind_idempotence blockB 2 64 (by decide) (by decide) (by decide) (by decide)
    [Op.findAll, Op.adv 2, Op.findBest] (by decide) 2 (by decide) 4

/-! ### C2: monotone output of find_all_matches -/

/-- Record fields of a written match under the in-range bound. -/
theorem mkRec_fields (min1 w : Nat) (hb : min1 + lcpOf w < 2 ^ 32) :
    (mkRec min1 w).length = min1 + lcpOf w ∧ (mkRec min1 w).offset = offsetOf w := by
  have ho : offsetOf w < 2 ^ 29 := offsetOf_lt w
  unfold mkRec matchVal
  constructor
  · show (min1 + lcpOf w + offsetOf w * 2 ^ 32) % 2 ^ 32 = min1 + lcpOf w
    omega
  · show (min1 + lcpOf w + offsetOf w * 2 ^ 32) / 2 ^ 32 = offsetOf w
    omega

/-- On a canonical array, offset stamps never decrease along parent
edges: every walk through a node continues through its parent. -/
theorem canon_mono {ts n maxAdj : Nat} {sa0 pl : Nat → Nat}
    (ct : CleanTree ts n maxAdj sa0 pl) (lo c : Nat) (hhi : lo + c ≤ n) :
    ∀ x, ts ≤ x → x < n → parentOf (canonArr sa0 pl lo c x) ≠ 0 →
      offsetOf (canonArr sa0 pl lo c x) ≤
        offsetOf (canonArr sa0 pl lo c (parentOf (canonArr sa0 pl lo c x))) := by
  have h64 : ESA_MATCHFINDER_MAX_MATCH_LENGTH = 64 := by decide
  intro x hx1 hx2 hpne
  have hpeq : parentOf (canonArr sa0 pl lo c x) = parentOf (sa0 x) :=
    (canonArr_fields ct lo c hhi x).2
  rw [hpeq] at hpne ⊢
  obtain ⟨_, _, hpar⟩ := ct.wf x hx1 hx2
  cases hpar with
  | inl h0 => exact absurd h0 hpne
  | inr hq =>
    obtain ⟨hq1, hq2, _⟩ := hq
    rw [canonArr_offset ct lo c hhi x hx1 hx2,
      canonArr_offset ct lo c hhi _ hq1 hq2]
    by_cases h0 : maxTouch sa0 pl lo c x = 0
    · rw [h0]
      exact Nat.zero_le _
    · have hr := (maxTouch_zero_or_range sa0 pl lo c x).resolve_left h0
      have hqn : maxTouch sa0 pl lo c x < n := by omega
      have hrefq : pl (maxTouch sa0 pl lo c x) = 0 ∨
          (ts ≤ pl (maxTouch sa0 pl lo c x) ∧ pl (maxTouch sa0 pl lo c x) < n ∧
           lcpOf (sa0 (pl (maxTouch sa0 pl lo c x))) ≤ maxAdj) := by
        cases ct.leaf _ hqn with
        | inl h => exact Or.inl h
        | inr h => exact Or.inr ⟨h.1, h.2, (ct.wf _ h.1 h.2).2.1⟩
      have hpm := walkList_parent_mem ct.wf maxAdj
        ESA_MATCHFINDER_MAX_MATCH_LENGTH (pl (maxTouch sa0 pl lo c x)) x hrefq
        (by rw [h64]; have := ct.maxA; omega) hr.2.2 hpne
      exact maxTouch_ge sa0 pl lo c (parentOf (sa0 x)) (maxTouch sa0 pl lo c x)
        hr.1 hr.2.1 hpm

/-- The emitted records of a `find_all_matches` walk, with the running
`best_match` being the packed value of the previously visited interval:
lengths strictly decrease and stamps strictly increase, every emitted
stamp exceeds the previous visit's stamp, and every emitted length is
bounded by the current node's. -/
theorem findAll_mono_walk (ts n maxAdj min1 pos : Nat) (hpos29 : pos < 2 ^ 29) :
    ∀ (fuel ℓ : Nat) (sa : Nat → Nat) (ref lprev sprev : Nat),
      NodeWf ts n maxAdj sa →
      (∀ x, ts ≤ x → x < n → lcpOf (sa x) ≤ ℓ → parentOf (sa x) ≠ 0 →
        offsetOf (sa x) ≤ offsetOf (sa (parentOf (sa x)))) →
      (ref = 0 ∨ (ts ≤ ref ∧ ref < n ∧ lcpOf (sa ref) ≤ ℓ)) →
      (ref ≠ 0 → lcpOf (sa ref) < lprev) →
      (ref ≠ 0 → sprev ≤ offsetOf (sa ref)) →
      min1 + lprev < 2 ^ 32 →
      lengthsDecreasing
        (findAllLoop min1 pos fuel sa ref (min1 + lprev + sprev * 2 ^ 32)).out
        = true ∧
      stampsIncreasing
        (findAllLoop min1 pos fuel sa ref (min1 + lprev + sprev * 2 ^ 32)).out
        = true ∧
      (∀ r ∈ (findAllLoop min1 pos fuel sa ref
          (min1 + lprev + sprev * 2 ^ 32)).out,
        r.length ≤ min1 + lcpOf (sa ref) ∧ sprev < r.offset) ∧
      (ref = 0 →
        (findAllLoop min1 pos fuel sa ref (min1 + lprev + sprev * 2 ^ 32)).out
          = []) := by
  intro fuel
  induction fuel with
  | zero =>
    intro ℓ sa ref lprev sprev _ _ _ _ _ _
    exact ⟨rfl, rfl, fun r hr => absurd hr (List.not_mem_nil _), fun _ => rfl⟩
  | succ fuel ih =>
    intro ℓ sa ref lprev sprev hwf hmono href hlp hsp hl32
    by_cases h0 : ref = 0
    · subst h0
      have hnil : (findAllLoop min1 pos (fuel + 1) sa 0
          (min1 + lprev + sprev * 2 ^ 32)).out = [] := by
        simp [findAllLoop]
      rw [hnil]
      exact ⟨rfl, rfl, fun r hr => absurd hr (List.not_mem_nil _), fun _ => rfl⟩
    · obtain ⟨hr1, hr2, hr3⟩ := href.resolve_left h0
      obtain ⟨hg1, hg2, hpar⟩ := hwf ref hr1 hr2
      have hs29 : offsetOf (sa ref) < 2 ^ 29 := offsetOf_lt _
      have hLlp : lcpOf (sa ref) < lprev := hlp h0
      have hb32 : min1 + lcpOf (sa ref) < 2 ^ 32 := by omega
      have hfields := upd_stamp_fields sa ref pos hpos29
      have hwf1 : NodeWf ts n maxAdj (upd sa ref (stampWord (sa ref) pos)) :=
        NodeWf_congr hfields hwf
      have hxne : ∀ x, lcpOf (sa x) < lcpOf (sa ref) → x ≠ ref := by
        intro x hlt he
        rw [he] at hlt
        omega
      have hmono1 : ∀ x, ts ≤ x → x < n →
          lcpOf (upd sa ref (stampWord (sa ref) pos) x) ≤ lcpOf (sa ref) - 1 →
          parentOf (upd sa ref (stampWord (sa ref) pos) x) ≠ 0 →
          offsetOf (upd sa ref (stampWord (sa ref) pos) x) ≤
            offsetOf (upd sa ref (stampWord (sa ref) pos)
              (parentOf (upd sa ref (stampWord (sa ref) pos) x))) := by
        intro x hx1 hx2 hxl hxp
        rw [(hfields x).1] at hxl
        rw [(hfields x).2] at hxp ⊢
        have hxr : x ≠ ref := hxne x (by omega)
        have hsx : upd sa ref (stampWord (sa ref) pos) x = sa x := by
          unfold upd
          rw [if_neg hxr]
        obtain ⟨_, _, hparx⟩ := hwf x hx1 hx2
        cases hparx with
        | inl hp0 => exact absurd hp0 hxp
        | inr hqx =>
          obtain ⟨hqx1, hqx2, hqx3⟩ := hqx
          have hpxr : parentOf (sa x) ≠ ref := hxne _ (by omega)
          have hspx : upd sa ref (stampWord (sa ref) pos) (parentOf (sa x)) =
              sa (parentOf (sa x)) := by
            unfold upd
            rw [if_neg hpxr]
          rw [hsx, hspx]
          exact hmono x hx1 hx2 (by omega) hxp
      have hnext : parentOf (sa ref) = 0 ∨
          (ts ≤ parentOf (sa ref) ∧ parentOf (sa ref) < n ∧
           lcpOf (upd sa ref (stampWord (sa ref) pos) (parentOf (sa ref))) ≤
             lcpOf (sa ref) - 1) := by
        cases hpar with
        | inl hp0 => exact Or.inl hp0
        | inr hq =>
          refine Or.inr ⟨hq.1, hq.2.1, ?_⟩
          rw [(hfields (parentOf (sa ref))).1]
          omega
      have hplcp : parentOf (sa ref) ≠ 0 →
          lcpOf (upd sa ref (stampWord (sa ref) pos) (parentOf (sa ref))) <
            lcpOf (sa ref) := by
        intro hp
        cases hpar with
        | inl hp0 => exact absurd hp0 hp
        | inr hq =>
          rw [(hfields (parentOf (sa ref))).1]
          exact hq.2.2
      have hpoff : parentOf (sa ref) ≠ 0 →
          offsetOf (sa ref) ≤
            offsetOf (upd sa ref (stampWord (sa ref) pos) (parentOf (sa ref))) := by
        intro hp
        cases hpar with
        | inl hp0 => exact absurd hp0 hp
        | inr hq =>
          have hpne2 : parentOf (sa ref) ≠ ref := hxne _ hq.2.2
          have heq2 : upd sa ref (stampWord (sa ref) pos) (parentOf (sa ref)) =
              sa (parentOf (sa ref)) := by
            unfold upd
            rw [if_neg hpne2]
          rw [heq2]
          exact hmono ref hr1 hr2 hr3 hp
      obtain ⟨ihA, ihB, ihC, ihD⟩ := ih (lcpOf (sa ref) - 1)
        (upd sa ref (stampWord (sa ref) pos)) (parentOf (sa ref))
        (lcpOf (sa ref)) (offsetOf (sa ref)) hwf1 hmono1 hnext hplcp hpoff
        (by omega)
      have hpl_eq : lcpOf (upd sa ref (stampWord (sa ref) pos) (parentOf (sa ref)))
          = lcpOf (sa (parentOf (sa ref))) := (hfields (parentOf (sa ref))).1
      have hheadlen : ∀ r ∈ (findAllLoop min1 pos fuel
          (upd sa ref (stampWord (sa ref) pos)) (parentOf (sa ref))
          (min1 + lcpOf (sa ref) + offsetOf (sa ref) * 2 ^ 32)).out,
          r.length < min1 + lcpOf (sa ref) ∧ offsetOf (sa ref) < r.offset := by
        intro r hrm
        by_cases hp : parentOf (sa ref) = 0
        · rw [ihD hp] at hrm
          exact absurd hrm (List.not_mem_nil _)
        · obtain ⟨hrl, hro⟩ := ihC r hrm
          have := hplcp hp
          exact ⟨by omega, hro⟩
      have hrec := mkRec_fields min1 (sa ref) hb32
      simp only [findAllLoop, h0, if_false]
      rw [show matchVal min1 (sa ref) =
        min1 + lcpOf (sa ref) + offsetOf (sa ref) * 2 ^ 32 from rfl]
      by_cases hbm : min1 + lprev + sprev * 2 ^ 32 <
          min1 + lcpOf (sa ref) + offsetOf (sa ref) * 2 ^ 32
      · rw [if_pos hbm]
        have hssp : sprev < offsetOf (sa ref) := by omega
        refine ⟨?_, ?_, ?_, fun hcon => hcon.elim⟩
        · -- lengths strictly decreasing
          cases hout : (findAllLoop min1 pos fuel
              (upd sa ref (stampWord (sa ref) pos)) (parentOf (sa ref))
              (min1 + lcpOf (sa ref) + offsetOf (sa ref) * 2 ^ 32)).out with
          | nil => rfl
          | cons r1 rest =>
            show (decide (r1.length < (mkRec min1 (sa ref)).length) &&
              lengthsDecreasing (r1 :: rest)) = true
            rw [Bool.and_eq_true, decide_eq_true_eq]
            refine ⟨?_, by rw [← hout]; exact ihA⟩
            have := hheadlen r1 (by rw [hout]; exact List.mem_cons_self _ _)
            rw [hrec.1]
            omega
        · cases hout : (findAllLoop min1 pos fuel
              (upd sa ref (stampWord (sa ref) pos)) (parentOf (sa ref))
              (min1 + lcpOf (sa ref) + offsetOf (sa ref) * 2 ^ 32)).out with
          | nil => rfl
          | cons r1 rest =>
            show (decide ((mkRec min1 (sa ref)).offset < r1.offset) &&
              stampsIncreasing (r1 :: rest)) = true
            rw [Bool.and_eq_true, decide_eq_true_eq]
            refine ⟨?_, by rw [← hout]; exact ihB⟩
            have := hheadlen r1 (by rw [hout]; exact List.mem_cons_self _ _)
            rw [hrec.2]
            omega
        · intro r hrm
          rcases List.mem_cons.mp hrm with he | hm
          · rw [he, hrec.1, hrec.2]
            exact ⟨Nat.le_refl _, hssp⟩
          · have := hheadlen r hm
            exact ⟨by omega, by omega⟩
      · rw [if_neg hbm]
        refine ⟨ihA, ihB, ?_, fun hcon => hcon.elim⟩
        intro r hrm
        have h1 := hheadlen r hrm
        have h2 : sprev ≤ offsetOf (sa ref) := hsp h0
        exact ⟨by omega, by omega⟩

theorem execOps_min1 : ∀ (ops : List Op) (mf : MF),
    (execOps mf ops).min1 = mf.min1 := by
  intro ops
  induction ops with
  | nil => intro mf; rfl
  | cons o l ih =>
    intro mf
    exact (ih (execOp mf o)).trans (execOp_const mf o).2.2.2.2.1

/-- The first visited interval of a `find_all_matches` walk is judged
against the seeded `best_match`; from the second on, the walk lemma
applies: the output is monotone. -/
theorem findAll_top_mono (ts n maxAdj min1 pos : Nat) (hpos29 : pos < 2 ^ 29)
    (hm32 : min1 + maxAdj < 2 ^ 32) (sa : Nat → Nat) (ref best : Nat)
    (hwf : NodeWf ts n maxAdj sa)
    (hmono : ∀ x, ts ≤ x → x < n → parentOf (sa x) ≠ 0 →
      offsetOf (sa x) ≤ offsetOf (sa (parentOf (sa x))))
    (href : ref = 0 ∨ (ts ≤ ref ∧ ref < n)) :
    ∀ fuel,
      lengthsDecreasing (findAllLoop min1 pos (fuel + 1) sa ref best).out = true ∧
      stampsIncreasing (findAllLoop min1 pos (fuel + 1) sa ref best).out = true := by
  intro fuel
  by_cases h0 : ref = 0
  · subst h0
    have hnil : (findAllLoop min1 pos (fuel + 1) sa 0 best).out = [] := by
      simp [findAllLoop]
    rw [hnil]
    exact ⟨rfl, rfl⟩
  · obtain ⟨hr1, hr2⟩ := href.resolve_left h0
    obtain ⟨hg1, hg2, hpar⟩ := hwf ref hr1 hr2
    have hs29 : offsetOf (sa ref) < 2 ^ 29 := offsetOf_lt _
    have hb32 : min1 + lcpOf (sa ref) < 2 ^ 32 := by omega
    have hfields := upd_stamp_fields sa ref pos hpos29
    have hwf1 : NodeWf ts n maxAdj (upd sa ref (stampWord (sa ref) pos)) :=
      NodeWf_congr hfields hwf
    have hxne : ∀ x, lcpOf (sa x) < lcpOf (sa ref) → x ≠ ref := by
      intro x hlt he
      rw [he] at hlt
      omega
    have hmono1 : ∀ x, ts ≤ x → x < n →
        lcpOf (upd sa ref (stampWord (sa ref) pos) x) ≤ lcpOf (sa ref) - 1 →
        parentOf (upd sa ref (stampWord (sa ref) pos) x) ≠ 0 →
        offsetOf (upd sa ref (stampWord (sa ref) pos) x) ≤
          offsetOf (upd sa ref (stampWord (sa ref) pos)
            (parentOf (upd sa ref (stampWord (sa ref) pos) x))) := by
      intro x hx1 hx2 hxl hxp
      rw [(hfields x).1] at hxl
      rw [(hfields x).2] at hxp ⊢
      have hxr : x ≠ ref := hxne x (by omega)
      have hsx : upd sa ref (stampWord (sa ref) pos) x = sa x := by
        unfold upd
        rw [if_neg hxr]
      obtain ⟨_, _, hparx⟩ := hwf x hx1 hx2
      cases hparx with
      | inl hp0 => exact absurd hp0 hxp
      | inr hqx =>
        obtain ⟨hqx1, hqx2, hqx3⟩ := hqx
        have hpxr : parentOf (sa x) ≠ ref := hxne _ (by omega)
        have hspx : upd sa ref (stampWord (sa ref) pos) (parentOf (sa x)) =
            sa (parentOf (sa x)) := by
          unfold upd
          rw [if_neg hpxr]
        rw [hsx, hspx]
        exact hmono x hx1 hx2 hxp
    have hnext : parentOf (sa ref) = 0 ∨
        (ts ≤ parentOf (sa ref) ∧ parentOf (sa ref) < n ∧
         lcpOf (upd sa ref (stampWord (sa ref) pos) (parentOf (sa ref))) ≤
           lcpOf (sa ref) - 1) := by
      cases hpar with
      | inl hp0 => exact Or.inl hp0
      | inr hq =>
        refine Or.inr ⟨hq.1, hq.2.1, ?_⟩
        rw [(hfields (parentOf (sa ref))).1]
        omega
    have hplcp : parentOf (sa ref) ≠ 0 →
        lcpOf (upd sa ref (stampWord (sa ref) pos) (parentOf (sa ref))) <
          lcpOf (sa ref) := by
      intro hp
      cases hpar with
      | inl hp0 => exact absurd hp0 hp
      | inr hq =>
        rw [(hfields (parentOf (sa ref))).1]
        exact hq.2.2
    have hpoff : parentOf (sa ref) ≠ 0 →
        offsetOf (sa ref) ≤
          offsetOf (upd sa ref (stampWord (sa ref) pos) (parentOf (sa ref))) := by
      intro hp
      cases hpar with
      | inl hp0 => exact absurd hp0 hp
      | inr hq =>
        have hpne2 : parentOf (sa ref) ≠ ref := hxne _ hq.2.2
        have heq2 : upd sa ref (stampWord (sa ref) pos) (parentOf (sa ref)) =
            sa (parentOf (sa ref)) := by
          unfold upd
          rw [if_neg hpne2]
        rw [heq2]
        exact hmono ref hr1 hr2 hp
    obtain ⟨ihA, ihB, ihC, ihD⟩ := findAll_mono_walk ts n maxAdj min1 pos hpos29
      fuel (lcpOf (sa ref) - 1) (upd sa ref (stampWord (sa ref) pos))
      (parentOf (sa ref)) (lcpOf (sa ref)) (offsetOf (sa ref)) hwf1 hmono1 hnext
      hplcp hpoff (by omega)
    have hheadlen : ∀ r ∈ (findAllLoop min1 pos fuel
        (upd sa ref (stampWord (sa ref) pos)) (parentOf (sa ref))
        (min1 + lcpOf (sa ref) + offsetOf (sa ref) * 2 ^ 32)).out,
        r.length < min1 + lcpOf (sa ref) ∧ offsetOf (sa ref) < r.offset := by
      intro r hrm
      by_cases hp : parentOf (sa ref) = 0
      · rw [ihD hp] at hrm
        exact absurd hrm (List.not_mem_nil _)
      · obtain ⟨hrl, hro⟩ := ihC r hrm
        have := hplcp hp
        rw [(hfields (parentOf (sa ref))).1] at this
        have hrl2 : r.length ≤ min1 +
            lcpOf (upd sa ref (stampWord (sa ref) pos) (parentOf (sa ref))) := hrl
        rw [(hfields (parentOf (sa ref))).1] at hrl2
        exact ⟨by omega, hro⟩
    have hrec := mkRec_fields min1 (sa ref) hb32
    simp only [findAllLoop, h0, if_false]
    rw [show matchVal min1 (sa ref) =
      min1 + lcpOf (sa ref) + offsetOf (sa ref) * 2 ^ 32 from rfl]
    by_cases hbm : best < min1 + lcpOf (sa ref) + offsetOf (sa ref) * 2 ^ 32
    · rw [if_pos hbm]
      constructor
      · cases hout : (findAllLoop min1 pos fuel
            (upd sa ref (stampWord (sa ref) pos)) (parentOf (sa ref))
            (min1 + lcpOf (sa ref) + offsetOf (sa ref) * 2 ^ 32)).out with
        | nil => rfl
        | cons r1 rest =>
          show (decide (r1.length < (mkRec min1 (sa ref)).length) &&
            lengthsDecreasing (r1 :: rest)) = true
          rw [Bool.and_eq_true, decide_eq_true_eq]
          refine ⟨?_, by rw [← hout]; exact ihA⟩
          have := hheadlen r1 (by rw [hout]; exact List.mem_cons_self _ _)
          rw [hrec.1]
          omega
      · cases hout : (findAllLoop min1 pos fuel
            (upd sa ref (stampWord (sa ref) pos)) (parentOf (sa ref))
            (min1 + lcpOf (sa ref) + offsetOf (sa ref) * 2 ^ 32)).out with
        | nil => rfl
        | cons r1 rest =>
          show (decide ((mkRec min1 (sa ref)).offset < r1.offset) &&
            stampsIncreasing (r1 :: rest)) = true
          rw [Bool.and_eq_true, decide_eq_true_eq]
          refine ⟨?_, by rw [← hout]; exact ihB⟩
          have := hheadlen r1 (by rw [hout]; exact List.mem_cons_self _ _)
          rw [hrec.2]
          omega
    · rw [if_neg hbm]
      exact ⟨ihA, ihB⟩

/-- C2 (amended): monotone output.  For every successfully parsed block
(with the int32-representable configuration accepted by
`esa_matchfinder_create`) and every reachable current position inside the
block, the matches written by a single `find_all_matches` call are
strictly decreasing in match length and strictly increasing in stamped
source position (equivalently, strictly increasing in offset from the
block start). -/
theorem find_all_matches_monotone_output (t : Block) (minLen maxLen : Nat)
    (hmin : 2 ≤ minLen) (hminmax : minLen ≤ maxLen)
    (hmax : maxLen ≤ 63 + minLen - 1) (hmax32 : maxLen < 2 ^ 32)
    (hn29 : t.length ≤ 2 ^ 29) (ops : List Op)
    (hops : wfOps (esa_matchfinder_parse t minLen maxLen) ops = true)
    (hpos : (execOps (esa_matchfinder_parse t minLen maxLen) ops).pos <
      t.length) :
    lengthsDecreasing (esa_matchfinder_find_all_matches
      (execOps (esa_matchfinder_parse t minLen maxLen) ops)).2 = true ∧
    stampsIncreasing (esa_matchfinder_find_all_matches
      (execOps (esa_matchfinder_parse t minLen maxLen) ops)).2 = true := by
  have ct := parse_cleanTree t minLen maxLen hmin hminmax hmax hn29
  have hnEq : (esa_matchfinder_parse t minLen maxLen).n = t.length := rfl
  have hsa0 : (esa_matchfinder_parse t minLen maxLen).sa =
      canonArr (esa_matchfinder_parse t minLen maxLen).sa
        (esa_matchfinder_parse t minLen maxLen).pl 1
        ((esa_matchfinder_parse t minLen maxLen).pos - 1) := by
    have hp0 : (esa_matchfinder_parse t minLen maxLen).pos = 0 := rfl
    rw [hp0]
    show (esa_matchfinder_parse t minLen maxLen).sa = canonArr _ _ 1 0
    exact (canonArr_empty _ _ 1).symm
  obtain ⟨hsaF, hposF, hplF, htsF, hteF, hnF⟩ :=
    canonical_ops ct ops (esa_matchfinder_parse t minLen maxLen) hsa0
      (Nat.zero_le _) rfl rfl rfl rfl hops
  have hposn : (execOps (esa_matchfinder_parse t minLen maxLen) ops).pos <
      (esa_matchfinder_parse t minLen maxLen).n := by
    rw [hnEq]
    exact hpos
  have hpos29 : (execOps (esa_matchfinder_parse t minLen maxLen) ops).pos <
      2 ^ 29 := by
    have := ct.n29
    omega
  have hm1 : (execOps (esa_matchfinder_parse t minLen maxLen) ops).min1 =
      minLen - 1 := execOps_min1 ops _
  have hhiC : 1 + ((execOps (esa_matchfinder_parse t minLen maxLen) ops).pos - 1) ≤
      (esa_matchfinder_parse t minLen maxLen).n := by omega
  have hmonoF : ∀ x, (esa_matchfinder_parse t minLen maxLen).treeStart ≤ x →
      x < (esa_matchfinder_parse t minLen maxLen).n →
      parentOf ((execOps (esa_matchfinder_parse t minLen maxLen) ops).sa x) ≠ 0 →
      offsetOf ((execOps (esa_matchfinder_parse t minLen maxLen) ops).sa x) ≤
        offsetOf ((execOps (esa_matchfinder_parse t minLen maxLen) ops).sa
          (parentOf ((execOps (esa_matchfinder_parse t minLen maxLen) ops).sa x))) := by
    rw [hsaF]
    exact canon_mono ct 1 _ hhiC
  have hwfF : NodeWf (esa_matchfinder_parse t minLen maxLen).treeStart
      (esa_matchfinder_parse t minLen maxLen).n
      (esa_matchfinder_parse t minLen maxLen).maxAdj
      (execOps (esa_matchfinder_parse t minLen maxLen) ops).sa := by
    rw [hsaF]
    exact canonArr_wf ct 1 _ hhiC
  have hrefF : (execOps (esa_matchfinder_parse t minLen maxLen) ops).pl
        ((execOps (esa_matchfinder_parse t minLen maxLen) ops).pos) = 0 ∨
      ((esa_matchfinder_parse t minLen maxLen).treeStart ≤
        (execOps (esa_matchfinder_parse t minLen maxLen) ops).pl
          ((execOps (esa_matchfinder_parse t minLen maxLen) ops).pos) ∧
       (execOps (esa_matchfinder_parse t minLen maxLen) ops).pl
          ((execOps (esa_matchfinder_parse t minLen maxLen) ops).pos) <
        (esa_matchfinder_parse t minLen maxLen).n) := by
    rw [hplF]
    exact ct.leaf _ hposn
  have hm32 : (execOps (esa_matchfinder_parse t minLen maxLen) ops).min1 +
      (esa_matchfinder_parse t minLen maxLen).maxAdj < 2 ^ 32 := by
    rw [hm1]
    show minLen - 1 + (maxLen - (minLen - 1)) < 2 ^ 32
    omega
  have htop := findAll_top_mono (esa_matchfinder_parse t minLen maxLen).treeStart
    (esa_matchfinder_parse t minLen maxLen).n
    (esa_matchfinder_parse t minLen maxLen).maxAdj
    (execOps (esa_matchfinder_parse t minLen maxLen) ops).min1
    (execOps (esa_matchfinder_parse t minLen maxLen) ops).pos hpos29 hm32
    (execOps (esa_matchfinder_parse t minLen maxLen) ops).sa
    ((execOps (esa_matchfinder_parse t minLen maxLen) ops).pl
      ((execOps (esa_matchfinder_parse t minLen maxLen) ops).pos))
    ESA_MATCHFINDER_MAX_MATCH_LENGTH hwfF hmonoF hrefF 63
  have hfe : (63 : Nat) + 1 = ESA_MATCHFINDER_MAX_MATCH_LENGTH := by decide
  rw [hfe] at htop
  exact htop

theorem find_all_matches_monotone_output_witness :
    lengthsDecreasing (esa_matchfinder_find_all_matches
      (execOps (esa_matchfinder_parse blockZ 2 64) [Op.adv 8])).2 = true ∧
    stampsIncreasing (esa_matchfinder_find_all_matches
      (execOps (esa_matchfinder_parse blockZ 2 64) [Op.adv 8])).2 = true :=
  find_all_matches_monotone_output blockZ 2 64 (by decide) (by decide) (by decide)
    (by decide) (by decide) [Op.adv 8] (by decide) (by decide)

end EsaMf
